import Mathlib

/-!
# Slice output manager (`src/slice_output_manager.cpp`)

A shallow embedding of `slice_output_manager<R>::add_outputter` and
`slice_output_manager<R>::output`.

* C `int` values are embedded as `Int`.  The flat buffer indices `fdx` and `idx` are
  reduced to the range of a 32-bit `int` (`wrapInt`), since their value exceeds it on large
  grids.  The loop variables and `bin_idx` are not reduced: every statement below is about
  runs in which `slicelength + sliceskip`, `n` and `bin_idx + 1` stay in range of `int`.
* Every call that `output()` makes on a collaborator (`gc.compute()`,
  `switch_state`, `download`, and `begin` / `accumulate` / `advance` / `flush` on a
  registered outputter) is recorded as one `Event`, in program order.
* The `for` loops are embedded by `forLoop`, which carries a fuel argument: a loop
  that has not left its condition when the fuel is used up gives `none`.
* The contents of the ten host buffers after `download` are a parameter
  (`HostFields`); `data()[idx]` is a read of the buffer at `idx`.
-/

namespace SliceOutput

/-! ## Data model -/

/-- The ten arguments of one `accumulate` call, in the order of the call. -/
structure Sample (α : Type) where
  phi : α
  chi : α
  phidot : α
  chidot : α
  phigradx : α
  chigradx : α
  phigrady : α
  chigrady : α
  phigradz : α
  chigradz : α
deriving DecidableEq, Repr

/-- The ten host buffers filled by `download` (lines 70-90), each read through `data()[_]`. -/
structure HostFields (α : Type) where
  phi_host : Int → α
  chi_host : Int → α
  phidot_host : Int → α
  chidot_host : Int → α
  phigradx_host : Int → α
  phigrady_host : Int → α
  phigradz_host : Int → α
  chigradx_host : Int → α
  chigrady_host : Int → α
  chigradz_host : Int → α

/-- Names of the device fields touched by `switch_state` and `download`. -/
inductive FieldName where
  | phi | chi | phidot | chidot
  | phigradx | phigrady | phigradz
  | chigradx | chigrady | chigradz
deriving DecidableEq, Repr

/-- One call made by `output()` on a collaborator.  The outputter calls carry the index
of the outputter in the `outputters` vector; the argument `position` of `switch_state` is
the same in all four calls and is not recorded. -/
inductive Event (α : Type) where
  | gc_compute : Event α
  | begin : Nat → Int → Event α
  | switch_state : FieldName → Event α
  | download : FieldName → Event α
  | accumulate : Nat → Sample α → Event α
  | advance : Nat → Event α
  | flush : Nat → Event α
deriving DecidableEq, Repr

/-- What `add_outputter` stores for one variable: its name and its `var_func`. -/
structure Outputter (α : Type) where
  varname : String
  vf : Sample α → α

/-- The members of `slice_output_manager<R>` used by `add_outputter` and `output`. -/
structure Manager (α : Type) where
  /-- `fs.n` -/
  n : Int
  /-- `phi.ldl` -/
  phi_ldl : Int
  /-- `gc.phigradx.ldl` -/
  phigradx_ldl : Int
  slicedim : Int
  slicelength : Int
  sliceskip : Int
  sliceaverage : Bool
  outputters : List (Outputter α)
  bin_idx : Int

/-! ## Operations -/

/-- Lines 31-37: `outputters.push_back(new slice_outputter<R>(..., varname, vf, ...))`. -/
def add_outputter {α : Type} (m : Manager α) (varname : String) (vf : Sample α → α) :
    Manager α :=
  { m with outputters := m.outputters ++ [{ varname := varname, vf := vf }] }

/-- The loop `for (int v = start; cond(v); v += step) body(v)`, collecting what the body
emits.  One unit of fuel is spent per evaluation of the condition. -/
def forLoop {β : Type} :
    Nat → (Int → Bool) → Int → (Int → Option (List β)) → Int → Option (List β)
  | 0, _, _, _, _ => none
  | fuel + 1, cond, step, body, v =>
    if cond v then
      match body v with
      | none => none
      | some out =>
        match forLoop fuel cond step body (v + step) with
        | none => none
        | some rest => some (out ++ rest)
    else some []

/-- The loop `for (auto it = outputters.begin(); it != outputters.end(); ++it) body(it)`
over the registered outputters, identified by their index. -/
def forOutputters {α β : Type} (m : Manager α) (body : Nat → List β) : List β :=
  (List.range m.outputters.length).flatMap body

/-- The ten buffer reads of lines 104-113 / 128-132 at field index `fdx` and gradient
index `idx`. -/
def readSample {α : Type} (F : HostFields α) (fdx idx : Int) : Sample α :=
  { phi := F.phi_host fdx
    chi := F.chi_host fdx
    phidot := F.phidot_host fdx
    chidot := F.chidot_host fdx
    phigradx := F.phigradx_host idx
    chigradx := F.chigradx_host idx
    phigrady := F.phigrady_host idx
    chigrady := F.chigrady_host idx
    phigradz := F.phigradz_host idx
    chigradz := F.chigradz_host idx }

/-- The value held by a 32-bit two's complement `int` that is assigned the mathematical
value `v`: `v` itself when `-2^31 ≤ v < 2^31`, and `v` reduced modulo `2^32` into that range
otherwise. -/
def wrapInt (v : Int) : Int := (v + 2147483648) % 4294967296 - 2147483648

/-- Lines 100-101 and 125-126: `int fdx = z + ldl*(y + fs.n*x)` (likewise `int idx`), the
value stored in the 32-bit `int`.  Reduction modulo `2^32` commutes with `+` and `*`, so
wrapping the exact value once gives the same `int` as wrapping after every operation. -/
def flatIndex (n ldl x y z : Int) : Int := wrapInt (z + ldl * (y + n * x))

/-- Lines 97-99: the three loops over the averaging block of the position `(i,j,k)`. -/
def blockLoop {α β : Type} (fuel : Nat) (m : Manager α) (i j k : Int)
    (body : Int → Int → Int → Option (List β)) : Option (List β) :=
  forLoop fuel (fun x => decide (x < i + m.sliceskip) && decide (x < m.n)) 1 (fun x =>
    forLoop fuel (fun y => decide (y < j + m.sliceskip) && decide (y < m.n)) 1 (fun y =>
      forLoop fuel (fun z => decide (z < k + m.sliceskip) && decide (z < m.n)) 1 (fun z =>
        body x y z) k) j) i

/-- Lines 92-94: the three loops over the visited positions. -/
def sliceLoop {α β : Type} (fuel : Nat) (m : Manager α)
    (body : Int → Int → Int → Option (List β)) : Option (List β) :=
  forLoop fuel (fun i => decide (i < (if m.slicedim > 2 then m.slicelength else 1)))
    m.sliceskip (fun i =>
    forLoop fuel (fun j => decide (j < (if m.slicedim > 1 then m.slicelength else 1)))
      m.sliceskip (fun j =>
      forLoop fuel (fun k => decide (k < m.slicelength)) m.sliceskip (fun k =>
        body i j k) 0) 0) 0

/-- Lines 100-114: the body of the innermost averaging loop at the grid point `(x,y,z)`. -/
def accumulatePoint {α : Type} (m : Manager α) (F : HostFields α) (x y z : Int) :
    List (Event α) :=
  let fdx := flatIndex m.n m.phi_ldl x y z
  let idx := flatIndex m.n m.phigradx_ldl x y z
  forOutputters m (fun o => [Event.accumulate o (readSample F fdx idx)])

/-- Lines 95-139: the body of the innermost position loop at the position `(i,j,k)`. -/
def positionBody {α : Type} (fuel : Nat) (m : Manager α) (F : HostFields α)
    (i j k : Int) : Option (List (Event α)) :=
  let flushes := forOutputters m (fun o => [Event.flush o])
  if m.sliceaverage then
    match blockLoop fuel m i j k (fun x y z => some (accumulatePoint m F x y z)) with
    | none => none
    | some accs => some (accs ++ forOutputters m (fun o => [Event.advance o]) ++ flushes)
  else
    let fdx := flatIndex m.n m.phi_ldl i j k
    let idx := flatIndex m.n m.phigradx_ldl i j k
    some (forOutputters m (fun o =>
        [Event.accumulate o (readSample F fdx idx), Event.advance o]) ++ flushes)

/-- Lines 57-90: everything `output()` does before the position loops. -/
def preamble {α : Type} (m : Manager α) : List (Event α) :=
  [Event.gc_compute]
    ++ forOutputters m (fun o => [Event.begin o m.bin_idx])
    ++ [Event.switch_state FieldName.phi, Event.switch_state FieldName.chi,
        Event.switch_state FieldName.phidot, Event.switch_state FieldName.chidot]
    ++ [Event.download FieldName.phi, Event.download FieldName.chi,
        Event.download FieldName.phidot, Event.download FieldName.chidot,
        Event.download FieldName.phigradx, Event.download FieldName.phigrady,
        Event.download FieldName.phigradz, Event.download FieldName.chigradx,
        Event.download FieldName.chigrady, Event.download FieldName.chigradz]

/-- Lines 50-145: `slice_output_manager<R>::output()`.  The result is the manager after the
call and the calls made, or `none` when a loop runs out of fuel. -/
def output {α : Type} (fuel : Nat) (m : Manager α) (F : HostFields α) :
    Option (Manager α × List (Event α)) :=
  if m.outputters.length = 0 then
    some (m, [])
  else
    match sliceLoop fuel m (positionBody fuel m F) with
    | none => none
    | some evs => some ({ m with bin_idx := m.bin_idx + 1 }, preamble m ++ evs)

/-- The positions `(i,j,k)` at which the body of the position loops runs, in order: the
loops of `sliceLoop` with a body that records its position. -/
def visited {α : Type} (fuel : Nat) (m : Manager α) : Option (List (Int × Int × Int)) :=
  sliceLoop fuel m (fun i j k => some [(i, j, k)])

/-- The grid points `(x,y,z)` at which the body of the averaging loops runs for the position
`(i,j,k)`, in order. -/
def blockPoints {α : Type} (fuel : Nat) (m : Manager α) (i j k : Int) :
    Option (List (Int × Int × Int)) :=
  blockLoop fuel m i j k (fun x y z => some [(x, y, z)])

/-! ## Closed forms of the loops -/

/-- The list `[v, v + step, ..., v + (c-1)*step]`. -/
def stride : Nat → Int → Int → List Int
  | 0, _, _ => []
  | c + 1, v, step => v :: stride c (v + step) step

/-- Number of iterations of `for (v; v < bound; v += step)` when `step ≥ 1`:
`ceil((bound - v) / step)`, and `0` when `bound ≤ v`. -/
def iterCount (v bound step : Int) : Nat := ((bound - v + step - 1) / step).toNat

/-- Bound of the `i` loop (line 92). -/
def boundI {α : Type} (m : Manager α) : Int := if m.slicedim > 2 then m.slicelength else 1

/-- Bound of the `j` loop (line 93). -/
def boundJ {α : Type} (m : Manager α) : Int := if m.slicedim > 1 then m.slicelength else 1

/-- Values taken by a position loop variable with the given bound: `0, S, 2S, ...` below
the bound. -/
def axisVisits (bound skip : Int) : List Int := stride (iterCount 0 bound skip) 0 skip

/-- Values taken by an averaging loop variable started at `i`: `i, i+1, ...` below both
`i + skip` and `n`. -/
def blockRange (i skip n : Int) : List Int := stride (iterCount i (min (i + skip) n) 1) i 1

/-- All triples of three lists, first component slowest. -/
def triples (xs ys zs : List Int) : List (Int × Int × Int) :=
  xs.flatMap (fun x => ys.flatMap (fun y => zs.map (fun z => (x, y, z))))

/-- The visited positions in closed form. -/
def positions {α : Type} (m : Manager α) : List (Int × Int × Int) :=
  triples (axisVisits (boundI m) m.sliceskip) (axisVisits (boundJ m) m.sliceskip)
    (axisVisits m.slicelength m.sliceskip)

/-- The grid points of the averaging block of a position in closed form. -/
def blockList {α : Type} (m : Manager α) (p : Int × Int × Int) : List (Int × Int × Int) :=
  triples (blockRange p.1 m.sliceskip m.n) (blockRange p.2.1 m.sliceskip m.n)
    (blockRange p.2.2 m.sliceskip m.n)

/-- The calls made at one visited position, in closed form. -/
def positionEvents {α : Type} (m : Manager α) (F : HostFields α) (p : Int × Int × Int) :
    List (Event α) :=
  (if m.sliceaverage then
      (blockList m p).flatMap (fun q => accumulatePoint m F q.1 q.2.1 q.2.2)
        ++ forOutputters m (fun o => [Event.advance o])
    else
      forOutputters m (fun o =>
        [Event.accumulate o (readSample F (flatIndex m.n m.phi_ldl p.1 p.2.1 p.2.2)
            (flatIndex m.n m.phigradx_ldl p.1 p.2.1 p.2.2)), Event.advance o]))
    ++ forOutputters m (fun o => [Event.flush o])

/-! ## Calls received by one outputter -/

/-- One call received by a single outputter. -/
inductive Call (α : Type) where
  | begin : Int → Call α
  | accumulate : Sample α → Call α
  | advance : Call α
  | flush : Call α
deriving DecidableEq, Repr

/-- The call an event makes on outputter `o`, if it is a call on that outputter. -/
def Event.callOf {α : Type} (o : Nat) : Event α → Option (Call α)
  | Event.begin o' b => if o' = o then some (Call.begin b) else none
  | Event.accumulate o' s => if o' = o then some (Call.accumulate s) else none
  | Event.advance o' => if o' = o then some Call.advance else none
  | Event.flush o' => if o' = o then some Call.flush else none
  | _ => none

/-- The sequence of calls outputter `o` receives in a sequence of events. -/
def received {α : Type} (o : Nat) (tr : List (Event α)) : List (Call α) :=
  tr.filterMap (Event.callOf o)

/-- Recogniser of `flush` calls. -/
def Call.isFlush {α : Type} : Call α → Bool
  | Call.flush => true
  | _ => false

/-- Recogniser of `accumulate` calls. -/
def Call.isAccumulate {α : Type} : Call α → Bool
  | Call.accumulate _ => true
  | _ => false

/-- The sample read at the grid point `q = (x,y,z)`: the four base fields at
the `int` index `z + phi.ldl*(y + n*x)` and the six gradients at the `int` index
`z + gc.phigradx.ldl*(y + n*x)`. -/
def sampleAt {α : Type} (m : Manager α) (F : HostFields α) (q : Int × Int × Int) : Sample α :=
  readSample F (flatIndex m.n m.phi_ldl q.1 q.2.1 q.2.2)
    (flatIndex m.n m.phigradx_ldl q.1 q.2.1 q.2.2)

/-- The samples accumulated at one visited position, in closed form. -/
def positionSamples {α : Type} (m : Manager α) (F : HostFields α) (p : Int × Int × Int) :
    List (Sample α) :=
  if m.sliceaverage then (blockList m p).map (sampleAt m F) else [sampleAt m F p]

/-- The calls outputter `o` receives at one visited position, in closed form. -/
def positionCalls {α : Type} (m : Manager α) (F : HostFields α) (p : Int × Int × Int) :
    List (Call α) :=
  (positionSamples m F p).map Call.accumulate ++ [Call.advance, Call.flush]

/-! ## Orders and examples used in the statements -/

/-- Strict lexicographic order on positions, first component most significant. -/
def lexLt (p q : Int × Int × Int) : Prop :=
  p.1 < q.1 ∨ (p.1 = q.1 ∧ (p.2.1 < q.2.1 ∨ (p.2.1 = q.2.1 ∧ p.2.2 < q.2.2)))

/-- The example grid of the spec: `n = 4`, `ldl = 4`, with the values `1,2,3,4` at the flat
indices `0..3` of the sampled axis (`x = y = 0`) and `off` at every other index of `phi`;
the other nine buffers are zero. -/
def exampleFields (off : ℚ) : HostFields ℚ :=
  { phi_host := fun idx => if 0 ≤ idx ∧ idx < 4 then (idx : ℚ) + 1 else off
    chi_host := fun _ => 0
    phidot_host := fun _ => 0
    chidot_host := fun _ => 0
    phigradx_host := fun _ => 0
    phigrady_host := fun _ => 0
    phigradz_host := fun _ => 0
    chigradx_host := fun _ => 0
    chigrady_host := fun _ => 0
    chigradz_host := fun _ => 0 }

/-- The example configuration of the spec: `n = 4`, `slicelength = 4`, `sliceskip = 2`,
`slicedim = 1`, one variable whose transform returns the field value unchanged. -/
def exampleManager (average : Bool) : Manager ℚ :=
  { n := 4, phi_ldl := 4, phigradx_ldl := 4, slicedim := 1, slicelength := 4, sliceskip := 2,
    sliceaverage := average, outputters := [{ varname := "phi", vf := fun s => s.phi }],
    bin_idx := 0 }

/-! ## Sample Accumulator -/

/-- Modelled from the spec: the Sample Accumulator (`slice_outputter<R>`, whose definition is
not part of `slice_output_manager.cpp`).  One instance per output variable: it keeps the
target cycle recorded by `begin`, a running sum with the number of points summed, the result
of the last `accumulate`, the output cursor, the value computed for the current output
position and the values committed to the sink.  Values are exact rationals; the rounding to
single precision done by the sink is not modelled. -/
structure Accumulator where
  average : Bool
  cycle : Option Int
  sum : ℚ
  count : Nat
  last : Option ℚ
  cursor : Nat
  pending : Option ℚ
  sink : List ℚ

/-- Modelled from the spec: an accumulator before its first `begin`. -/
def Accumulator.init (average : Bool) : Accumulator :=
  { average := average, cycle := none, sum := 0, count := 0, last := none, cursor := 0,
    pending := none, sink := [] }

/-- Modelled from the spec: `begin(cycle_id)` resets the averaging state, records the target
cycle and resets the write position tracking for this cycle. -/
def Accumulator.begin (a : Accumulator) (cycle_id : Int) : Accumulator :=
  { a with cycle := some cycle_id, sum := 0, count := 0, last := none, cursor := 0,
           pending := none }

/-- Modelled from the spec: `accumulate(values...)` applies the variable's transform and adds
the result into the running sum; accumulate-without-begin is an invalid-state failure. -/
def Accumulator.accumulate (vf : Sample ℚ → ℚ) (a : Accumulator) (s : Sample ℚ) :
    Option Accumulator :=
  match a.cycle with
  | none => none
  | some _ => some { a with sum := a.sum + vf s, count := a.count + 1, last := some (vf s) }

/-- Modelled from the spec: `advance()` in averaging mode divides the running sum by the
number of points actually summed, in non-averaging mode takes the single immediately-prior
`accumulate` result; it always resets the running sum and advances the output cursor by one.
Advance-without-matching-accumulate is an invalid-state failure. -/
def Accumulator.advance (a : Accumulator) : Option Accumulator :=
  match a.last with
  | none => none
  | some v =>
    some { a with pending := some (if a.average then a.sum / (a.count : ℚ) else v),
                  sum := 0, count := 0, last := none, cursor := a.cursor + 1 }

/-- Modelled from the spec: `flush()` commits the current output position's value to the
sink; flush with no pending value is an invalid-state failure. -/
def Accumulator.flush (a : Accumulator) : Option Accumulator :=
  match a.pending with
  | none => none
  | some v => some { a with pending := none, sink := a.sink ++ [v] }

/-- Modelled from the spec: one call on the accumulator. -/
def Accumulator.step (vf : Sample ℚ → ℚ) (a : Accumulator) : Call ℚ → Option Accumulator
  | Call.begin c => some (a.begin c)
  | Call.accumulate s => a.accumulate vf s
  | Call.advance => a.advance
  | Call.flush => a.flush

/-- Modelled from the spec: a sequence of calls on the accumulator, `none` on an
invalid-state failure. -/
def Accumulator.run (vf : Sample ℚ → ℚ) : Accumulator → List (Call ℚ) → Option Accumulator
  | a, [] => some a
  | a, c :: cs =>
    match a.step vf c with
    | none => none
    | some a' => Accumulator.run vf a' cs

/-- The values a fresh accumulator commits to its sink when it receives the given calls. -/
def flushedValues (average : Bool) (vf : Sample ℚ → ℚ) (calls : List (Call ℚ)) :
    Option (List ℚ) :=
  (Accumulator.run vf (Accumulator.init average) calls).map (fun a => a.sink)

/-- The values flushed for outputter `o` by one `output()` call of manager `m`. -/
def outputValues (fuel : Nat) (m : Manager ℚ) (F : HostFields ℚ) (o : Nat) :
    Option (List ℚ) :=
  match output fuel m F, m.outputters.get? o with
  | some (_, tr), some out => flushedValues m.sliceaverage out.vf (received o tr)
  | _, _ => none

/-- The value `advance` computes from the samples accumulated since the previous `advance`,
following the Sample Accumulator of the spec: their mean in averaging mode, the transform of
the last one otherwise. -/
def blockValue (average : Bool) (vf : Sample ℚ → ℚ) (samples : List (Sample ℚ)) : ℚ :=
  if average then (samples.map vf).sum / (samples.length : ℚ)
  else (samples.getLast?.map vf).getD 0

/-- A field on the example grid (`n = 4`, `ldl = 4`) that depends only on the coordinate of
the sampled axis: `phi` holds `1,2,3,4` at `z = 0..3` for every `x`, `y`; the other nine
buffers are zero. -/
def exampleFieldsZ : HostFields ℚ :=
  { phi_host := fun idx => ((idx % 4 : Int) : ℚ) + 1
    chi_host := fun _ => 0
    phidot_host := fun _ => 0
    chidot_host := fun _ => 0
    phigradx_host := fun _ => 0
    phigrady_host := fun _ => 0
    phigradz_host := fun _ => 0
    chigradx_host := fun _ => 0
    chigrady_host := fun _ => 0
    chigradz_host := fun _ => 0 }

/-- A configuration whose slice is longer than the grid: `n = 3` with padded leading
dimension `4`, `slicelength = 5`, `sliceskip = 2`, `slicedim = 3`, averaging, one variable. -/
def clippedManager : Manager ℚ :=
  { n := 3, phi_ldl := 4, phigradx_ldl := 4, slicedim := 3, slicelength := 5, sliceskip := 2,
    sliceaverage := true, outputters := [{ varname := "phi", vf := fun s => s.phi }],
    bin_idx := 0 }

/-- A configuration whose slice is longer than the grid, with `sliceskip = 1`: `n = 1`,
`ldl = 1`, `slicelength = 2`, `slicedim = 1`, one variable. -/
def shortGridManager (average : Bool) : Manager ℚ :=
  { n := 1, phi_ldl := 1, phigradx_ldl := 1, slicedim := 1, slicelength := 2, sliceskip := 1,
    sliceaverage := average, outputters := [{ varname := "phi", vf := fun s => s.phi }],
    bin_idx := 0 }

/-- A configuration with `sliceskip = 1` and a slice inside the grid: `n = 4`,
`slicelength = 4`, `slicedim = 2`, one variable. -/
def unitSkipManager : Manager ℚ :=
  { n := 4, phi_ldl := 4, phigradx_ldl := 4, slicedim := 2, slicelength := 4, sliceskip := 1,
    sliceaverage := false, outputters := [{ varname := "phi", vf := fun s => s.phi }],
    bin_idx := 0 }

/-- A manager on which `add_outputter` has not been called. -/
def idleManager : Manager ℚ :=
  { n := 4, phi_ldl := 4, phigradx_ldl := 4, slicedim := 1, slicelength := 4, sliceskip := 2,
    sliceaverage := true, outputters := [], bin_idx := 7 }

/-! ## Sequences of manager operations -/

/-- One call on the manager. -/
inductive Op (α : Type) where
  | add_outputter : String → (Sample α → α) → Op α
  | output : HostFields α → Op α

/-- The manager after one call, `none` when `output()` does not return. -/
def stepOp {α : Type} (fuel : Nat) (m : Manager α) : Op α → Option (Manager α)
  | Op.add_outputter varname vf => some (add_outputter m varname vf)
  | Op.output F =>
    match output fuel m F with
    | none => none
    | some (m', _) => some m'

/-- The manager after a sequence of calls, `none` when one of them does not return. -/
def runOps {α : Type} (fuel : Nat) : Manager α → List (Op α) → Option (Manager α)
  | m, [] => some m
  | m, op :: ops =>
    match stepOp fuel m op with
    | none => none
    | some m' => runOps fuel m' ops

/-- Number of `output()` calls in a sequence that are made with at least one outputter
registered, when `k` outputters are registered before the sequence. -/
def nonEmptyOutputs {α : Type} : Nat → List (Op α) → Nat
  | _, [] => 0
  | k, Op.add_outputter _ _ :: ops => nonEmptyOutputs (k + 1) ops
  | k, Op.output _ :: ops => (if k = 0 then 0 else 1) + nonEmptyOutputs k ops

/-- The same call in the next cycle: the argument of `begin` is one greater, every other
call is unchanged. -/
def Event.nextCycle {α : Type} : Event α → Event α
  | Event.begin o b => Event.begin o (b + 1)
  | e => e

/-- Recogniser of `begin` calls. -/
def Call.isBegin {α : Type} : Call α → Bool
  | Call.begin _ => true
  | _ => false

/-! ## Recognisers of events -/

/-- Recogniser of `begin` events, on any outputter. -/
def Event.isBegin {α : Type} : Event α → Bool
  | Event.begin _ _ => true
  | _ => false

/-- Recogniser of `flush` events, on any outputter. -/
def Event.isFlush {α : Type} : Event α → Bool
  | Event.flush _ => true
  | _ => false

/-- Recogniser of `advance` events, on any outputter. -/
def Event.isAdvance {α : Type} : Event α → Bool
  | Event.advance _ => true
  | _ => false

/-- Recogniser of the `advance` events on outputter `o`. -/
def Event.isAdvanceOf {α : Type} (o : Nat) : Event α → Bool
  | Event.advance o' => decide (o' = o)
  | _ => false

/-- The grid points lying strictly between the coordinates `a` and `b` of one axis:
`a+1, ..., b-1`. -/
def pointsBetween (a b : Int) : List Int :=
  (List.range (b - a - 1).toNat).map (fun (t : Nat) => a + 1 + (t : Int))

/-- A sequence of `add_outputter` calls, one per `(varname, vf)` pair, in order. -/
def registerAll {α : Type} (m : Manager α) (regs : List (String × (Sample α → α))) :
    Manager α :=
  regs.foldl (fun m r => add_outputter m r.1 r.2) m

/-- A configuration with `sliceskip = 0`: `n = 4`, `slicelength = 4`, `slicedim = 1`, one
variable. -/
def zeroSkipManager : Manager ℚ :=
  { n := 4, phi_ldl := 4, phigradx_ldl := 4, slicedim := 1, slicelength := 4, sliceskip := 0,
    sliceaverage := false, outputters := [{ varname := "phi", vf := fun s => s.phi }],
    bin_idx := 0 }

/-- A three-dimensional averaging configuration covering the whole grid: `n = 3`,
`slicelength = 3`, `sliceskip = 2`, `slicedim = 3`, one variable. -/
def fullGridManager : Manager ℚ :=
  { n := 3, phi_ldl := 3, phigradx_ldl := 3, slicedim := 3, slicelength := 3, sliceskip := 2,
    sliceaverage := true, outputters := [{ varname := "phi", vf := fun s => s.phi }],
    bin_idx := 0 }

/-- A large grid whose flat indices exceed the range of a 32-bit `int`: `n = 1291`,
`ldl = 1291` (`1291^3 > 2^31`), a three-dimensional slice of the whole grid with
`sliceskip = 1`, one variable. -/
def largeGridManager (average : Bool) : Manager ℚ :=
  { n := 1291, phi_ldl := 1291, phigradx_ldl := 1291, slicedim := 3, slicelength := 1291,
    sliceskip := 1, sliceaverage := average,
    outputters := [{ varname := "phi", vf := fun s => s.phi }], bin_idx := 0 }

/-- An averaging configuration whose last block is clipped: `n = 5`, `ldl = 5`,
`slicelength = 5`, `sliceskip = 2`, `slicedim = 1`, one variable. -/
def oddGridManager : Manager ℚ :=
  { n := 5, phi_ldl := 5, phigradx_ldl := 5, slicedim := 1, slicelength := 5, sliceskip := 2,
    sliceaverage := true, outputters := [{ varname := "phi", vf := fun s => s.phi }],
    bin_idx := 0 }

/-! ## Loop lemmas -/

theorem iterCount_of_not_lt (v bound step : Int) (hs : 1 ≤ step) (h : ¬ v < bound) :
    iterCount v bound step = 0 := by
  unfold iterCount
  have h1 : (bound - v + step - 1) / step < 1 := by
    apply Int.ediv_lt_of_lt_mul (by omega)
    omega
  omega

theorem iterCount_of_lt (v bound step : Int) (hs : 1 ≤ step) (h : v < bound) :
    iterCount v bound step = iterCount (v + step) bound step + 1 := by
  unfold iterCount
  have e : bound - v + step - 1 = (bound - (v + step) + step - 1) + 1 * step := by ring
  rw [e, Int.add_mul_ediv_right _ _ (by omega : step ≠ 0)]
  have h0 : 0 ≤ (bound - (v + step) + step - 1) / step :=
    Int.ediv_nonneg (by omega) (by omega)
  omega

theorem iterCount_one (v bound : Int) : iterCount v bound 1 = (bound - v).toNat := by
  unfold iterCount
  simp

/-- For `step ≥ 1`, index `t` is below the iteration count exactly when `v + t*step` is
below the bound. -/
theorem lt_iterCount_iff (v bound step : Int) (hs : 1 ≤ step) (t : Nat) :
    t < iterCount v bound step ↔ v + t * step < bound := by
  unfold iterCount
  rw [Int.lt_toNat]
  constructor
  · intro h
    have h1 : ((t : Int) + 1) * step ≤ bound - v + step - 1 :=
      (Int.le_ediv_iff_mul_le (by omega)).1 (by omega)
    nlinarith
  · intro h
    have h1 : (t : Int) + 1 ≤ (bound - v + step - 1) / step :=
      (Int.le_ediv_iff_mul_le (by omega)).2 (by nlinarith)
    omega

theorem iterCount_le_toNat (bound step : Int) (hs : 1 ≤ step) :
    iterCount 0 bound step ≤ bound.toNat := by
  by_contra h
  have h1 : bound.toNat < iterCount 0 bound step := by omega
  have h2 := (lt_iterCount_iff 0 bound step hs bound.toNat).1 h1
  have h3 : (0 : Int) ≤ (bound.toNat : Int) := by omega
  have h4 : (bound.toNat : Int) ≤ (bound.toNat : Int) * step := by nlinarith
  omega

theorem forLoop_eq {β : Type} (cond : Int → Bool) (bound step : Int)
    (body : Int → Option (List β)) (g : Int → List β)
    (hs : 1 ≤ step) (hcond : ∀ v, cond v = decide (v < bound))
    (hbody : ∀ v, body v = some (g v)) :
    ∀ (fuel : Nat) (v : Int), iterCount v bound step < fuel →
      forLoop fuel cond step body v
        = some ((stride (iterCount v bound step) v step).flatMap g) := by
  intro fuel
  induction fuel with
  | zero => intro v h; omega
  | succ fuel ih =>
    intro v h
    by_cases hv : v < bound
    · have hc := iterCount_of_lt v bound step hs hv
      have := ih (v + step) (by omega)
      simp [forLoop, hcond, hv, hbody, this, hc, stride]
    · have hc := iterCount_of_not_lt v bound step hs hv
      simp [forLoop, hcond, hv, hc, stride]

theorem stride_eq_map (c : Nat) (v step : Int) :
    stride c v step = (List.range c).map (fun (t : Nat) => v + (t : Int) * step) := by
  induction c generalizing v with
  | zero => simp [stride]
  | succ c ih =>
    rw [stride, ih, List.range_succ_eq_map]
    simp only [List.map_cons, List.map_map]
    congr 1
    · simp
    · apply List.map_congr_left
      intro t _
      simp only [Function.comp_apply, Nat.succ_eq_add_one]
      push_cast
      ring

theorem length_stride (c : Nat) (v step : Int) : (stride c v step).length = c := by
  simp [stride_eq_map]

theorem mem_stride (c : Nat) (v step x : Int) :
    x ∈ stride c v step ↔ ∃ t : Nat, t < c ∧ x = v + (t : Int) * step := by
  simp only [stride_eq_map, List.mem_map, List.mem_range]
  constructor
  · rintro ⟨t, ht, rfl⟩; exact ⟨t, ht, rfl⟩
  · rintro ⟨t, ht, rfl⟩; exact ⟨t, ht, rfl⟩

theorem pairwise_stride (c : Nat) (v step : Int) (hs : 1 ≤ step) :
    (stride c v step).Pairwise (fun a b => a < b) := by
  induction c generalizing v with
  | zero => simp [stride]
  | succ c ih =>
    rw [stride, List.pairwise_cons]
    refine ⟨?_, ih _⟩
    intro b hb
    obtain ⟨t, _, rfl⟩ := (mem_stride _ _ _ _).1 hb
    have : (0 : Int) ≤ (t : Int) * step := by positivity
    omega

theorem flatMap_triples {β : Type} (xs ys zs : List Int) (g : Int × Int × Int → List β) :
    (triples xs ys zs).flatMap g
      = xs.flatMap (fun x => ys.flatMap (fun y => zs.flatMap (fun z => g (x, y, z)))) := by
  simp only [triples, List.flatMap_assoc, List.flatMap_map]

theorem mem_triples (xs ys zs : List Int) (p : Int × Int × Int) :
    p ∈ triples xs ys zs ↔ p.1 ∈ xs ∧ p.2.1 ∈ ys ∧ p.2.2 ∈ zs := by
  obtain ⟨a, b, c⟩ := p
  simp only [triples, List.mem_flatMap, List.mem_map, Prod.mk.injEq]
  constructor
  · rintro ⟨x, hx, y, hy, z, hz, rfl, rfl, rfl⟩
    exact ⟨hx, hy, hz⟩
  · rintro ⟨hx, hy, hz⟩
    exact ⟨a, hx, b, hy, c, hz, rfl, rfl, rfl⟩

theorem length_triples (xs ys zs : List Int) :
    (triples xs ys zs).length = xs.length * (ys.length * zs.length) := by
  have hy : ∀ x : Int, (ys.flatMap fun y => zs.map fun z => (x, y, z)).length
      = ys.length * zs.length := by
    intro x
    induction ys with
    | nil => simp
    | cons y ys ih => simp only [List.flatMap_cons, List.length_append, List.length_map, ih,
        List.length_cons]; ring
  unfold triples
  induction xs with
  | nil => simp
  | cons x xs ih => simp only [List.flatMap_cons, List.length_append, hy, ih,
      List.length_cons]; ring

theorem boundI_le {α : Type} (m : Manager α) : boundI m ≤ max m.slicelength 1 := by
  unfold boundI; split <;> omega

theorem boundJ_le {α : Type} (m : Manager α) : boundJ m ≤ max m.slicelength 1 := by
  unfold boundJ; split <;> omega

theorem iterCount_lt_fuel (bound L S : Int) (fuel : Nat) (hs : 1 ≤ S)
    (hb : bound ≤ max L 1) (hfuel : max L S < fuel) : iterCount 0 bound S < fuel := by
  have := iterCount_le_toNat bound S hs
  omega

/-- Closed form of the position loops: with `sliceskip ≥ 1` and enough fuel they run the
body once at each element of `positions`, in order. -/
theorem sliceLoop_eq {α β : Type} (m : Manager α) (body : Int → Int → Int → Option (List β))
    (g : Int × Int × Int → List β) (hs : 1 ≤ m.sliceskip)
    (hbody : ∀ i j k, body i j k = some (g (i, j, k)))
    (fuel : Nat) (hfuel : max m.slicelength m.sliceskip < fuel) :
    sliceLoop fuel m body = some ((positions m).flatMap g) := by
  unfold sliceLoop positions axisVisits
  rw [flatMap_triples]
  have hk : ∀ i j, forLoop fuel (fun k => decide (k < m.slicelength)) m.sliceskip
      (fun k => body i j k) 0
      = some ((stride (iterCount 0 m.slicelength m.sliceskip) 0 m.sliceskip).flatMap
          (fun k => g (i, j, k))) := by
    intro i j
    exact forLoop_eq _ m.slicelength _ _ _ hs (fun _ => rfl) (fun k => hbody i j k) fuel 0
      (iterCount_lt_fuel _ _ _ _ hs (by omega) hfuel)
  have hj : ∀ i, forLoop fuel
      (fun j => decide (j < (if m.slicedim > 1 then m.slicelength else 1))) m.sliceskip
      (fun j => forLoop fuel (fun k => decide (k < m.slicelength)) m.sliceskip
        (fun k => body i j k) 0) 0
      = some ((stride (iterCount 0 (boundJ m) m.sliceskip) 0 m.sliceskip).flatMap
          (fun j => (stride (iterCount 0 m.slicelength m.sliceskip) 0 m.sliceskip).flatMap
            (fun k => g (i, j, k)))) := by
    intro i
    exact forLoop_eq _ (boundJ m) _ _ _ hs (fun _ => rfl) (fun j => hk i j) fuel 0
      (iterCount_lt_fuel _ _ _ _ hs (boundJ_le m) hfuel)
  exact forLoop_eq _ (boundI m) _ _ _ hs (fun _ => rfl) hj fuel 0
    (iterCount_lt_fuel _ _ _ _ hs (boundI_le m) hfuel)

theorem blockRange_count_lt (i S n : Int) (fuel : Nat) (hfuel : max S 0 < fuel) :
    iterCount i (min (i + S) n) 1 < fuel := by
  rw [iterCount_one]
  have h := min_le_left (i + S) n
  generalize min (i + S) n = b at h
  omega

theorem block_cond (i S n : Int) (x : Int) :
    (decide (x < i + S) && decide (x < n)) = decide (x < min (i + S) n) := by
  simp only [lt_min_iff, Bool.decide_and]

/-- Closed form of the averaging loops: with enough fuel they run the body once at each
element of `blockList`, in order. -/
theorem blockLoop_eq {α β : Type} (m : Manager α) (i j k : Int)
    (body : Int → Int → Int → Option (List β)) (g : Int × Int × Int → List β)
    (hbody : ∀ x y z, body x y z = some (g (x, y, z)))
    (fuel : Nat) (hfuel : max m.sliceskip 0 < fuel) :
    blockLoop fuel m i j k body = some ((blockList m (i, j, k)).flatMap g) := by
  unfold blockLoop blockList blockRange
  rw [flatMap_triples]
  have hz : ∀ x y, forLoop fuel
      (fun z => decide (z < k + m.sliceskip) && decide (z < m.n)) 1 (fun z => body x y z) k
      = some ((stride (iterCount k (min (k + m.sliceskip) m.n) 1) k 1).flatMap
          (fun z => g (x, y, z))) := by
    intro x y
    exact forLoop_eq _ (min (k + m.sliceskip) m.n) _ _ _ (le_refl 1)
      (block_cond _ _ _) (fun z => hbody x y z) fuel k (blockRange_count_lt _ _ _ _ hfuel)
  have hy : ∀ x, forLoop fuel
      (fun y => decide (y < j + m.sliceskip) && decide (y < m.n)) 1
      (fun y => forLoop fuel
        (fun z => decide (z < k + m.sliceskip) && decide (z < m.n)) 1 (fun z => body x y z) k) j
      = some ((stride (iterCount j (min (j + m.sliceskip) m.n) 1) j 1).flatMap
          (fun y => (stride (iterCount k (min (k + m.sliceskip) m.n) 1) k 1).flatMap
            (fun z => g (x, y, z)))) := by
    intro x
    exact forLoop_eq _ (min (j + m.sliceskip) m.n) _ _ _ (le_refl 1)
      (block_cond _ _ _) (fun y => hz x y) fuel j (blockRange_count_lt _ _ _ _ hfuel)
  exact forLoop_eq _ (min (i + m.sliceskip) m.n) _ _ _ (le_refl 1)
    (block_cond _ _ _) hy fuel i (blockRange_count_lt _ _ _ _ hfuel)

theorem positionBody_eq {α : Type} (m : Manager α) (F : HostFields α) (i j k : Int)
    (fuel : Nat) (hfuel : max m.sliceskip 0 < fuel) :
    positionBody fuel m F i j k = some (positionEvents m F (i, j, k)) := by
  unfold positionBody positionEvents
  by_cases ha : m.sliceaverage = true
  · have := blockLoop_eq m i j k (fun x y z => some (accumulatePoint m F x y z))
      (fun q => accumulatePoint m F q.1 q.2.1 q.2.2) (fun _ _ _ => rfl) fuel hfuel
    simp [ha, this]
  · simp [ha]

/-- Closed form of `output()`: with at least one outputter, `sliceskip ≥ 1` and enough fuel
the call returns, increments `bin_idx`, and makes the calls of `preamble` followed by those
of `positionEvents` at each visited position. -/
theorem output_eq {α : Type} (m : Manager α) (F : HostFields α) (fuel : Nat)
    (hs : 1 ≤ m.sliceskip) (hout : m.outputters ≠ [])
    (hfuel : max m.slicelength m.sliceskip < fuel) :
    output fuel m F
      = some ({ m with bin_idx := m.bin_idx + 1 },
          preamble m ++ (positions m).flatMap (positionEvents m F)) := by
  unfold output
  have hlen : m.outputters.length ≠ 0 := by
    simpa [List.length_eq_zero] using hout
  have := sliceLoop_eq m (positionBody fuel m F) (positionEvents m F) hs
    (fun i j k => positionBody_eq m F i j k fuel (by omega)) fuel hfuel
  simp [hlen, this]

theorem visited_eq {α : Type} (m : Manager α) (fuel : Nat) (hs : 1 ≤ m.sliceskip)
    (hfuel : max m.slicelength m.sliceskip < fuel) :
    visited fuel m = some (positions m) := by
  unfold visited
  rw [sliceLoop_eq m _ (fun p => [p]) hs (fun _ _ _ => rfl) fuel hfuel]
  simp

theorem blockPoints_eq {α : Type} (m : Manager α) (i j k : Int) (fuel : Nat)
    (hfuel : max m.sliceskip 0 < fuel) :
    blockPoints fuel m i j k = some (blockList m (i, j, k)) := by
  unfold blockPoints
  rw [blockLoop_eq m i j k _ (fun p => [p]) (fun _ _ _ => rfl) fuel hfuel]
  simp

/-! ## Calls received by one outputter: lemmas -/

theorem received_append {α : Type} (o : Nat) (a b : List (Event α)) :
    received o (a ++ b) = received o a ++ received o b := by
  simp [received, List.filterMap_append]

theorem received_flatMap {α β : Type} (o : Nat) (l : List β) (f : β → List (Event α)) :
    received o (l.flatMap f) = l.flatMap (fun a => received o (f a)) := by
  induction l with
  | nil => simp [received]
  | cons a l ih => simp only [List.flatMap_cons, received_append, ih]

theorem flatMap_range_single {β : Type} (h : Nat → List β) (o : Nat)
    (hne : ∀ o', o' ≠ o → h o' = []) (n : Nat) :
    (List.range n).flatMap h = if o < n then h o else [] := by
  induction n with
  | zero => simp
  | succ n ih =>
    rw [List.range_succ, List.flatMap_append, ih]
    by_cases h1 : o < n
    · have : n ≠ o := by omega
      simp [h1, hne n this, Nat.lt_succ_of_lt h1]
    · by_cases h2 : o = n
      · subst h2; simp
      · have h3 : ¬ o < n + 1 := by omega
        have : n ≠ o := fun e => h2 e.symm
        simp [h1, h3, hne n this]

theorem received_forOutputters {α : Type} (m : Manager α) (o : Nat)
    (f : Nat → List (Event α)) (hne : ∀ o', o' ≠ o → received o (f o') = [])
    (ho : o < m.outputters.length) :
    received o (forOutputters m f) = received o (f o) := by
  unfold forOutputters
  rw [received_flatMap, flatMap_range_single _ o hne]
  simp [ho]

theorem received_preamble {α : Type} (m : Manager α) (o : Nat)
    (ho : o < m.outputters.length) :
    received o (preamble m) = [Call.begin m.bin_idx] := by
  unfold preamble
  rw [received_append, received_append, received_append,
    received_forOutputters m o _ (fun o' h => by simp [received, Event.callOf, h]) ho]
  simp [received, Event.callOf]

theorem received_accumulatePoint {α : Type} (m : Manager α) (F : HostFields α) (o : Nat)
    (ho : o < m.outputters.length) (x y z : Int) :
    received o (accumulatePoint m F x y z) = [Call.accumulate (sampleAt m F (x, y, z))] := by
  unfold accumulatePoint
  rw [received_forOutputters m o _ (fun o' h => by simp [received, Event.callOf, h]) ho]
  simp [received, Event.callOf, sampleAt]

theorem received_positionEvents {α : Type} (m : Manager α) (F : HostFields α) (o : Nat)
    (ho : o < m.outputters.length) (p : Int × Int × Int) :
    received o (positionEvents m F p) = positionCalls m F p := by
  unfold positionEvents positionCalls positionSamples
  rw [received_append,
    received_forOutputters m o (fun o => [Event.flush o])
      (fun o' h => by simp [received, Event.callOf, h]) ho]
  by_cases ha : m.sliceaverage = true
  · simp only [ha, if_true]
    rw [received_append, received_flatMap,
      received_forOutputters m o (fun o => [Event.advance o])
        (fun o' h => by simp [received, Event.callOf, h]) ho]
    simp only [received_accumulatePoint m F o ho]
    have e : ∀ l : List (Int × Int × Int),
        (l.flatMap fun q => [Call.accumulate (sampleAt m F (q.1, q.2.1, q.2.2))])
          = (l.map (sampleAt m F)).map Call.accumulate := by
      intro l
      induction l with
      | nil => rfl
      | cons a l ih => simp [List.flatMap_cons, ih]
    rw [e]
    simp [received, Event.callOf]
  · have hf : m.sliceaverage = false := by simpa using ha
    simp only [hf, Bool.false_eq_true, if_false]
    rw [received_forOutputters m o
      (fun o => [Event.accumulate o (readSample F (flatIndex m.n m.phi_ldl p.1 p.2.1 p.2.2)
        (flatIndex m.n m.phigradx_ldl p.1 p.2.1 p.2.2)), Event.advance o])
      (fun o' h => by simp [received, Event.callOf, h]) ho]
    simp [received, Event.callOf, sampleAt]

/-- Closed form of what one registered outputter receives from `output()`: `begin` with the
entry value of `bin_idx`, then the calls of `positionCalls` at each visited position. -/
theorem received_output {α : Type} (m : Manager α) (F : HostFields α) (fuel : Nat)
    (hs : 1 ≤ m.sliceskip) (hfuel : max m.slicelength m.sliceskip < fuel)
    (o : Nat) (ho : o < m.outputters.length) :
    ∃ tr, output fuel m F = some ({ m with bin_idx := m.bin_idx + 1 }, tr) ∧
      received o tr = Call.begin m.bin_idx :: (positions m).flatMap (positionCalls m F) := by
  have hout : m.outputters ≠ [] := by
    intro h; rw [h] at ho; simp at ho
  refine ⟨_, output_eq m F fuel hs hout hfuel, ?_⟩
  rw [received_append, received_preamble m o ho, received_flatMap]
  simp only [received_positionEvents m F o ho]
  rfl

/-! ## Counting -/

theorem int_ceil_div (L S : Int) (hS : 1 ≤ S) :
    Int.ceil ((L : ℚ) / (S : ℚ)) = (L + S - 1) / S := by
  have hSq : (0 : ℚ) < (S : ℚ) := by exact_mod_cast (by omega : (0 : Int) < S)
  rw [Int.ceil_eq_iff]
  have h1 := Int.emod_add_ediv (L + S - 1) S
  have h2 := Int.emod_nonneg (L + S - 1) (by omega : S ≠ 0)
  have h3 := Int.emod_lt_of_pos (L + S - 1) (by omega : 0 < S)
  set q := (L + S - 1) / S with hq
  set r := (L + S - 1) % S with hr
  have e : (L : ℚ) = (S : ℚ) * (q : ℚ) - (S : ℚ) + 1 + (r : ℚ) := by
    have : L = S * q - S + 1 + r := by linarith
    exact_mod_cast this
  have hr0 : (0 : ℚ) ≤ (r : ℚ) := by exact_mod_cast h2
  have hr1 : (r : ℚ) ≤ (S : ℚ) - 1 := by exact_mod_cast (by omega : r ≤ S - 1)
  constructor
  · rw [lt_div_iff₀ hSq]
    nlinarith
  · rw [div_le_iff₀ hSq]
    nlinarith

/-- The iteration count of a position loop is `ceil(bound / skip)`. -/
theorem iterCount_eq_ceil (L S : Int) (hS : 1 ≤ S) :
    iterCount 0 L S = Nat.ceil ((L : ℚ) / (S : ℚ)) := by
  unfold iterCount
  rw [← Int.ceil_toNat, int_ceil_div L S hS]
  simp

theorem axisVisits_one (S : Int) (hS : 1 ≤ S) : axisVisits 1 S = [0] := by
  have h1 : iterCount 0 1 S = 1 := by
    rw [iterCount_of_lt 0 1 S hS (by omega), iterCount_of_not_lt (0 + S) 1 S hS (by omega)]
  simp [axisVisits, h1, stride]

theorem length_axisVisits (L S : Int) (hS : 1 ≤ S) :
    (axisVisits L S).length = Nat.ceil ((L : ℚ) / (S : ℚ)) := by
  rw [axisVisits, length_stride, iterCount_eq_ceil L S hS]

theorem countP_flatMap_const {β γ : Type} (p : γ → Bool) (f : β → List γ) (c : Nat)
    (l : List β) (h : ∀ a ∈ l, (f a).countP p = c) :
    (l.flatMap f).countP p = l.length * c := by
  induction l with
  | nil => simp
  | cons a l ih =>
    rw [List.flatMap_cons, List.countP_append, h a (List.mem_cons_self _ _),
      ih (fun b hb => h b (List.mem_cons_of_mem _ hb)), List.length_cons]
    ring

theorem countP_isFlush_positionCalls {α : Type} (m : Manager α) (F : HostFields α)
    (p : Int × Int × Int) : (positionCalls m F p).countP Call.isFlush = 1 := by
  unfold positionCalls
  rw [List.countP_append]
  have h1 : ([Call.advance, Call.flush] : List (Call α)).countP Call.isFlush = 1 := by
    simp [List.countP_cons, Call.isFlush]
  rw [h1]
  rw [List.countP_map]
  simp [List.countP_eq_zero, Call.isFlush]

/-! ## C1 -/

/-- C1: for a valid configuration (`sliceskip ≥ 1`, `slicedim ∈ {1,2,3}`; `slicelength ≥ 1`
is not needed) with at least one registered outputter, one call of `output()` returns and
every registered outputter receives exactly `ceil(L/S)^d` flush calls, whatever
`sliceaverage` is; the visited positions are the triples of three axis lists, of length
`ceil(L/S)` on each enabled axis and equal to `[0]` on each disabled axis. -/
theorem C1_flush_count {α : Type} (m : Manager α) (F : HostFields α) (fuel : Nat)
    (hS : 1 ≤ m.sliceskip)
    (hd : m.slicedim = 1 ∨ m.slicedim = 2 ∨ m.slicedim = 3)
    (hout : m.outputters ≠ [])
    (hfuel : max m.slicelength m.sliceskip < fuel) :
    ∃ m' tr xs ys zs,
      output fuel m F = some (m', tr) ∧
      (∀ o, o < m.outputters.length →
        (received o tr).countP Call.isFlush
          = Nat.ceil ((m.slicelength : ℚ) / (m.sliceskip : ℚ)) ^ m.slicedim.toNat) ∧
      visited fuel m = some (triples xs ys zs) ∧
      zs.length = Nat.ceil ((m.slicelength : ℚ) / (m.sliceskip : ℚ)) ∧
      (if 1 < m.slicedim then
          ys.length = Nat.ceil ((m.slicelength : ℚ) / (m.sliceskip : ℚ)) else ys = [0]) ∧
      (if 2 < m.slicedim then
          xs.length = Nat.ceil ((m.slicelength : ℚ) / (m.sliceskip : ℚ)) else xs = [0]) := by
  have hz := length_axisVisits m.slicelength m.sliceskip hS
  have hone := axisVisits_one m.sliceskip hS
  refine ⟨{ m with bin_idx := m.bin_idx + 1 }, _, axisVisits (boundI m) m.sliceskip,
    axisVisits (boundJ m) m.sliceskip, axisVisits m.slicelength m.sliceskip,
    output_eq m F fuel hS hout hfuel, ?_, visited_eq m fuel hS hfuel, hz, ?_, ?_⟩
  · intro o ho
    obtain ⟨tr, htr, hrec⟩ := received_output m F fuel hS hfuel o ho
    rw [output_eq m F fuel hS hout hfuel] at htr
    have htr2 := (Prod.mk.inj (Option.some.inj htr)).2
    rw [htr2, hrec, List.countP_cons,
      countP_flatMap_const _ _ 1 _ (fun p _ => countP_isFlush_positionCalls m F p)]
    simp only [Call.isFlush, Bool.false_eq_true, if_false, add_zero, mul_one]
    rw [positions, length_triples, hz]
    rcases hd with h | h | h
    · simp [boundI, boundJ, h, hone]
    · simp [boundI, boundJ, h, hone, hz]; ring
    · simp [boundI, boundJ, h, hz]; ring
  · unfold boundJ
    split
    · exact hz
    · exact hone
  · unfold boundI
    split
    · exact hz
    · exact hone

/-- Instance of C1 on the example configuration of the spec in averaging mode, with fuel 5. -/
theorem C1_flush_count_witness :
    ∃ m' tr xs ys zs,
      output 5 (exampleManager true) (exampleFields 0) = some (m', tr) ∧
      (∀ o, o < (exampleManager true).outputters.length →
        (received o tr).countP Call.isFlush
          = Nat.ceil ((((exampleManager true).slicelength : Int) : ℚ)
              / (((exampleManager true).sliceskip : Int) : ℚ))
            ^ (exampleManager true).slicedim.toNat) ∧
      visited 5 (exampleManager true) = some (triples xs ys zs) ∧
      zs.length = Nat.ceil ((((exampleManager true).slicelength : Int) : ℚ)
              / (((exampleManager true).sliceskip : Int) : ℚ)) ∧
      (if 1 < (exampleManager true).slicedim then
          ys.length = Nat.ceil ((((exampleManager true).slicelength : Int) : ℚ)
              / (((exampleManager true).sliceskip : Int) : ℚ)) else ys = [0]) ∧
      (if 2 < (exampleManager true).slicedim then
          xs.length = Nat.ceil ((((exampleManager true).slicelength : Int) : ℚ)
              / (((exampleManager true).sliceskip : Int) : ℚ)) else xs = [0]) :=
  C1_flush_count (exampleManager true) (exampleFields 0) 5 (by decide) (by decide)
    (by simp [exampleManager]) (by decide)

/-! ## C2 -/

theorem mem_axisVisits (bound S x : Int) (hS : 1 ≤ S) :
    x ∈ axisVisits bound S ↔ 0 ≤ x ∧ S ∣ x ∧ x < bound := by
  unfold axisVisits
  rw [mem_stride]
  constructor
  · rintro ⟨t, ht, rfl⟩
    have h1 := (lt_iterCount_iff 0 bound S hS t).1 ht
    refine ⟨?_, ?_, by omega⟩
    · have : (0 : Int) ≤ (t : Int) * S := by positivity
      omega
    · exact ⟨t, by ring⟩
  · rintro ⟨h0, ⟨q, rfl⟩, hb⟩
    have hq : 0 ≤ q := by
      by_contra hneg
      have : S * q ≤ S * (-1) := Int.mul_le_mul_of_nonneg_left (by omega) (by omega)
      omega
    refine ⟨q.toNat, ?_, ?_⟩
    · rw [lt_iterCount_iff 0 bound S hS]
      have : ((q.toNat : Nat) : Int) = q := Int.toNat_of_nonneg hq
      rw [this]
      linarith
    · have : ((q.toNat : Nat) : Int) = q := Int.toNat_of_nonneg hq
      rw [this]
      ring

theorem pairwise_triples (xs ys zs : List Int)
    (hx : xs.Pairwise (fun a b => a < b)) (hy : ys.Pairwise (fun a b => a < b))
    (hz : zs.Pairwise (fun a b => a < b)) :
    (triples xs ys zs).Pairwise lexLt := by
  unfold triples
  rw [List.pairwise_flatMap]
  constructor
  · intro x _
    rw [List.pairwise_flatMap]
    constructor
    · intro y _
      rw [List.pairwise_map]
      exact hz.imp (fun h => Or.inr ⟨rfl, Or.inr ⟨rfl, h⟩⟩)
    · refine hy.imp ?_
      intro a b hab p hp q hq
      obtain ⟨z1, _, rfl⟩ := List.mem_map.1 hp
      obtain ⟨z2, _, rfl⟩ := List.mem_map.1 hq
      exact Or.inr ⟨rfl, Or.inl hab⟩
  · refine hx.imp ?_
    intro a b hab p hp q hq
    obtain ⟨y1, _, hp⟩ := List.mem_flatMap.1 hp
    obtain ⟨z1, _, rfl⟩ := List.mem_map.1 hp
    obtain ⟨y2, _, hq⟩ := List.mem_flatMap.1 hq
    obtain ⟨z2, _, rfl⟩ := List.mem_map.1 hq
    exact Or.inl hab

/-- C2: for `sliceskip = S ≥ 1` the position loops of `output()` return, and the list of
visited positions consists exactly of the triples `(i,j,k)` with `i` a non-negative multiple
of `S` below `(slicedim > 2 ? slicelength : 1)`, `j` likewise below
`(slicedim > 1 ? slicelength : 1)` and `k` below `slicelength`; the list is strictly
increasing in lexicographic order (`i` slowest, `k` fastest), and every coordinate lies in
`[0, slicelength)` on a sampled axis and is `0` on a non-sampled axis. -/
theorem C2_visited_positions {α : Type} (m : Manager α) (fuel : Nat)
    (hS : 1 ≤ m.sliceskip) (hfuel : max m.slicelength m.sliceskip < fuel) :
    ∃ ps, visited fuel m = some ps ∧
      (∀ i j k, (i, j, k) ∈ ps ↔
        (0 ≤ i ∧ m.sliceskip ∣ i ∧ i < (if m.slicedim > 2 then m.slicelength else 1)) ∧
        (0 ≤ j ∧ m.sliceskip ∣ j ∧ j < (if m.slicedim > 1 then m.slicelength else 1)) ∧
        (0 ≤ k ∧ m.sliceskip ∣ k ∧ k < m.slicelength)) ∧
      ps.Pairwise lexLt ∧
      (∀ i j k, (i, j, k) ∈ ps →
        (if m.slicedim > 2 then 0 ≤ i ∧ i < m.slicelength else i = 0) ∧
        (if m.slicedim > 1 then 0 ≤ j ∧ j < m.slicelength else j = 0) ∧
        0 ≤ k ∧ k < m.slicelength) := by
  have hmem : ∀ i j k, (i, j, k) ∈ positions m ↔
      (0 ≤ i ∧ m.sliceskip ∣ i ∧ i < (if m.slicedim > 2 then m.slicelength else 1)) ∧
      (0 ≤ j ∧ m.sliceskip ∣ j ∧ j < (if m.slicedim > 1 then m.slicelength else 1)) ∧
      (0 ≤ k ∧ m.sliceskip ∣ k ∧ k < m.slicelength) := by
    intro i j k
    rw [positions, mem_triples, mem_axisVisits _ _ _ hS, mem_axisVisits _ _ _ hS,
      mem_axisVisits _ _ _ hS]
    rfl
  refine ⟨positions m, visited_eq m fuel hS hfuel, hmem, ?_, ?_⟩
  · exact pairwise_triples _ _ _ (pairwise_stride _ _ _ hS) (pairwise_stride _ _ _ hS)
      (pairwise_stride _ _ _ hS)
  · intro i j k h
    obtain ⟨⟨hi0, _, hi⟩, ⟨hj0, _, hj⟩, hk0, _, hk⟩ := (hmem i j k).1 h
    refine ⟨?_, ?_, hk0, hk⟩
    · split
      · rename_i h2; rw [if_pos h2] at hi; exact ⟨hi0, hi⟩
      · rename_i h2; rw [if_neg h2] at hi; omega
    · split
      · rename_i h2; rw [if_pos h2] at hj; exact ⟨hj0, hj⟩
      · rename_i h2; rw [if_neg h2] at hj; omega

/-- Instance of C2 on the example configuration of the spec, with fuel 5. -/
theorem C2_visited_positions_witness :
    ∃ ps, visited 5 (exampleManager false) = some ps ∧
      (∀ i j k, (i, j, k) ∈ ps ↔
        (0 ≤ i ∧ (exampleManager false).sliceskip ∣ i ∧
          i < (if (exampleManager false).slicedim > 2
            then (exampleManager false).slicelength else 1)) ∧
        (0 ≤ j ∧ (exampleManager false).sliceskip ∣ j ∧
          j < (if (exampleManager false).slicedim > 1
            then (exampleManager false).slicelength else 1)) ∧
        (0 ≤ k ∧ (exampleManager false).sliceskip ∣ k ∧
          k < (exampleManager false).slicelength)) ∧
      ps.Pairwise lexLt ∧
      (∀ i j k, (i, j, k) ∈ ps →
        (if (exampleManager false).slicedim > 2
          then 0 ≤ i ∧ i < (exampleManager false).slicelength else i = 0) ∧
        (if (exampleManager false).slicedim > 1
          then 0 ≤ j ∧ j < (exampleManager false).slicelength else j = 0) ∧
        0 ≤ k ∧ k < (exampleManager false).slicelength) :=
  C2_visited_positions (exampleManager false) 5 (by decide) (by decide)

/-! ## Sample Accumulator: lemmas -/

theorem run_append (vf : Sample ℚ → ℚ) (a : Accumulator) (xs ys : List (Call ℚ)) :
    Accumulator.run vf a (xs ++ ys)
      = (Accumulator.run vf a xs).bind (fun a' => Accumulator.run vf a' ys) := by
  induction xs generalizing a with
  | nil => simp [Accumulator.run]
  | cons x xs ih =>
    simp only [List.cons_append, Accumulator.run]
    cases h : a.step vf x with
    | none => simp
    | some a' => simp [ih]

theorem run_accumulates (vf : Sample ℚ → ℚ) (avg : Bool) (c : Int) (cur : Nat)
    (pend : Option ℚ) (sink : List ℚ) (samples : List (Sample ℚ)) :
    ∀ (sum : ℚ) (count : Nat) (last : Option ℚ),
      Accumulator.run vf
          { average := avg, cycle := some c, sum := sum, count := count, last := last,
            cursor := cur, pending := pend, sink := sink }
          (samples.map Call.accumulate)
        = some { average := avg, cycle := some c, sum := sum + (samples.map vf).sum,
                 count := count + samples.length,
                 last := (match samples.getLast? with
                          | some s => some (vf s)
                          | none => last),
                 cursor := cur, pending := pend, sink := sink } := by
  induction samples with
  | nil => intro sum count last; simp [Accumulator.run]
  | cons s ss ih =>
    intro sum count last
    simp only [List.map_cons, Accumulator.run, Accumulator.step, Accumulator.accumulate]
    rw [ih]
    have e1 : sum + vf s + (ss.map vf).sum = sum + (vf s + (ss.map vf).sum) := by ring
    have e2 : count + 1 + ss.length = count + (ss.length + 1) := by omega
    cases ss with
    | nil => simp
    | cons t ts =>
      simp only [List.sum_cons, List.map_cons, List.length_cons, List.getLast?_cons_cons] at *
      rw [e1, e2]
      cases h : (t :: ts).getLast? with
      | none => exact absurd (List.getLast?_eq_none_iff.1 h) (List.cons_ne_nil _ _)
      | some u => rfl

theorem run_position (vf : Sample ℚ → ℚ) (avg : Bool) (c : Int) (cur : Nat)
    (sink : List ℚ) (samples : List (Sample ℚ)) (hne : samples ≠ []) :
    Accumulator.run vf
        { average := avg, cycle := some c, sum := 0, count := 0, last := none,
          cursor := cur, pending := none, sink := sink }
        (samples.map Call.accumulate ++ [Call.advance, Call.flush])
      = some { average := avg, cycle := some c, sum := 0, count := 0, last := none,
               cursor := cur + 1, pending := none,
               sink := sink ++ [blockValue avg vf samples] } := by
  rw [run_append, run_accumulates]
  obtain ⟨s, hs⟩ : ∃ s, samples.getLast? = some s := by
    cases h : samples.getLast? with
    | none => exact absurd (List.getLast?_eq_none_iff.1 h) hne
    | some s => exact ⟨s, rfl⟩
  simp [hs, Accumulator.run, Accumulator.step, Accumulator.advance, Accumulator.flush,
    blockValue]

theorem run_positions {β : Type} (vf : Sample ℚ → ℚ) (avg : Bool) (c : Int)
    (S : β → List (Sample ℚ)) (ps : List β) (hne : ∀ p ∈ ps, S p ≠ []) :
    ∀ (cur : Nat) (sink : List ℚ),
      Accumulator.run vf
          { average := avg, cycle := some c, sum := 0, count := 0, last := none,
            cursor := cur, pending := none, sink := sink }
          (ps.flatMap (fun p => (S p).map Call.accumulate ++ [Call.advance, Call.flush]))
        = some { average := avg, cycle := some c, sum := 0, count := 0, last := none,
                 cursor := cur + ps.length, pending := none,
                 sink := sink ++ ps.map (fun p => blockValue avg vf (S p)) } := by
  induction ps with
  | nil => intro cur sink; simp [Accumulator.run]
  | cons p ps ih =>
    intro cur sink
    rw [List.flatMap_cons, run_append,
      run_position vf avg c cur sink (S p) (hne p (List.mem_cons_self _ _))]
    simp only [Option.some_bind]
    rw [ih (fun q hq => hne q (List.mem_cons_of_mem _ hq))]
    simp only [List.length_cons, List.map_cons, List.append_assoc, List.singleton_append]
    have e : cur + 1 + ps.length = cur + (ps.length + 1) := by omega
    rw [e]

/-- Values committed by a fresh accumulator that receives `begin` and then, for each element
of `ps`, a non-empty list of `accumulate` calls followed by `advance` and `flush`. -/
theorem flushedValues_eq {β : Type} (vf : Sample ℚ → ℚ) (avg : Bool) (b : Int)
    (S : β → List (Sample ℚ)) (ps : List β) (hne : ∀ p ∈ ps, S p ≠ []) :
    flushedValues avg vf
        (Call.begin b ::
          ps.flatMap (fun p => (S p).map Call.accumulate ++ [Call.advance, Call.flush]))
      = some (ps.map (fun p => blockValue avg vf (S p))) := by
  unfold flushedValues
  simp only [Accumulator.run, Accumulator.step, Accumulator.begin, Accumulator.init]
  rw [run_positions vf avg b S ps hne]
  simp

/-- Values flushed for a registered outputter by one `output()` call, when every visited
position accumulates at least one sample. -/
theorem outputValues_eq (m : Manager ℚ) (F : HostFields ℚ) (fuel : Nat)
    (hs : 1 ≤ m.sliceskip) (hfuel : max m.slicelength m.sliceskip < fuel)
    (o : Nat) (out : Outputter ℚ) (ho : m.outputters.get? o = some out)
    (hne : ∀ p ∈ positions m, positionSamples m F p ≠ []) :
    outputValues fuel m F o
      = some ((positions m).map
          (fun p => blockValue m.sliceaverage out.vf (positionSamples m F p))) := by
  have hlt : o < m.outputters.length := by
    rw [List.get?_eq_some] at ho
    exact ho.1
  obtain ⟨tr, htr, hrec⟩ := received_output m F fuel hs hfuel o hlt
  unfold outputValues
  rw [htr, ho]
  simp only [hrec]
  exact flushedValues_eq out.vf m.sliceaverage m.bin_idx (positionSamples m F) (positions m) hne

/-! ## C3 -/

theorem positions_exampleManager (average : Bool) :
    positions (exampleManager average) = [(0, 0, 0), (0, 0, 2)] := by
  cases average <;> decide

theorem blockList_exampleManager_0 (average : Bool) :
    blockList (exampleManager average) (0, 0, 0)
      = [(0, 0, 0), (0, 0, 1), (0, 1, 0), (0, 1, 1), (1, 0, 0), (1, 0, 1), (1, 1, 0),
          (1, 1, 1)] := by
  cases average <;> decide

theorem blockList_exampleManager_2 (average : Bool) :
    blockList (exampleManager average) (0, 0, 2)
      = [(0, 0, 2), (0, 0, 3), (0, 1, 2), (0, 1, 3), (1, 0, 2), (1, 0, 3), (1, 1, 2),
          (1, 1, 3)] := by
  cases average <;> decide

theorem mem_blockRange (i S n x : Int) :
    x ∈ blockRange i S n ↔ i ≤ x ∧ x < i + S ∧ x < n := by
  unfold blockRange
  rw [mem_stride, iterCount_one]
  have h1 := min_le_left (i + S) n
  have h2 := min_le_right (i + S) n
  have h3 : i + S ≤ min (i + S) n ∨ n ≤ min (i + S) n := by
    rcases le_total (i + S) n with h | h
    · left; rw [min_eq_left h]
    · right; rw [min_eq_right h]
  generalize min (i + S) n = b at h1 h2 h3
  constructor
  · rintro ⟨t, ht, rfl⟩
    omega
  · rintro ⟨hx1, hx2, hx3⟩
    refine ⟨(x - i).toNat, ?_, ?_⟩ <;> omega

theorem length_blockRange (i S n : Int) :
    (blockRange i S n).length = (min (i + S) n - i).toNat := by
  rw [blockRange, length_stride, iterCount_one]

theorem length_blockRange_min (i S n : Int) (hS : 0 ≤ S) (hi : i < n) :
    ((blockRange i S n).length : Int) = min S (n - i) := by
  rw [length_blockRange]
  rcases le_total (i + S) n with h | h
  · rw [min_eq_left h, min_eq_left (by omega)]; omega
  · rw [min_eq_right h, min_eq_right (by omega)]; omega

theorem length_blockRange_unclipped (i S n : Int) (h : i + S ≤ n) :
    (blockRange i S n).length = S.toNat := by
  rw [length_blockRange, min_eq_left h]
  congr 1
  omega

theorem length_blockRange_le (i S n : Int) : (blockRange i S n).length ≤ S.toNat := by
  rw [length_blockRange]
  have h1 := min_le_left (i + S) n
  generalize min (i + S) n = b at h1
  omega

theorem length_blockRange_clipped (i S n : Int) (h : n < i + S) (hS : 1 ≤ S) :
    (blockRange i S n).length < S.toNat := by
  rw [length_blockRange, min_eq_right (le_of_lt h)]
  omega

theorem lexLt_irrefl (p : Int × Int × Int) : ¬ lexLt p p := by
  unfold lexLt
  omega

theorem nodup_triples (xs ys zs : List Int)
    (hx : xs.Pairwise (fun a b => a < b)) (hy : ys.Pairwise (fun a b => a < b))
    (hz : zs.Pairwise (fun a b => a < b)) : (triples xs ys zs).Nodup := by
  refine (pairwise_triples xs ys zs hx hy hz).imp ?_
  intro a b hab e
  subst e
  exact lexLt_irrefl a hab

theorem nodup_blockList {α : Type} (m : Manager α) (p : Int × Int × Int) :
    (blockList m p).Nodup :=
  nodup_triples _ _ _ (pairwise_stride _ _ _ (le_refl 1)) (pairwise_stride _ _ _ (le_refl 1))
    (pairwise_stride _ _ _ (le_refl 1))

theorem mem_blockList {α : Type} (m : Manager α) (p q : Int × Int × Int) :
    q ∈ blockList m p ↔
      (p.1 ≤ q.1 ∧ q.1 < p.1 + m.sliceskip ∧ q.1 < m.n) ∧
      (p.2.1 ≤ q.2.1 ∧ q.2.1 < p.2.1 + m.sliceskip ∧ q.2.1 < m.n) ∧
      (p.2.2 ≤ q.2.2 ∧ q.2.2 < p.2.2 + m.sliceskip ∧ q.2.2 < m.n) := by
  rw [blockList, mem_triples, mem_blockRange, mem_blockRange, mem_blockRange]

theorem length_blockList {α : Type} (m : Manager α) (p : Int × Int × Int) :
    (blockList m p).length
      = (blockRange p.1 m.sliceskip m.n).length
        * ((blockRange p.2.1 m.sliceskip m.n).length
          * (blockRange p.2.2 m.sliceskip m.n).length) := by
  rw [blockList, length_triples]

theorem mem_positions_nonneg {α : Type} (m : Manager α) (hS : 1 ≤ m.sliceskip)
    (p : Int × Int × Int) (hp : p ∈ positions m) : 0 ≤ p.1 ∧ 0 ≤ p.2.1 ∧ 0 ≤ p.2.2 := by
  rw [positions, mem_triples, mem_axisVisits _ _ _ hS, mem_axisVisits _ _ _ hS,
    mem_axisVisits _ _ _ hS] at hp
  exact ⟨hp.1.1, hp.2.1.1, hp.2.2.1⟩

/-! ## C4 -/

theorem outputValues_exampleManager_true (F : HostFields ℚ) :
    outputValues 5 (exampleManager true) F 0
      = some [(F.phi_host 0 + F.phi_host 1 + F.phi_host 4 + F.phi_host 5 + F.phi_host 16
                + F.phi_host 17 + F.phi_host 20 + F.phi_host 21) / 8,
              (F.phi_host 2 + F.phi_host 3 + F.phi_host 6 + F.phi_host 7 + F.phi_host 18
                + F.phi_host 19 + F.phi_host 22 + F.phi_host 23) / 8] := by
  rw [outputValues_eq (exampleManager true) F 5 (by decide) (by decide) 0
    { varname := "phi", vf := fun s => s.phi } rfl]
  · rw [positions_exampleManager]
    simp only [List.map_cons, List.map_nil, positionSamples, blockList_exampleManager_0,
      blockList_exampleManager_2, blockValue]
    simp [exampleManager, sampleAt, readSample, flatIndex, wrapInt]
    constructor <;> ring
  · intro p hp
    rw [positions_exampleManager] at hp
    simp only [List.mem_cons, List.mem_singleton, List.not_mem_nil, or_false] at hp
    rcases hp with rfl | rfl
    · have h : (exampleManager true).sliceaverage = true := rfl
      simp only [positionSamples, h, if_true]
      rw [show ((0 : Int), (0 : Int), (0 : Int)) = (0, 0, 0) from rfl,
        blockList_exampleManager_0]
      simp
    · have h : (exampleManager true).sliceaverage = true := rfl
      simp only [positionSamples, h, if_true]
      rw [blockList_exampleManager_2]
      simp

/-- C4 as stated fails on the spec's own example (`n = 4`, `slicelength = 4`,
`sliceskip = 2`, `slicedim = 1`, averaging): the block of the visited position `(0,0,0)` is
not clipped, yet it has `8` points rather than `2^1`, it contains `(1,1,0)`, which is off
index `0` on both non-sampled axes, and with the field `1,2,3,4` along the sampled axis and
`0` elsewhere the flushed values are `3/8` and `7/8`, not `1.5` and `3.5`. -/
theorem C4_counterexample :
    ∃ pts, blockPoints 5 (exampleManager true) 0 0 0 = some pts ∧
      (0, 0, 0) ∈ positions (exampleManager true) ∧
      (0 : Int) + (exampleManager true).sliceskip ≤ (exampleManager true).n ∧
      pts.length = 8 ∧
      pts.length
        ≠ (exampleManager true).sliceskip.toNat ^ (exampleManager true).slicedim.toNat ∧
      (1, 1, 0) ∈ pts ∧
      outputValues 5 (exampleManager true) (exampleFields 0) 0 = some [3 / 8, 7 / 8] ∧
      outputValues 5 (exampleManager true) (exampleFields 0) 0 ≠ some [3 / 2, 7 / 2] := by
  have hv : outputValues 5 (exampleManager true) (exampleFields 0) 0 = some [3 / 8, 7 / 8] := by
    rw [outputValues_exampleManager_true]
    simp [exampleFields]
    norm_num
  refine ⟨_, blockPoints_eq (exampleManager true) 0 0 0 5 (by decide), ?_, by decide, ?_, ?_,
    ?_, hv, ?_⟩
  · rw [positions_exampleManager]; simp
  · rw [blockList_exampleManager_0]; rfl
  · rw [blockList_exampleManager_0]; decide
  · rw [blockList_exampleManager_0]; decide
  · rw [hv]
    norm_num

/-- With `sliceskip ≥ 1` and enough fuel `output()` returns, and every registered outputter
receives `begin` followed by the calls of `positionCalls` at each visited position. -/
theorem output_received {α : Type} (m : Manager α) (F : HostFields α) (fuel : Nat)
    (hs : 1 ≤ m.sliceskip) (hfuel : max m.slicelength m.sliceskip < fuel) :
    ∃ m' tr, output fuel m F = some (m', tr) ∧
      ∀ o, o < m.outputters.length →
        received o tr = Call.begin m.bin_idx :: (positions m).flatMap (positionCalls m F) := by
  by_cases hout : m.outputters = []
  · refine ⟨m, [], by simp [output, hout], ?_⟩
    intro o ho; rw [hout] at ho; simp at ho
  · refine ⟨_, _, output_eq m F fuel hs hout hfuel, ?_⟩
    intro o ho
    obtain ⟨tr, htr, hrec⟩ := received_output m F fuel hs hfuel o ho
    rw [output_eq m F fuel hs hout hfuel] at htr
    rw [(Prod.mk.inj (Option.some.inj htr)).2, hrec]

theorem length_blockList_unclipped {α : Type} (m : Manager α) (p : Int × Int × Int)
    (h1 : p.1 + m.sliceskip ≤ m.n) (h2 : p.2.1 + m.sliceskip ≤ m.n)
    (h3 : p.2.2 + m.sliceskip ≤ m.n) :
    (blockList m p).length = m.sliceskip.toNat ^ 3 := by
  rw [length_blockList, length_blockRange_unclipped _ _ _ h1,
    length_blockRange_unclipped _ _ _ h2, length_blockRange_unclipped _ _ _ h3]
  ring

/-! ## Events of an averaging position -/

theorem positionEvents_average {α : Type} (m : Manager α) (F : HostFields α)
    (havg : m.sliceaverage = true) (p : Int × Int × Int) :
    positionEvents m F p
      = (blockList m p).flatMap (fun q => accumulatePoint m F q.1 q.2.1 q.2.2)
        ++ forOutputters m (fun o => [Event.advance o])
        ++ forOutputters m (fun o => [Event.flush o]) := by
  simp only [positionEvents, havg, if_true]

/-! ## C6 -/

theorem mul_lt_cube (a b c s : Nat) (ha : a ≤ s) (hb : b ≤ s) (hc : c ≤ s)
    (h : a < s ∨ b < s ∨ c < s) : a * (b * c) < s ^ 3 := by
  have hs : 0 < s := by omega
  have e : s ^ 3 = s * (s * s) := by ring
  rw [e]
  rcases h with h | h | h
  · calc a * (b * c) ≤ a * (s * s) := Nat.mul_le_mul_left _ (Nat.mul_le_mul hb hc)
      _ < s * (s * s) := Nat.mul_lt_mul_of_pos_right h (Nat.mul_pos hs hs)
  · calc a * (b * c) ≤ s * (b * s) := Nat.mul_le_mul ha (Nat.mul_le_mul_left _ hc)
      _ < s * (s * s) :=
        Nat.mul_lt_mul_of_pos_left (Nat.mul_lt_mul_of_pos_right h hs) hs
  · calc a * (b * c) ≤ s * (s * c) := Nat.mul_le_mul ha (Nat.mul_le_mul_right _ hb)
      _ < s * (s * s) :=
        Nat.mul_lt_mul_of_pos_left (Nat.mul_lt_mul_of_pos_left h hs) hs

/-- C6: in averaging mode with `sliceskip = S ≥ 1` (for every `slicedim`, in particular
`slicedim = 3`), `output()` returns and every registered outputter receives, after `begin`,
for each visited position a segment of `accumulate` calls followed by `advance` and `flush`;
for a visited position `(i,j,k)` with `i,j,k < n` the segment has exactly
`min(S,n-i) * min(S,n-j) * min(S,n-k)` calls, which is strictly less than `S^3` whenever the
block crosses the grid extent on some axis. -/
theorem C6_clipped_count {α : Type} (m : Manager α) (F : HostFields α) (fuel : Nat)
    (havg : m.sliceaverage = true) (hS : 1 ≤ m.sliceskip)
    (hfuel : max m.slicelength m.sliceskip < fuel) :
    ∃ (m' : Manager α) (tr : List (Event α)) (ps : List (Int × Int × Int))
        (seg : Int × Int × Int → List (Call α)),
      output fuel m F = some (m', tr) ∧ visited fuel m = some ps ∧
      (∀ o, o < m.outputters.length →
        received o tr
          = Call.begin m.bin_idx :: ps.flatMap (fun p => seg p ++ [Call.advance, Call.flush])) ∧
      (∀ p ∈ ps,
        (∀ c ∈ seg p, c.isAccumulate = true) ∧
        (p.1 < m.n → p.2.1 < m.n → p.2.2 < m.n →
          ((seg p).length : Int)
            = min m.sliceskip (m.n - p.1) * min m.sliceskip (m.n - p.2.1)
              * min m.sliceskip (m.n - p.2.2) ∧
          (m.n < p.1 + m.sliceskip ∨ m.n < p.2.1 + m.sliceskip ∨ m.n < p.2.2 + m.sliceskip →
            (seg p).length < m.sliceskip.toNat ^ 3))) := by
  obtain ⟨m', tr, hout, hrec⟩ := output_received m F fuel hS hfuel
  refine ⟨m', tr, positions m, fun p => (positionSamples m F p).map Call.accumulate, hout,
    visited_eq m fuel hS hfuel, hrec, ?_⟩
  intro p _
  constructor
  · intro c hc
    obtain ⟨s, _, rfl⟩ := List.mem_map.1 hc
    rfl
  · intro h1 h2 h3
    simp only [positionSamples, havg, if_true, List.length_map]
    rw [length_blockList]
    constructor
    · push_cast
      rw [length_blockRange_min _ _ _ (by omega) h1, length_blockRange_min _ _ _ (by omega) h2,
        length_blockRange_min _ _ _ (by omega) h3]
      ring
    · intro hclip
      apply mul_lt_cube _ _ _ _ (length_blockRange_le _ _ _) (length_blockRange_le _ _ _)
        (length_blockRange_le _ _ _)
      rcases hclip with h | h | h
      · exact Or.inl (length_blockRange_clipped _ _ _ h hS)
      · exact Or.inr (Or.inl (length_blockRange_clipped _ _ _ h hS))
      · exact Or.inr (Or.inr (length_blockRange_clipped _ _ _ h hS))

/-- Instance of C6 on a three-dimensional slice with clipped blocks (`n = 3`,
`sliceskip = 2`), with fuel 6. -/
theorem C6_clipped_count_witness :
    ∃ (m' : Manager ℚ) (tr : List (Event ℚ)) (ps : List (Int × Int × Int))
        (seg : Int × Int × Int → List (Call ℚ)),
      output 6 clippedManager (exampleFields 0) = some (m', tr) ∧
      visited 6 clippedManager = some ps ∧
      (∀ o, o < clippedManager.outputters.length →
        received o tr
          = Call.begin clippedManager.bin_idx
            :: ps.flatMap (fun p => seg p ++ [Call.advance, Call.flush])) ∧
      (∀ p ∈ ps,
        (∀ c ∈ seg p, c.isAccumulate = true) ∧
        (p.1 < clippedManager.n → p.2.1 < clippedManager.n → p.2.2 < clippedManager.n →
          ((seg p).length : Int)
            = min clippedManager.sliceskip (clippedManager.n - p.1)
              * min clippedManager.sliceskip (clippedManager.n - p.2.1)
              * min clippedManager.sliceskip (clippedManager.n - p.2.2) ∧
          (clippedManager.n < p.1 + clippedManager.sliceskip
              ∨ clippedManager.n < p.2.1 + clippedManager.sliceskip
              ∨ clippedManager.n < p.2.2 + clippedManager.sliceskip →
            (seg p).length < clippedManager.sliceskip.toNat ^ 3))) :=
  C6_clipped_count clippedManager (exampleFields 0) 6 rfl (by decide) (by decide)

/-! ## C7 -/

/-- C7 as stated fails when `slicelength` exceeds `n`: for `n = 1`, `slicelength = 2`,
`sliceskip = 1`, `slicedim = 1` both modes return, but at the visited position `(0,0,1)` the
averaging block is empty, so the outputter receives `6` calls in averaging mode and `7` in
non-averaging mode. -/
theorem C7_counterexample :
    ∃ ma ta mn tn,
      output 3 (shortGridManager true) (exampleFields 0) = some (ma, ta) ∧
      output 3 (shortGridManager false) (exampleFields 0) = some (mn, tn) ∧
      (received 0 ta).length = 6 ∧ (received 0 tn).length = 7 ∧
      received 0 ta ≠ received 0 tn := by
  obtain ⟨ma, ta, ha, hra⟩ :=
    output_received (shortGridManager true) (exampleFields 0) 3 (by decide) (by decide)
  obtain ⟨mn, tn, hn, hrn⟩ :=
    output_received (shortGridManager false) (exampleFields 0) 3 (by decide) (by decide)
  have hp : ∀ b, positions (shortGridManager b) = [(0, 0, 0), (0, 0, 1)] := by
    intro b; cases b <;> decide
  have hb0 : blockList (shortGridManager true) (0, 0, 0) = [(0, 0, 0)] := by decide
  have hb1 : blockList (shortGridManager true) (0, 0, 1) = [] := by decide
  have hta := hra 0 (by decide)
  have htn := hrn 0 (by decide)
  have hat : (shortGridManager true).sliceaverage = true := rfl
  have haf : (shortGridManager false).sliceaverage = false := rfl
  have la : (received 0 ta).length = 6 := by
    rw [hta, hp]
    simp only [List.flatMap_cons, List.flatMap_nil, positionCalls, positionSamples, hat,
      if_true, hb0, hb1]
    rfl
  have ln : (received 0 tn).length = 7 := by
    rw [htn, hp]
    simp only [List.flatMap_cons, List.flatMap_nil, positionCalls, positionSamples, haf]
    rfl
  refine ⟨ma, ta, mn, tn, ha, hn, la, ln, ?_⟩
  intro h
  rw [h, ln] at la
  omega

theorem blockRange_skip_one (c n : Int) (h : c < n) : blockRange c 1 n = [c] := by
  have e : iterCount c (min (c + 1) n) 1 = 1 := by
    rw [iterCount_one, min_eq_left (by omega)]
    omega
  simp [blockRange, e, stride]

theorem mem_positions_lt {α : Type} (m : Manager α) (hS : 1 ≤ m.sliceskip)
    (hL : m.slicelength ≤ m.n) (p : Int × Int × Int) (hp : p ∈ positions m) :
    p.1 < m.n ∧ p.2.1 < m.n ∧ p.2.2 < m.n := by
  rw [positions, mem_triples, mem_axisVisits _ _ _ hS, mem_axisVisits _ _ _ hS,
    mem_axisVisits _ _ _ hS] at hp
  obtain ⟨⟨_, _, hi⟩, ⟨_, _, hj⟩, hk0, _, hk⟩ := hp
  have hbi := boundI_le m
  have hbj := boundJ_le m
  omega

theorem blockList_skip_one {α : Type} (m : Manager α) (hS : m.sliceskip = 1)
    (p : Int × Int × Int) (h : p.1 < m.n ∧ p.2.1 < m.n ∧ p.2.2 < m.n) :
    blockList m p = [p] := by
  rw [blockList, hS, blockRange_skip_one _ _ h.1, blockRange_skip_one _ _ h.2.1,
    blockRange_skip_one _ _ h.2.2]
  rfl

theorem positionCalls_skip_one {α : Type} (m : Manager α) (F : HostFields α)
    (hS : m.sliceskip = 1) (hL : m.slicelength ≤ m.n) (p : Int × Int × Int)
    (hp : p ∈ positions m) :
    positionCalls { m with sliceaverage := true } F p
      = positionCalls { m with sliceaverage := false } F p := by
  have hlt := mem_positions_lt m (by omega) hL p hp
  have hb : blockList { m with sliceaverage := true } p = [p] :=
    blockList_skip_one { m with sliceaverage := true } hS p hlt
  simp only [positionCalls, positionSamples, if_true, hb, Bool.false_eq_true, if_false,
    List.map_cons, List.map_nil]
  rfl

/-- C7 (amended): for `sliceskip = 1` and `slicelength ≤ n` (every `slicedim` and field
contents), `output()` returns in both modes and the sequence of calls each registered
outputter receives in averaging mode is identical to the sequence it receives in
non-averaging mode; with the Sample Accumulator of the spec the flushed values of the two
modes are then equal as well. -/
theorem C7_average_skip_one {α : Type} (m : Manager α) (F : HostFields α) (fuel : Nat)
    (hS : m.sliceskip = 1) (hL : m.slicelength ≤ m.n)
    (hfuel : max m.slicelength m.sliceskip < fuel) :
    (∃ ma ta mn tn,
      output fuel { m with sliceaverage := true } F = some (ma, ta) ∧
      output fuel { m with sliceaverage := false } F = some (mn, tn) ∧
      ∀ o, o < m.outputters.length → received o ta = received o tn) ∧
    (∀ (mq : Manager ℚ) (Fq : HostFields ℚ) (o : Nat) (out : Outputter ℚ),
      mq.sliceskip = 1 → mq.slicelength ≤ mq.n → max mq.slicelength mq.sliceskip < fuel →
      mq.outputters.get? o = some out →
      ∃ vs, outputValues fuel { mq with sliceaverage := true } Fq o = some vs ∧
        outputValues fuel { mq with sliceaverage := false } Fq o = some vs) := by
  constructor
  · obtain ⟨ma, ta, ha, hra⟩ :=
      output_received { m with sliceaverage := true } F fuel (by simp [hS]) hfuel
    obtain ⟨mn, tn, hn, hrn⟩ :=
      output_received { m with sliceaverage := false } F fuel (by simp [hS]) hfuel
    refine ⟨ma, ta, mn, tn, ha, hn, ?_⟩
    intro o ho
    rw [hra o ho, hrn o ho]
    congr 1
    exact List.flatMap_congr (fun p hp => positionCalls_skip_one m F hS hL p hp)
  · intro mq Fq o out hSq hLq hfq ho
    have hne : ∀ b, ∀ p ∈ positions { mq with sliceaverage := b },
        positionSamples { mq with sliceaverage := b } Fq p ≠ [] := by
      intro b p hp
      have hlt := mem_positions_lt mq (by omega) hLq p hp
      have hb : blockList { mq with sliceaverage := b } p = [p] :=
        blockList_skip_one { mq with sliceaverage := b } hSq p hlt
      cases b <;> simp [positionSamples, hb]
    refine ⟨_, outputValues_eq { mq with sliceaverage := true } Fq fuel (by simp [hSq]) hfq o
      out ho (hne true), ?_⟩
    rw [outputValues_eq { mq with sliceaverage := false } Fq fuel (by simp [hSq]) hfq o
      out ho (hne false)]
    congr 1
    apply List.map_congr_left
    intro p hp
    have hlt := mem_positions_lt mq (by omega) hLq p hp
    have hb : blockList { mq with sliceaverage := true } p = [p] :=
      blockList_skip_one { mq with sliceaverage := true } hSq p hlt
    simp [blockValue, positionSamples, hb, sampleAt]

/-- Instance of the amended C7 on a configuration with `sliceskip = 1` and
`slicelength = n = 4`, with fuel 5. -/
theorem C7_average_skip_one_witness :
    (∃ ma ta mn tn,
      output 5 { unitSkipManager with sliceaverage := true } (exampleFields 0)
        = some (ma, ta) ∧
      output 5 { unitSkipManager with sliceaverage := false } (exampleFields 0)
        = some (mn, tn) ∧
      ∀ o, o < unitSkipManager.outputters.length → received o ta = received o tn) ∧
    (∀ (mq : Manager ℚ) (Fq : HostFields ℚ) (o : Nat) (out : Outputter ℚ),
      mq.sliceskip = 1 → mq.slicelength ≤ mq.n →
      max mq.slicelength mq.sliceskip < ((5 : Nat) : Int) →
      mq.outputters.get? o = some out →
      ∃ vs, outputValues 5 { mq with sliceaverage := true } Fq o = some vs ∧
        outputValues 5 { mq with sliceaverage := false } Fq o = some vs) :=
  C7_average_skip_one unitSkipManager (exampleFields 0) 5 rfl (by decide) (by decide)

/-! ## C8 -/

/-- C8: when no outputter is registered, `output()` returns at once (for every fuel) with the
manager unchanged, in particular `bin_idx`, and makes no call at all: no `gc.compute()`, no
`switch_state`, no `download`, no `begin`, `accumulate`, `advance` or `flush`. -/
theorem C8_no_outputters {α : Type} (m : Manager α) (F : HostFields α) (fuel : Nat)
    (h : m.outputters = []) : output fuel m F = some (m, []) := by
  simp [output, h]

/-- Instance of C8 on a manager without outputters, with no fuel at all. -/
theorem C8_no_outputters_witness :
    output 0 idleManager (exampleFields 0) = some (idleManager, []) :=
  C8_no_outputters idleManager (exampleFields 0) 0 rfl

/-! ## C9 -/

theorem output_bin_idx {α : Type} (m m' : Manager α) (F : HostFields α) (fuel : Nat)
    (tr : List (Event α)) (h : output fuel m F = some (m', tr)) :
    m'.outputters = m.outputters ∧
      m'.bin_idx = m.bin_idx + (if m.outputters.length = 0 then 0 else 1) := by
  unfold output at h
  by_cases h0 : m.outputters.length = 0
  · simp only [h0, if_true, Option.some.injEq, Prod.mk.injEq] at h
    rw [← h.1]
    simp [h0]
  · simp only [h0, if_false] at h
    cases hl : sliceLoop fuel m (positionBody fuel m F) with
    | none => rw [hl] at h; cases h
    | some evs =>
      rw [hl] at h
      simp only [Option.some.injEq, Prod.mk.injEq] at h
      rw [← h.1]
      simp [h0]

theorem runOps_bin_idx {α : Type} (fuel : Nat) (ops : List (Op α)) :
    ∀ (m m' : Manager α), runOps fuel m ops = some m' →
      m'.bin_idx = m.bin_idx + nonEmptyOutputs m.outputters.length ops := by
  induction ops with
  | nil =>
    intro m m' h
    simp only [runOps, Option.some.injEq] at h
    subst h
    simp [nonEmptyOutputs]
  | cons op ops ih =>
    intro m m' h
    cases op with
    | add_outputter name vf =>
      simp only [runOps, stepOp] at h
      rw [ih _ _ h]
      simp [add_outputter, nonEmptyOutputs]
    | output F =>
      simp only [runOps, stepOp] at h
      cases ho : output fuel m F with
      | none => rw [ho] at h; cases h
      | some r =>
        obtain ⟨m1, tr⟩ := r
        rw [ho] at h
        obtain ⟨h1, h2⟩ := output_bin_idx m m1 F fuel tr ho
        rw [ih _ _ h, h1, h2]
        simp only [nonEmptyOutputs]
        split <;> simp
        ring

theorem runOps_append {α : Type} (fuel : Nat) (ops1 ops2 : List (Op α)) :
    ∀ (m : Manager α), runOps fuel m (ops1 ++ ops2)
      = (runOps fuel m ops1).bind (fun m1 => runOps fuel m1 ops2) := by
  induction ops1 with
  | nil => intro m; simp [runOps]
  | cons op ops ih =>
    intro m
    simp only [List.cons_append, runOps]
    cases stepOp fuel m op with
    | none => simp
    | some m1 => simp [ih]

/-- C9: every `output()` call that returns with at least one outputter registered leaves
`bin_idx` exactly one greater, and with `sliceskip ≥ 1` and enough fuel the call does return;
`add_outputter` leaves `bin_idx` unchanged.  Hence after any sequence of `add_outputter` and
`output` calls that returns, `bin_idx` is its initial value plus the number of `output()`
calls made with an outputter registered, and along the sequence it never decreases. -/
theorem C9_bin_idx {α : Type} (m : Manager α) (fuel : Nat) :
    (∀ (F : HostFields α) m' tr, output fuel m F = some (m', tr) → m.outputters ≠ [] →
      m'.bin_idx = m.bin_idx + 1) ∧
    (∀ F : HostFields α, 1 ≤ m.sliceskip → max m.slicelength m.sliceskip < fuel →
      ∃ m' tr, output fuel m F = some (m', tr)) ∧
    (∀ varname vf, (add_outputter m varname vf).bin_idx = m.bin_idx) ∧
    (∀ (ops : List (Op α)) m', runOps fuel m ops = some m' →
      m'.bin_idx = m.bin_idx + nonEmptyOutputs m.outputters.length ops) ∧
    (∀ (ops1 ops2 : List (Op α)) m2, runOps fuel m (ops1 ++ ops2) = some m2 →
      ∃ m1, runOps fuel m ops1 = some m1 ∧ m.bin_idx ≤ m1.bin_idx ∧
        m1.bin_idx ≤ m2.bin_idx) := by
  refine ⟨?_, ?_, ?_, ?_, ?_⟩
  · intro F m' tr h hne
    have h0 : m.outputters.length ≠ 0 := by
      simpa [List.length_eq_zero] using hne
    rw [(output_bin_idx m m' F fuel tr h).2]
    simp [h0]
  · intro F hS hfuel
    obtain ⟨m', tr, h, _⟩ := output_received m F fuel hS hfuel
    exact ⟨m', tr, h⟩
  · intro varname vf
    rfl
  · intro ops m' h
    exact runOps_bin_idx fuel ops m m' h
  · intro ops1 ops2 m2 h
    rw [runOps_append] at h
    cases h1 : runOps fuel m ops1 with
    | none => rw [h1] at h; cases h
    | some m1 =>
      rw [h1] at h
      simp only [Option.some_bind] at h
      refine ⟨m1, rfl, ?_, ?_⟩
      · rw [runOps_bin_idx fuel ops1 m m1 h1]
        omega
      · rw [runOps_bin_idx fuel ops2 m1 m2 h]
        omega

/-- Instance of C9 on the example configuration of the spec, with fuel 5. -/
theorem C9_bin_idx_witness :
    (∀ (F : HostFields ℚ) m' tr, output 5 (exampleManager true) F = some (m', tr) →
      (exampleManager true).outputters ≠ [] →
      m'.bin_idx = (exampleManager true).bin_idx + 1) ∧
    (∀ F : HostFields ℚ, 1 ≤ (exampleManager true).sliceskip →
      max (exampleManager true).slicelength (exampleManager true).sliceskip < ((5 : Nat) : Int) →
      ∃ m' tr, output 5 (exampleManager true) F = some (m', tr)) ∧
    (∀ varname vf,
      (add_outputter (exampleManager true) varname vf).bin_idx
        = (exampleManager true).bin_idx) ∧
    (∀ (ops : List (Op ℚ)) m', runOps 5 (exampleManager true) ops = some m' →
      m'.bin_idx = (exampleManager true).bin_idx
        + nonEmptyOutputs (exampleManager true).outputters.length ops) ∧
    (∀ (ops1 ops2 : List (Op ℚ)) m2,
      runOps 5 (exampleManager true) (ops1 ++ ops2) = some m2 →
      ∃ m1, runOps 5 (exampleManager true) ops1 = some m1 ∧
        (exampleManager true).bin_idx ≤ m1.bin_idx ∧ m1.bin_idx ≤ m2.bin_idx) :=
  C9_bin_idx (exampleManager true) 5

/-! ## C10 -/

theorem map_nextCycle_forOutputters {α : Type} (m : Manager α) (f g : Nat → List (Event α))
    (h : ∀ o, (f o).map Event.nextCycle = g o) :
    (forOutputters m f).map Event.nextCycle = forOutputters m g := by
  unfold forOutputters
  induction List.range m.outputters.length with
  | nil => rfl
  | cons o os ih => simp only [List.flatMap_cons, List.map_append, h, ih]

theorem map_nextCycle_preamble {α : Type} (m : Manager α) :
    (preamble m).map Event.nextCycle
      = preamble { m with bin_idx := m.bin_idx + 1 } := by
  unfold preamble
  simp only [List.map_append,
    map_nextCycle_forOutputters m (fun o => [Event.begin o m.bin_idx])
      (fun o => [Event.begin o (m.bin_idx + 1)]) (fun _ => rfl)]
  rfl

theorem map_nextCycle_forOutputters_fix {α : Type} (m : Manager α)
    (f : Nat → List (Event α)) (h : ∀ o, (f o).map Event.nextCycle = f o) :
    (forOutputters m f).map Event.nextCycle = forOutputters m f :=
  map_nextCycle_forOutputters m f f h

theorem map_nextCycle_positionEvents {α : Type} (m : Manager α) (F : HostFields α)
    (p : Int × Int × Int) :
    (positionEvents m F p).map Event.nextCycle = positionEvents m F p := by
  have hflush := map_nextCycle_forOutputters_fix m (fun o => [Event.flush o]) (fun _ => rfl)
  have hadv := map_nextCycle_forOutputters_fix m (fun o => [Event.advance o]) (fun _ => rfl)
  unfold positionEvents
  rw [List.map_append, hflush]
  congr 1
  split
  · rw [List.map_append, hadv, List.map_flatMap]
    congr 1
    apply List.flatMap_congr
    intro q _
    exact map_nextCycle_forOutputters_fix m _ (fun _ => rfl)
  · exact map_nextCycle_forOutputters_fix m _ (fun _ => rfl)

theorem not_isBegin_positionCalls {α : Type} (m : Manager α) (F : HostFields α)
    (ps : List (Int × Int × Int)) :
    ∀ c ∈ ps.flatMap (positionCalls m F), c.isBegin = false := by
  intro c hc
  obtain ⟨p, _, hp⟩ := List.mem_flatMap.1 hc
  simp only [positionCalls, List.mem_append, List.mem_map, List.mem_cons,
    List.mem_singleton, List.not_mem_nil, or_false] at hp
  rcases hp with ⟨s, _, rfl⟩ | rfl | rfl <;> rfl

/-- C10: for two sequential `output()` calls on the same manager with the same downloaded
field and gradient contents (`sliceskip ≥ 1`, enough fuel), both calls return, the calls made
by the second are those of the first with the argument of every `begin` increased by
exactly `1` and everything else unchanged; each registered outputter receives in both calls
the same sequence of `accumulate`, `advance` and `flush` calls after its `begin`, whose
argument is `bin_idx` in the first call and `bin_idx + 1` in the second. -/
theorem C10_sequential_outputs {α : Type} (m : Manager α) (F : HostFields α) (fuel : Nat)
    (hS : 1 ≤ m.sliceskip) (hfuel : max m.slicelength m.sliceskip < fuel) :
    ∃ m1 t1 m2 t2,
      output fuel m F = some (m1, t1) ∧ output fuel m1 F = some (m2, t2) ∧
      t2 = t1.map Event.nextCycle ∧
      (∀ o, o < m.outputters.length →
        ∃ rest, (∀ c ∈ rest, c.isBegin = false) ∧
          received o t1 = Call.begin m.bin_idx :: rest ∧
          received o t2 = Call.begin (m.bin_idx + 1) :: rest) := by
  by_cases hout : m.outputters = []
  · refine ⟨m, [], m, [], by simp [output, hout], by simp [output, hout], rfl, ?_⟩
    intro o ho; rw [hout] at ho; simp at ho
  · have h1 := output_eq m F fuel hS hout hfuel
    have h2 := output_eq { m with bin_idx := m.bin_idx + 1 } F fuel hS hout hfuel
    refine ⟨_, _, _, _, h1, h2, ?_, ?_⟩
    · rw [List.map_append, map_nextCycle_preamble, List.map_flatMap]
      congr 1
      apply List.flatMap_congr
      intro p _
      exact (map_nextCycle_positionEvents m F p).symm
    · intro o ho
      refine ⟨(positions m).flatMap (positionCalls m F),
        not_isBegin_positionCalls m F (positions m), ?_, ?_⟩
      · obtain ⟨tr, htr, hrec⟩ := received_output m F fuel hS hfuel o ho
        rw [h1] at htr
        rw [(Prod.mk.inj (Option.some.inj htr)).2, hrec]
      · obtain ⟨tr, htr, hrec⟩ :=
          received_output { m with bin_idx := m.bin_idx + 1 } F fuel hS hfuel o ho
        rw [h2] at htr
        rw [(Prod.mk.inj (Option.some.inj htr)).2, hrec]
        rfl

/-- Instance of C10 on the example configuration of the spec in averaging mode, with
fuel 5. -/
theorem C10_sequential_outputs_witness :
    ∃ m1 t1 m2 t2,
      output 5 (exampleManager true) exampleFieldsZ = some (m1, t1) ∧
      output 5 m1 exampleFieldsZ = some (m2, t2) ∧
      t2 = t1.map Event.nextCycle ∧
      (∀ o, o < (exampleManager true).outputters.length →
        ∃ rest, (∀ c ∈ rest, c.isBegin = false) ∧
          received o t1 = Call.begin (exampleManager true).bin_idx :: rest ∧
          received o t2 = Call.begin ((exampleManager true).bin_idx + 1) :: rest) :=
  C10_sequential_outputs (exampleManager true) exampleFieldsZ 5 (by decide) (by decide)

/-! ## C11 -/

theorem forOutputters_singleton {α β : Type} (m : Manager α) (f : Nat → β) :
    forOutputters m (fun o => [f o]) = (List.range m.outputters.length).map f := by
  unfold forOutputters
  induction List.range m.outputters.length with
  | nil => rfl
  | cons o os ih => simp [List.flatMap_cons, ih]

theorem countP_forOutputters {α β : Type} (m : Manager α) (p : β → Bool)
    (f : Nat → List β) (o : Nat) (hne : ∀ o', o' ≠ o → (f o').countP p = 0)
    (ho : o < m.outputters.length) :
    (forOutputters m f).countP p = (f o).countP p := by
  unfold forOutputters
  rw [List.countP_eq_length_filter, List.filter_flatMap,
    flatMap_range_single (fun a => (f a).filter p) o
      (fun o' h => by
        have := hne o' h
        rw [List.countP_eq_length_filter] at this
        exact List.length_eq_zero.1 this),
    if_pos ho, List.countP_eq_length_filter]

theorem positionEvents_segment {α : Type} (m : Manager α) (F : HostFields α)
    (p : Int × Int × Int) :
    ∃ seg : List (Event α),
      positionEvents m F p = seg ++ (List.range m.outputters.length).map Event.flush ∧
      (∀ e ∈ seg, e.isFlush = false) ∧
      ∀ o, o < m.outputters.length → seg.countP (Event.isAdvanceOf o) = 1 := by
  unfold positionEvents
  rw [forOutputters_singleton m Event.flush]
  refine ⟨_, rfl, ?_, ?_⟩
  · intro e he
    split at he
    · rw [List.mem_append] at he
      rcases he with he | he
      · obtain ⟨q, _, hq⟩ := List.mem_flatMap.1 he
        unfold accumulatePoint forOutputters at hq
        obtain ⟨o, _, ho⟩ := List.mem_flatMap.1 hq
        rw [List.mem_singleton] at ho
        subst ho
        rfl
      · unfold forOutputters at he
        obtain ⟨o, _, ho⟩ := List.mem_flatMap.1 he
        rw [List.mem_singleton] at ho
        subst ho
        rfl
    · unfold forOutputters at he
      obtain ⟨o, _, ho⟩ := List.mem_flatMap.1 he
      simp only [List.mem_cons, List.mem_singleton, List.not_mem_nil, or_false] at ho
      rcases ho with rfl | rfl <;> rfl
  · intro o ho
    split
    · rw [List.countP_append,
        countP_forOutputters m _ (fun o => [Event.advance o]) o
          (fun o' h => by simp [List.countP_cons, Event.isAdvanceOf, h]) ho]
      have h0 : ((blockList m p).flatMap
          (fun q => accumulatePoint m F q.1 q.2.1 q.2.2)).countP (Event.isAdvanceOf o) = 0 := by
        rw [List.countP_eq_zero]
        intro e he
        obtain ⟨q, _, hq⟩ := List.mem_flatMap.1 he
        unfold accumulatePoint forOutputters at hq
        obtain ⟨o', _, ho'⟩ := List.mem_flatMap.1 hq
        rw [List.mem_singleton] at ho'
        subst ho'
        simp [Event.isAdvanceOf]
      rw [h0]
      simp [List.countP_cons, Event.isAdvanceOf]
    · rw [countP_forOutputters m _ _ o
        (fun o' h => by simp [List.countP_cons, Event.isAdvanceOf, h]) ho]
      simp [List.countP_cons, Event.isAdvanceOf]

theorem preamble_no_advance_flush {α : Type} (m : Manager α) :
    ∀ e ∈ preamble m, e.isAdvance = false ∧ e.isFlush = false := by
  intro e he
  unfold preamble forOutputters at he
  simp only [List.mem_append, List.mem_cons, List.mem_singleton, List.not_mem_nil, or_false,
    List.mem_flatMap, List.mem_range] at he
  rcases he with ((rfl | ⟨o, _, rfl⟩) | h) | h
  · exact ⟨rfl, rfl⟩
  · exact ⟨rfl, rfl⟩
  · rcases h with rfl | rfl | rfl | rfl <;> exact ⟨rfl, rfl⟩
  · rcases h with rfl | rfl | rfl | rfl | rfl | rfl | rfl | rfl | rfl | rfl <;>
      exact ⟨rfl, rfl⟩

/-- C11: in both modes (`sliceskip ≥ 1`, enough fuel) `output()` returns, and after the calls
made before the loops, which contain no `advance` and no `flush`, its calls are, for each
visited position in order, a segment that contains no `flush` and exactly one `advance` of
every registered outputter, followed by exactly one `flush` of every registered outputter:
at a position all `advance` calls precede every `flush`.  Each registered outputter receives,
after `begin`, for each visited position some `accumulate` calls, then one `advance`, then
one `flush`, so no `flush` reaches an outputter that has not advanced since its previous
`flush`. -/
theorem C11_advance_before_flush {α : Type} (m : Manager α) (F : HostFields α) (fuel : Nat)
    (hS : 1 ≤ m.sliceskip) (hfuel : max m.slicelength m.sliceskip < fuel) :
    ∃ (m' : Manager α) (tr : List (Event α)) (ps : List (Int × Int × Int))
        (seg : Int × Int × Int → List (Event α)) (accs : Int × Int × Int → List (Call α)),
      output fuel m F = some (m', tr) ∧ visited fuel m = some ps ∧
      (m.outputters ≠ [] →
        tr = preamble m ++ ps.flatMap (fun p =>
          seg p ++ (List.range m.outputters.length).map Event.flush)) ∧
      (∀ e ∈ preamble m, e.isAdvance = false ∧ e.isFlush = false) ∧
      (∀ p ∈ ps, (∀ e ∈ seg p, e.isFlush = false) ∧
        ∀ o, o < m.outputters.length → (seg p).countP (Event.isAdvanceOf o) = 1) ∧
      (∀ p, ∀ c ∈ accs p, c.isAccumulate = true) ∧
      (∀ o, o < m.outputters.length →
        received o tr = Call.begin m.bin_idx
          :: ps.flatMap (fun p => accs p ++ [Call.advance, Call.flush])) := by
  obtain ⟨m', tr, hout, hrec⟩ := output_received m F fuel hS hfuel
  refine ⟨m', tr, positions m, fun p => (positionEvents_segment m F p).choose,
    fun p => (positionSamples m F p).map Call.accumulate, hout, visited_eq m fuel hS hfuel,
    ?_, preamble_no_advance_flush m, ?_, ?_, hrec⟩
  · intro hne
    rw [output_eq m F fuel hS hne hfuel] at hout
    rw [← (Prod.mk.inj (Option.some.inj hout)).2]
    congr 1
    apply List.flatMap_congr
    intro p _
    exact (positionEvents_segment m F p).choose_spec.1
  · intro p _
    exact (positionEvents_segment m F p).choose_spec.2
  · intro p c hc
    obtain ⟨s, _, rfl⟩ := List.mem_map.1 hc
    rfl

/-- Instance of C11 on the example configuration of the spec in averaging mode, with
fuel 5. -/
theorem C11_advance_before_flush_witness :
    ∃ (m' : Manager ℚ) (tr : List (Event ℚ)) (ps : List (Int × Int × Int))
        (seg : Int × Int × Int → List (Event ℚ)) (accs : Int × Int × Int → List (Call ℚ)),
      output 5 (exampleManager true) exampleFieldsZ = some (m', tr) ∧
      visited 5 (exampleManager true) = some ps ∧
      ((exampleManager true).outputters ≠ [] →
        tr = preamble (exampleManager true) ++ ps.flatMap (fun p =>
          seg p ++ (List.range (exampleManager true).outputters.length).map Event.flush)) ∧
      (∀ e ∈ preamble (exampleManager true), e.isAdvance = false ∧ e.isFlush = false) ∧
      (∀ p ∈ ps, (∀ e ∈ seg p, e.isFlush = false) ∧
        ∀ o, o < (exampleManager true).outputters.length →
          (seg p).countP (Event.isAdvanceOf o) = 1) ∧
      (∀ p, ∀ c ∈ accs p, c.isAccumulate = true) ∧
      (∀ o, o < (exampleManager true).outputters.length →
        received o tr = Call.begin (exampleManager true).bin_idx
          :: ps.flatMap (fun p => accs p ++ [Call.advance, Call.flush])) :=
  C11_advance_before_flush (exampleManager true) exampleFieldsZ 5 (by decide) (by decide)

/-! ## C12 -/

theorem forLoop_forall {β : Type} (P : β → Prop) (cond : Int → Bool) (step : Int)
    (body : Int → Option (List β)) (hbody : ∀ v r, body v = some r → ∀ e ∈ r, P e) :
    ∀ (fuel : Nat) (v : Int) (out : List β),
      forLoop fuel cond step body v = some out → ∀ e ∈ out, P e := by
  intro fuel
  induction fuel with
  | zero => intro v out h; simp [forLoop] at h
  | succ fuel ih =>
    intro v out h
    unfold forLoop at h
    by_cases hc : cond v = true
    · rw [if_pos hc] at h
      cases hb : body v with
      | none => rw [hb] at h; cases h
      | some r =>
        rw [hb] at h
        cases hr : forLoop fuel cond step body (v + step) with
        | none => rw [hr] at h; cases h
        | some rest =>
          rw [hr] at h
          simp only [Option.some.injEq] at h
          subst h
          intro e he
          rcases List.mem_append.1 he with he | he
          · exact hbody v r hb e he
          · exact ih (v + step) rest hr e he
    · rw [if_neg hc] at h
      simp only [Option.some.injEq] at h
      subst h
      intro e he
      cases he

theorem sliceLoop_forall {α β : Type} (P : β → Prop) (fuel : Nat) (m : Manager α)
    (body : Int → Int → Int → Option (List β))
    (hbody : ∀ i j k r, body i j k = some r → ∀ e ∈ r, P e)
    (out : List β) (h : sliceLoop fuel m body = some out) : ∀ e ∈ out, P e := by
  unfold sliceLoop at h
  refine forLoop_forall P _ _ _ ?_ fuel 0 out h
  intro i ri hi
  refine forLoop_forall P _ _ _ ?_ fuel 0 ri hi
  intro j rj hj
  refine forLoop_forall P _ _ _ ?_ fuel 0 rj hj
  intro k rk hk
  exact hbody i j k rk hk

theorem blockLoop_forall {α β : Type} (P : β → Prop) (fuel : Nat) (m : Manager α)
    (i j k : Int) (body : Int → Int → Int → Option (List β))
    (hbody : ∀ x y z r, body x y z = some r → ∀ e ∈ r, P e)
    (out : List β) (h : blockLoop fuel m i j k body = some out) : ∀ e ∈ out, P e := by
  unfold blockLoop at h
  refine forLoop_forall P _ _ _ ?_ fuel i out h
  intro x rx hx
  refine forLoop_forall P _ _ _ ?_ fuel j rx hx
  intro y ry hy
  refine forLoop_forall P _ _ _ ?_ fuel k ry hy
  intro z rz hz
  exact hbody x y z rz hz

theorem forOutputters_forall {α β : Type} (P : β → Prop) (m : Manager α)
    (f : Nat → List β) (h : ∀ o, ∀ e ∈ f o, P e) : ∀ e ∈ forOutputters m f, P e := by
  intro e he
  unfold forOutputters at he
  obtain ⟨o, _, ho⟩ := List.mem_flatMap.1 he
  exact h o e ho

theorem positionBody_no_begin {α : Type} (fuel : Nat) (m : Manager α) (F : HostFields α)
    (i j k : Int) (r : List (Event α)) (h : positionBody fuel m F i j k = some r) :
    ∀ e ∈ r, e.isBegin = false := by
  unfold positionBody at h
  have hflush : ∀ e ∈ forOutputters m (fun o => [Event.flush o]),
      (e : Event α).isBegin = false :=
    forOutputters_forall _ m _ (fun o e he => by
      rw [List.mem_singleton] at he; subst he; rfl)
  have hadv : ∀ e ∈ forOutputters m (fun o => [Event.advance o]),
      (e : Event α).isBegin = false :=
    forOutputters_forall _ m _ (fun o e he => by
      rw [List.mem_singleton] at he; subst he; rfl)
  by_cases ha : m.sliceaverage = true
  · simp only [ha, if_true] at h
    cases hb : blockLoop fuel m i j k (fun x y z => some (accumulatePoint m F x y z)) with
    | none => rw [hb] at h; cases h
    | some accs =>
      rw [hb] at h
      simp only [Option.some.injEq] at h
      subst h
      have hacc := blockLoop_forall (fun e : Event α => e.isBegin = false) fuel m i j k _
        (fun x y z r hr => by
          simp only [Option.some.injEq] at hr
          subst hr
          exact forOutputters_forall _ m _ (fun o e he => by
            rw [List.mem_singleton] at he; subst he; rfl)) accs hb
      intro e he
      rcases List.mem_append.1 he with he | he
      · rcases List.mem_append.1 he with he | he
        · exact hacc e he
        · exact hadv e he
      · exact hflush e he
  · simp only [ha, Bool.false_eq_true, if_false, Option.some.injEq] at h
    subst h
    intro e he
    rcases List.mem_append.1 he with he | he
    · exact forOutputters_forall (fun e : Event α => e.isBegin = false) m _ (fun o e he => by
        simp only [List.mem_cons, List.mem_singleton, List.not_mem_nil, or_false] at he
        rcases he with rfl | rfl <;> rfl) e he
    · exact hflush e he

theorem callOf_isBegin {α : Type} (o : Nat) (e : Event α) (c : Call α)
    (h : Event.callOf o e = some c) : c.isBegin = e.isBegin := by
  cases e <;> simp only [Event.callOf] at h
  all_goals first
    | cases h
    | (split at h
       · simp only [Option.some.injEq] at h; subst h; rfl
       · cases h)

theorem received_no_begin {α : Type} (o : Nat) (evs : List (Event α))
    (h : ∀ e ∈ evs, e.isBegin = false) : ∀ c ∈ received o evs, c.isBegin = false := by
  intro c hc
  unfold received at hc
  obtain ⟨e, he, hec⟩ := List.mem_filterMap.1 hc
  rw [callOf_isBegin o e c hec]
  exact h e he

/-- C12: every `output()` call that returns with at least one outputter registered consists
of the calls made before the loops followed by calls none of which is a `begin`; each
registered outputter receives in the former exactly the one call `begin(bin_idx)` with the
entry value of `bin_idx`, so its sequence is that `begin` followed by calls that are not
`begin`: every `accumulate`, `advance` and `flush` it receives comes after its single `begin`.
With `sliceskip ≥ 1` and enough fuel the call does return. -/
theorem C12_begin_first {α : Type} (m : Manager α) (F : HostFields α) (fuel : Nat) :
    (∀ m' tr, output fuel m F = some (m', tr) → m.outputters ≠ [] →
      ∃ evs, tr = preamble m ++ evs ∧ (∀ e ∈ evs, e.isBegin = false) ∧
        ∀ o, o < m.outputters.length →
          received o (preamble m) = [Call.begin m.bin_idx] ∧
          received o tr = Call.begin m.bin_idx :: received o evs ∧
          ∀ c ∈ received o evs, c.isBegin = false) ∧
    (1 ≤ m.sliceskip → max m.slicelength m.sliceskip < fuel →
      ∃ m' tr, output fuel m F = some (m', tr)) := by
  constructor
  · intro m' tr h hne
    have h0 : m.outputters.length ≠ 0 := by
      simpa [List.length_eq_zero] using hne
    unfold output at h
    rw [if_neg h0] at h
    cases hl : sliceLoop fuel m (positionBody fuel m F) with
    | none => rw [hl] at h; cases h
    | some evs =>
      rw [hl] at h
      simp only [Option.some.injEq, Prod.mk.injEq] at h
      have hevs := sliceLoop_forall (fun e : Event α => e.isBegin = false) fuel m _
        (fun i j k r hr => positionBody_no_begin fuel m F i j k r hr) evs hl
      refine ⟨evs, h.2.symm, hevs, ?_⟩
      intro o ho
      refine ⟨received_preamble m o ho, ?_, received_no_begin o evs hevs⟩
      rw [← h.2, received_append, received_preamble m o ho]
      rfl
  · intro hS hfuel
    obtain ⟨m', tr, h, _⟩ := output_received m F fuel hS hfuel
    exact ⟨m', tr, h⟩

/-- Instance of C12 on the example configuration of the spec in averaging mode, with
fuel 5. -/
theorem C12_begin_first_witness :
    (∀ m' tr, output 5 (exampleManager true) exampleFieldsZ = some (m', tr) →
      (exampleManager true).outputters ≠ [] →
      ∃ evs, tr = preamble (exampleManager true) ++ evs ∧ (∀ e ∈ evs, e.isBegin = false) ∧
        ∀ o, o < (exampleManager true).outputters.length →
          received o (preamble (exampleManager true))
            = [Call.begin (exampleManager true).bin_idx] ∧
          received o tr = Call.begin (exampleManager true).bin_idx :: received o evs ∧
          ∀ c ∈ received o evs, c.isBegin = false) ∧
    (1 ≤ (exampleManager true).sliceskip →
      max (exampleManager true).slicelength (exampleManager true).sliceskip < ((5 : Nat) : Int) →
      ∃ m' tr, output 5 (exampleManager true) exampleFieldsZ = some (m', tr)) :=
  C12_begin_first (exampleManager true) exampleFieldsZ 5

/-! ## Grid points between two coordinates -/

theorem positions_one_dim {α : Type} (m : Manager α) (hS : 1 ≤ m.sliceskip)
    (hd : m.slicedim ≤ 1) :
    positions m = (List.range (iterCount 0 m.slicelength m.sliceskip)).map
      (fun (t : Nat) => ((0 : Int), (0 : Int), (t : Int) * m.sliceskip)) := by
  have hi : boundI m = 1 := by unfold boundI; rw [if_neg (by omega)]
  have hj : boundJ m = 1 := by unfold boundJ; rw [if_neg (by omega)]
  rw [positions, hi, hj, axisVisits_one _ hS, axisVisits, stride_eq_map]
  simp [triples, Function.comp_def]

theorem length_pointsBetween (a b : Int) : (pointsBetween a b).length = (b - a - 1).toNat := by
  simp [pointsBetween]

/-! ## C14 -/

theorem registerAll_eq {α : Type} (regs : List (String × (Sample α → α))) :
    ∀ m : Manager α, registerAll m regs
      = { m with outputters := m.outputters
            ++ regs.map (fun r => { varname := r.1, vf := r.2 }) } := by
  induction regs with
  | nil => intro m; simp [registerAll]
  | cons r rs ih =>
    intro m
    have h := ih (add_outputter m r.1 r.2)
    unfold registerAll at h ⊢
    rw [List.foldl_cons, h]
    simp [add_outputter]

/-- C14: starting from a manager without outputters, after the `add_outputter` calls for
`regs` the manager holds exactly `regs.length` outputters, namely those registered, in
registration order; and one `output()` call of that manager (`sliceskip ≥ 1`, enough fuel,
either mode) returns and delivers to any two registered outputters the same sequence of calls
(`begin` argument, `accumulate` arguments, `advance`, `flush`). -/
theorem C14_shared_traversal {α : Type} (m : Manager α) (F : HostFields α) (fuel : Nat)
    (regs : List (String × (Sample α → α)))
    (hempty : m.outputters = []) (hS : 1 ≤ m.sliceskip)
    (hfuel : max m.slicelength m.sliceskip < fuel) :
    (registerAll m regs).outputters = regs.map (fun r => { varname := r.1, vf := r.2 }) ∧
    (registerAll m regs).outputters.length = regs.length ∧
    ∃ m' tr, output fuel (registerAll m regs) F = some (m', tr) ∧
      ∀ o₁ o₂, o₁ < regs.length → o₂ < regs.length → received o₁ tr = received o₂ tr := by
  have hreg := registerAll_eq regs m
  have hout : (registerAll m regs).outputters
      = regs.map (fun r => { varname := r.1, vf := r.2 }) := by
    rw [hreg, hempty]; rfl
  have hlen : (registerAll m regs).outputters.length = regs.length := by
    rw [hout, List.length_map]
  have hS' : 1 ≤ (registerAll m regs).sliceskip := by rw [hreg]; exact hS
  have hfuel' : max (registerAll m regs).slicelength (registerAll m regs).sliceskip < fuel := by
    rw [hreg]; exact hfuel
  obtain ⟨m', tr, ho, hrec⟩ := output_received (registerAll m regs) F fuel hS' hfuel'
  refine ⟨hout, hlen, m', tr, ho, ?_⟩
  intro o₁ o₂ h₁ h₂
  rw [hrec o₁ (by omega), hrec o₂ (by omega)]

/-- Instance of C14: two variables registered on an idle manager, averaging mode, fuel 5. -/
theorem C14_shared_traversal_witness :
    (registerAll idleManager
        [("phi", fun s => s.phi), ("chi", fun s => s.chi)]).outputters
      = [("phi", fun s => s.phi), ("chi", fun s => s.chi)].map
          (fun r => { varname := r.1, vf := r.2 }) ∧
    (registerAll idleManager
        [("phi", fun s => s.phi), ("chi", fun s => s.chi)]).outputters.length
      = [("phi", fun s : Sample ℚ => s.phi), ("chi", fun s => s.chi)].length ∧
    ∃ m' tr, output 5 (registerAll idleManager
        [("phi", fun s => s.phi), ("chi", fun s => s.chi)]) exampleFieldsZ = some (m', tr) ∧
      ∀ o₁ o₂, o₁ < [("phi", fun s : Sample ℚ => s.phi), ("chi", fun s => s.chi)].length →
        o₂ < [("phi", fun s : Sample ℚ => s.phi), ("chi", fun s => s.chi)].length →
        received o₁ tr = received o₂ tr :=
  C14_shared_traversal idleManager exampleFieldsZ 5
    [("phi", fun s => s.phi), ("chi", fun s => s.chi)] rfl (by decide) (by decide)

/-! ## C15 -/

theorem forLoop_zero_step {β : Type} (cond : Int → Bool) (body : Int → Option (List β))
    (v : Int) (hc : cond v = true) : ∀ fuel : Nat, forLoop fuel cond 0 body v = none := by
  intro fuel
  induction fuel with
  | zero => rfl
  | succ fuel ih =>
    unfold forLoop
    rw [if_pos hc]
    cases body v with
    | none => rfl
    | some out =>
      simp only [Int.add_zero, ih]

theorem sliceLoop_zero_skip {α β : Type} (m : Manager α)
    (body : Int → Int → Int → Option (List β))
    (hS : m.sliceskip = 0) (hL : 1 ≤ m.slicelength) (fuel : Nat) :
    sliceLoop fuel m body = none := by
  unfold sliceLoop
  rw [hS]
  apply forLoop_zero_step
  simp only [decide_eq_true_eq]
  split <;> omega

theorem length_axisVisits_le (bound L S : Int) (hS : 1 ≤ S) (hb : bound ≤ max L 1) :
    (axisVisits bound S).length ≤ (max L 1).toNat := by
  rw [axisVisits, length_stride]
  have := iterCount_le_toNat bound S hS
  omega

/-- C15: for `sliceskip = S ≥ 1` (any `slicelength`, `slicedim`, `n` and outputters) the
traversal of `output()` terminates: every fuel above `max(slicelength, S)` is enough for the
call to return, the list of visited positions is finite (at most `max(slicelength,1)^3`
positions) and strictly increasing, and the number of remaining iterations of a position
loop strictly decreases when its variable is increased by `S` below the bound and is `0` at
or beyond the bound.  With `sliceskip = 0` and `slicelength ≥ 1` the loop variable never
advances: no amount of fuel lets the traversal return. -/
theorem C15_termination {α : Type} (m : Manager α) (F : HostFields α) :
    (1 ≤ m.sliceskip →
      (∀ fuel : Nat, max m.slicelength m.sliceskip < fuel →
        ∃ m' tr ps, output fuel m F = some (m', tr) ∧ visited fuel m = some ps ∧
          ps.length ≤ (max m.slicelength 1).toNat ^ 3 ∧ ps.Pairwise lexLt) ∧
      (∀ v bound : Int, v < bound →
        iterCount (v + m.sliceskip) bound m.sliceskip < iterCount v bound m.sliceskip) ∧
      (∀ v bound : Int, ¬ v < bound → iterCount v bound m.sliceskip = 0)) ∧
    (m.sliceskip = 0 → 1 ≤ m.slicelength →
      ∀ fuel : Nat, visited fuel m = none ∧ (m.outputters ≠ [] → output fuel m F = none)) := by
  constructor
  · intro hS
    refine ⟨?_, ?_, ?_⟩
    · intro fuel hfuel
      obtain ⟨m', tr, ho, _⟩ := output_received m F fuel hS hfuel
      refine ⟨m', tr, positions m, ho, visited_eq m fuel hS hfuel, ?_, ?_⟩
      · rw [positions, length_triples]
        have h1 := length_axisVisits_le (boundI m) m.slicelength m.sliceskip hS (boundI_le m)
        have h2 := length_axisVisits_le (boundJ m) m.slicelength m.sliceskip hS (boundJ_le m)
        have h3 := length_axisVisits_le m.slicelength m.slicelength m.sliceskip hS
          (le_max_left _ _)
        calc (axisVisits (boundI m) m.sliceskip).length
              * ((axisVisits (boundJ m) m.sliceskip).length
                * (axisVisits m.slicelength m.sliceskip).length)
            ≤ (max m.slicelength 1).toNat
              * ((max m.slicelength 1).toNat * (max m.slicelength 1).toNat) :=
              Nat.mul_le_mul h1 (Nat.mul_le_mul h2 h3)
          _ = (max m.slicelength 1).toNat ^ 3 := by ring
      · exact pairwise_triples _ _ _ (pairwise_stride _ _ _ hS) (pairwise_stride _ _ _ hS)
          (pairwise_stride _ _ _ hS)
    · intro v bound hv
      rw [iterCount_of_lt v bound m.sliceskip hS hv]
      omega
    · intro v bound hv
      exact iterCount_of_not_lt v bound m.sliceskip hS hv
  · intro hS hL fuel
    refine ⟨sliceLoop_zero_skip m _ hS hL fuel, ?_⟩
    intro hne
    have h0 : m.outputters.length ≠ 0 := by
      simpa [List.length_eq_zero] using hne
    unfold output
    rw [if_neg h0, sliceLoop_zero_skip m _ hS hL fuel]

/-- Instance of C15: the example configuration of the spec (`sliceskip = 2`) for the
terminating part, a configuration with `sliceskip = 0` for the non-terminating part. -/
theorem C15_termination_witness :
    ((∀ fuel : Nat,
        max (exampleManager true).slicelength (exampleManager true).sliceskip < fuel →
        ∃ m' tr ps, output fuel (exampleManager true) exampleFieldsZ = some (m', tr) ∧
          visited fuel (exampleManager true) = some ps ∧
          ps.length ≤ (max (exampleManager true).slicelength 1).toNat ^ 3 ∧
          ps.Pairwise lexLt) ∧
      (∀ v bound : Int, v < bound →
        iterCount (v + (exampleManager true).sliceskip) bound (exampleManager true).sliceskip
          < iterCount v bound (exampleManager true).sliceskip) ∧
      (∀ v bound : Int, ¬ v < bound →
        iterCount v bound (exampleManager true).sliceskip = 0)) ∧
    (∀ fuel : Nat, visited fuel zeroSkipManager = none ∧
      (zeroSkipManager.outputters ≠ [] → output fuel zeroSkipManager exampleFieldsZ = none)) :=
  ⟨(C15_termination (exampleManager true) exampleFieldsZ).1 (by decide),
    (C15_termination zeroSkipManager exampleFieldsZ).2 rfl (by decide)⟩

/-! ## C17 -/

theorem mem_blockList_self {α : Type} (m : Manager α) (hS : 1 ≤ m.sliceskip)
    (p : Int × Int × Int) (h : p.1 < m.n ∧ p.2.1 < m.n ∧ p.2.2 < m.n) :
    p ∈ blockList m p := by
  rw [mem_blockList]
  omega

/-- C17: in averaging mode with `sliceskip ≥ 1` and `slicelength ≤ n` (`slicelength ≥ 1`
is not needed), `output()` returns and every registered outputter receives, after `begin`,
for each visited position a non-empty segment of `accumulate` calls, then `advance`, then
`flush`: the block of every visited position contains at least the position itself, so no
`advance` comes without an `accumulate` since the previous `advance` or `begin`. -/
theorem C17_block_nonempty {α : Type} (m : Manager α) (F : HostFields α) (fuel : Nat)
    (havg : m.sliceaverage = true) (hS : 1 ≤ m.sliceskip) (hL : m.slicelength ≤ m.n)
    (hfuel : max m.slicelength m.sliceskip < fuel) :
    ∃ (m' : Manager α) (tr : List (Event α)) (ps : List (Int × Int × Int))
        (seg : Int × Int × Int → List (Call α)),
      output fuel m F = some (m', tr) ∧ visited fuel m = some ps ∧
      (∀ o, o < m.outputters.length →
        received o tr
          = Call.begin m.bin_idx :: ps.flatMap (fun p => seg p ++ [Call.advance, Call.flush])) ∧
      (∀ p ∈ ps,
        (∀ c ∈ seg p, c.isAccumulate = true) ∧ 1 ≤ (seg p).length ∧
        ∃ pts, blockPoints fuel m p.1 p.2.1 p.2.2 = some pts ∧ p ∈ pts ∧
          (seg p).length = pts.length) := by
  obtain ⟨m', tr, hout, hrec⟩ := output_received m F fuel hS hfuel
  refine ⟨m', tr, positions m, fun p => (positionSamples m F p).map Call.accumulate, hout,
    visited_eq m fuel hS hfuel, hrec, ?_⟩
  intro p hp
  have hself := mem_blockList_self m hS p (mem_positions_lt m hS hL p hp)
  have hlen : ((positionSamples m F p).map Call.accumulate).length = (blockList m p).length := by
    simp only [positionSamples, havg, if_true, List.length_map]
  refine ⟨?_, ?_, blockList m p, blockPoints_eq m p.1 p.2.1 p.2.2 fuel (by omega), hself,
    hlen⟩
  · intro c hc
    obtain ⟨s, _, rfl⟩ := List.mem_map.1 hc
    rfl
  · rw [hlen]
    exact List.length_pos_of_mem hself

/-- Instance of C17 on the example configuration of the spec in averaging mode, with
fuel 5. -/
theorem C17_block_nonempty_witness :
    ∃ (m' : Manager ℚ) (tr : List (Event ℚ)) (ps : List (Int × Int × Int))
        (seg : Int × Int × Int → List (Call ℚ)),
      output 5 (exampleManager true) exampleFieldsZ = some (m', tr) ∧
      visited 5 (exampleManager true) = some ps ∧
      (∀ o, o < (exampleManager true).outputters.length →
        received o tr
          = Call.begin (exampleManager true).bin_idx
            :: ps.flatMap (fun p => seg p ++ [Call.advance, Call.flush])) ∧
      (∀ p ∈ ps,
        (∀ c ∈ seg p, c.isAccumulate = true) ∧ 1 ≤ (seg p).length ∧
        ∃ pts, blockPoints 5 (exampleManager true) p.1 p.2.1 p.2.2 = some pts ∧ p ∈ pts ∧
          (seg p).length = pts.length) :=
  C17_block_nonempty (exampleManager true) exampleFieldsZ 5 rfl (by decide) (by decide)
    (by decide)

/-! ## Trichotomy of the order on positions -/

theorem lexLt_trichotomy (p q : Int × Int × Int) : lexLt p q ∨ p = q ∨ lexLt q p := by
  obtain ⟨a, b, c⟩ := p
  obtain ⟨a', b', c'⟩ := q
  unfold lexLt
  simp only [Prod.mk.injEq]
  omega

/-! ## C18 -/

theorem multiple_unique (S a b x : Int) (hS : 1 ≤ S) (ha : S ∣ a) (hb : S ∣ b)
    (hax : a ≤ x ∧ x < a + S) (hbx : b ≤ x ∧ x < b + S) : a = b := by
  obtain ⟨u, rfl⟩ := ha
  obtain ⟨v, rfl⟩ := hb
  have huv : u = v := by
    by_contra hne
    rcases lt_or_gt_of_ne hne with h | h
    · have : S * (u + 1) ≤ S * v := Int.mul_le_mul_of_nonneg_left (by omega) (by omega)
      have e : S * (u + 1) = S * u + S := by ring
      omega
    · have : S * (v + 1) ≤ S * u := Int.mul_le_mul_of_nonneg_left (by omega) (by omega)
      have e : S * (v + 1) = S * v + S := by ring
      omega
  rw [huv]

theorem mem_positions_iff {α : Type} (m : Manager α) (hS : 1 ≤ m.sliceskip)
    (p : Int × Int × Int) :
    p ∈ positions m ↔
      (0 ≤ p.1 ∧ m.sliceskip ∣ p.1 ∧ p.1 < boundI m) ∧
      (0 ≤ p.2.1 ∧ m.sliceskip ∣ p.2.1 ∧ p.2.1 < boundJ m) ∧
      (0 ≤ p.2.2 ∧ m.sliceskip ∣ p.2.2 ∧ p.2.2 < m.slicelength) := by
  rw [positions, mem_triples, mem_axisVisits _ _ _ hS, mem_axisVisits _ _ _ hS,
    mem_axisVisits _ _ _ hS]

theorem blockList_disjoint {α : Type} (m : Manager α) (hS : 1 ≤ m.sliceskip)
    (p q : Int × Int × Int) (hp : p ∈ positions m) (hq : q ∈ positions m) (hne : p ≠ q) :
    List.Disjoint (blockList m p) (blockList m q) := by
  intro r hrp hrq
  apply hne
  obtain ⟨⟨_, a1, _⟩, ⟨_, a2, _⟩, _, a3, _⟩ := (mem_positions_iff m hS p).1 hp
  obtain ⟨⟨_, b1, _⟩, ⟨_, b2, _⟩, _, b3, _⟩ := (mem_positions_iff m hS q).1 hq
  obtain ⟨⟨c1, c2, _⟩, ⟨c3, c4, _⟩, c5, c6, _⟩ := (mem_blockList m p r).1 hrp
  obtain ⟨⟨d1, d2, _⟩, ⟨d3, d4, _⟩, d5, d6, _⟩ := (mem_blockList m q r).1 hrq
  have e1 := multiple_unique m.sliceskip p.1 q.1 r.1 hS a1 b1 ⟨c1, c2⟩ ⟨d1, d2⟩
  have e2 := multiple_unique m.sliceskip p.2.1 q.2.1 r.2.1 hS a2 b2 ⟨c3, c4⟩ ⟨d3, d4⟩
  have e3 := multiple_unique m.sliceskip p.2.2 q.2.2 r.2.2 hS a3 b3 ⟨c5, c6⟩ ⟨d5, d6⟩
  exact Prod.ext e1 (Prod.ext e2 e3)

theorem nodup_blocks {α : Type} (m : Manager α) (hS : 1 ≤ m.sliceskip) :
    ((positions m).flatMap (blockList m)).Nodup := by
  rw [List.nodup_flatMap]
  refine ⟨fun p _ => nodup_blockList m p, ?_⟩
  have hpw : (positions m).Pairwise lexLt :=
    pairwise_triples _ _ _ (pairwise_stride _ _ _ hS) (pairwise_stride _ _ _ hS)
      (pairwise_stride _ _ _ hS)
  refine hpw.imp_of_mem ?_
  intro p q hp hq hlt
  apply blockList_disjoint m hS p q hp hq
  intro e
  subst e
  exact lexLt_irrefl p hlt

theorem floor_multiple (S x : Int) (hS : 1 ≤ S) (hx : 0 ≤ x) :
    0 ≤ S * (x / S) ∧ S ∣ S * (x / S) ∧ S * (x / S) ≤ x ∧ x < S * (x / S) + S := by
  have h1 := Int.emod_add_ediv x S
  have h2 := Int.emod_nonneg x (by omega : S ≠ 0)
  have h3 := Int.emod_lt_of_pos x (by omega : 0 < S)
  have h4 : 0 ≤ x / S := Int.ediv_nonneg hx (by omega)
  have h5 : 0 ≤ S * (x / S) := Int.mul_nonneg (by omega) h4
  exact ⟨h5, Dvd.intro _ rfl, by omega, by omega⟩

theorem mem_blocks_iff {α : Type} (m : Manager α) (hS : 1 ≤ m.sliceskip)
    (hd : m.slicedim = 3) (hL : m.slicelength = m.n) (q : Int × Int × Int) :
    q ∈ (positions m).flatMap (blockList m) ↔
      (0 ≤ q.1 ∧ q.1 < m.n) ∧ (0 ≤ q.2.1 ∧ q.2.1 < m.n) ∧ (0 ≤ q.2.2 ∧ q.2.2 < m.n) := by
  have hbi : boundI m = m.n := by unfold boundI; rw [if_pos (by omega), hL]
  have hbj : boundJ m = m.n := by unfold boundJ; rw [if_pos (by omega), hL]
  rw [List.mem_flatMap]
  constructor
  · rintro ⟨p, hp, hq⟩
    obtain ⟨a0, b0, c0⟩ := mem_positions_nonneg m hS p hp
    obtain ⟨⟨a1, _, a3⟩, ⟨b1, _, b3⟩, c1, _, c3⟩ := (mem_blockList m p q).1 hq
    omega
  · rintro ⟨⟨x0, x1⟩, ⟨y0, y1⟩, z0, z1⟩
    obtain ⟨fx0, fxd, fx1, fx2⟩ := floor_multiple m.sliceskip q.1 hS x0
    obtain ⟨fy0, fyd, fy1, fy2⟩ := floor_multiple m.sliceskip q.2.1 hS y0
    obtain ⟨fz0, fzd, fz1, fz2⟩ := floor_multiple m.sliceskip q.2.2 hS z0
    refine ⟨(m.sliceskip * (q.1 / m.sliceskip), m.sliceskip * (q.2.1 / m.sliceskip),
      m.sliceskip * (q.2.2 / m.sliceskip)), ?_, ?_⟩
    · rw [mem_positions_iff m hS, hbi, hbj, hL]
      dsimp only
      exact ⟨⟨fx0, fxd, by omega⟩, ⟨fy0, fyd, by omega⟩, fz0, fzd, by omega⟩
    · rw [mem_blockList]
      dsimp only
      exact ⟨⟨fx1, fx2, x1⟩, ⟨fy1, fy2, y1⟩, fz1, fz2, z1⟩

theorem length_blocks {α : Type} (m : Manager α) (hS : 1 ≤ m.sliceskip)
    (hd : m.slicedim = 3) (hL : m.slicelength = m.n) :
    ((positions m).flatMap (blockList m)).length = m.n.toNat ^ 3 := by
  have hg : (triples (blockRange 0 m.n m.n) (blockRange 0 m.n m.n)
      (blockRange 0 m.n m.n)).Nodup :=
    nodup_triples _ _ _ (pairwise_stride _ _ _ (le_refl 1)) (pairwise_stride _ _ _ (le_refl 1))
      (pairwise_stride _ _ _ (le_refl 1))
  have hperm : ((positions m).flatMap (blockList m)).Perm
      (triples (blockRange 0 m.n m.n) (blockRange 0 m.n m.n) (blockRange 0 m.n m.n)) := by
    rw [List.perm_ext_iff_of_nodup (nodup_blocks m hS) hg]
    intro q
    rw [mem_blocks_iff m hS hd hL, mem_triples, mem_blockRange, mem_blockRange, mem_blockRange]
    omega
  rw [hperm.length_eq, length_triples, length_blockRange]
  have e : (min (0 + m.n) m.n - 0).toNat = m.n.toNat := by
    rw [Int.zero_add, min_self, Int.sub_zero]
  rw [e]
  ring

theorem countP_isAccumulate_positionCalls {α : Type} (m : Manager α) (F : HostFields α)
    (havg : m.sliceaverage = true) (ps : List (Int × Int × Int)) :
    (ps.flatMap (positionCalls m F)).countP Call.isAccumulate
      = (ps.flatMap (blockList m)).length := by
  induction ps with
  | nil => rfl
  | cons p ps ih =>
    rw [List.flatMap_cons, List.flatMap_cons, List.countP_append, List.length_append, ih]
    congr 1
    simp only [positionCalls, positionSamples, havg, if_true, List.countP_append,
      List.countP_map]
    have h1 : ([Call.advance, Call.flush] : List (Call α)).countP Call.isAccumulate = 0 := by
      simp [List.countP_cons, Call.isAccumulate]
    rw [h1, Nat.add_zero, List.countP_eq_length]
    intro q _
    rfl

/-- C18: in averaging mode with `slicedim = 3`, `slicelength = n` and `sliceskip = S ≥ 1`,
`output()` returns and the blocks of the visited positions partition the grid: the list of
all grid points of all blocks, in the order in which they are accumulated, has no repetition
and contains exactly the points `(x,y,z)` with `0 ≤ x,y,z < n`, so it has `n^3` elements;
every registered outputter receives one `accumulate` per element of that list, `n^3` in
all. -/
theorem C18_blocks_partition {α : Type} (m : Manager α) (F : HostFields α) (fuel : Nat)
    (havg : m.sliceaverage = true) (hd : m.slicedim = 3) (hL : m.slicelength = m.n)
    (hS : 1 ≤ m.sliceskip) (hfuel : max m.slicelength m.sliceskip < fuel) :
    ∃ (m' : Manager α) (tr : List (Event α)) (ps : List (Int × Int × Int))
        (blk : Int × Int × Int → List (Int × Int × Int)),
      output fuel m F = some (m', tr) ∧ visited fuel m = some ps ∧
      (∀ p ∈ ps, blockPoints fuel m p.1 p.2.1 p.2.2 = some (blk p)) ∧
      (ps.flatMap blk).Nodup ∧
      (∀ x y z, (x, y, z) ∈ ps.flatMap blk ↔
        (0 ≤ x ∧ x < m.n) ∧ (0 ≤ y ∧ y < m.n) ∧ (0 ≤ z ∧ z < m.n)) ∧
      (ps.flatMap blk).length = m.n.toNat ^ 3 ∧
      (∀ o, o < m.outputters.length →
        received o tr = Call.begin m.bin_idx :: ps.flatMap (fun p =>
          (blk p).map (fun q => Call.accumulate
              (readSample F (flatIndex m.n m.phi_ldl q.1 q.2.1 q.2.2)
                (flatIndex m.n m.phigradx_ldl q.1 q.2.1 q.2.2)))
            ++ [Call.advance, Call.flush]) ∧
        (received o tr).countP Call.isAccumulate = m.n.toNat ^ 3) := by
  obtain ⟨m', tr, hout, hrec⟩ := output_received m F fuel hS hfuel
  refine ⟨m', tr, positions m, blockList m, hout, visited_eq m fuel hS hfuel,
    fun p _ => blockPoints_eq m p.1 p.2.1 p.2.2 fuel (by omega), nodup_blocks m hS,
    fun x y z => mem_blocks_iff m hS hd hL (x, y, z), length_blocks m hS hd hL, ?_⟩
  intro o ho
  constructor
  · rw [hrec o ho]
    congr 1
    apply List.flatMap_congr
    intro p _
    simp only [positionCalls, positionSamples, havg, if_true, List.map_map]
    rfl
  · rw [hrec o ho, List.countP_cons, countP_isAccumulate_positionCalls m F havg,
      length_blocks m hS hd hL]
    simp [Call.isAccumulate]

/-- Instance of C18 on a `3×3×3` grid with `sliceskip = 2`, with fuel 4. -/
theorem C18_blocks_partition_witness :
    ∃ (m' : Manager ℚ) (tr : List (Event ℚ)) (ps : List (Int × Int × Int))
        (blk : Int × Int × Int → List (Int × Int × Int)),
      output 4 fullGridManager (exampleFields 0) = some (m', tr) ∧
      visited 4 fullGridManager = some ps ∧
      (∀ p ∈ ps, blockPoints 4 fullGridManager p.1 p.2.1 p.2.2 = some (blk p)) ∧
      (ps.flatMap blk).Nodup ∧
      (∀ x y z, (x, y, z) ∈ ps.flatMap blk ↔
        (0 ≤ x ∧ x < fullGridManager.n) ∧ (0 ≤ y ∧ y < fullGridManager.n) ∧
        (0 ≤ z ∧ z < fullGridManager.n)) ∧
      (ps.flatMap blk).length = fullGridManager.n.toNat ^ 3 ∧
      (∀ o, o < fullGridManager.outputters.length →
        received o tr = Call.begin fullGridManager.bin_idx :: ps.flatMap (fun p =>
          (blk p).map (fun q => Call.accumulate
              (readSample (exampleFields 0)
                (flatIndex fullGridManager.n fullGridManager.phi_ldl q.1 q.2.1 q.2.2)
                (flatIndex fullGridManager.n fullGridManager.phigradx_ldl q.1 q.2.1 q.2.2)))
            ++ [Call.advance, Call.flush]) ∧
        (received o tr).countP Call.isAccumulate = fullGridManager.n.toNat ^ 3) :=
  C18_blocks_partition fullGridManager (exampleFields 0) 4 rfl rfl rfl (by decide) (by decide)

/-! ## Width of the flat index -/

theorem wrapInt_of_range (v : Int) (h1 : -2147483648 ≤ v) (h2 : v < 2147483648) :
    wrapInt v = v := by
  unfold wrapInt
  omega

theorem exactIndex_bounds (n ldl x y z : Int) (hx0 : 0 ≤ x) (hx : x < n) (hy0 : 0 ≤ y)
    (hy : y < n) (hz0 : 0 ≤ z) (hz : z < n) (hl : n ≤ ldl) :
    0 ≤ z + ldl * (y + n * x) ∧ z + ldl * (y + n * x) < ldl * n * n := by
  have hn : 0 < n := by omega
  have h1 : 0 ≤ n * x := Int.mul_nonneg (by omega) hx0
  have h2 : n * x ≤ n * (n - 1) := Int.mul_le_mul_of_nonneg_left (by omega) (by omega)
  have h3 : 0 ≤ ldl * (y + n * x) := Int.mul_nonneg (by omega) (by omega)
  have h4 : ldl * (y + n * x) ≤ ldl * (n - 1 + n * (n - 1)) :=
    Int.mul_le_mul_of_nonneg_left (by omega) (by omega)
  constructor
  · omega
  · have e : ldl * n * n = ldl * (n - 1 + n * (n - 1)) + ldl := by ring
    rw [e]
    omega

/-- On a grid whose buffer size `ldl*n*n` fits a 32-bit `int`, the `int` index of a grid point
is the exact value `z + ldl*(y + n*x)`. -/
theorem flatIndex_eq_exact (n ldl x y z : Int) (hx0 : 0 ≤ x) (hx : x < n) (hy0 : 0 ≤ y)
    (hy : y < n) (hz0 : 0 ≤ z) (hz : z < n) (hl : n ≤ ldl)
    (hfit : ldl * n * n ≤ 2147483648) :
    flatIndex n ldl x y z = z + ldl * (y + n * x) := by
  have h := exactIndex_bounds n ldl x y z hx0 hx hy0 hy hz0 hz hl
  unfold flatIndex
  exact wrapInt_of_range _ (by omega) (by omega)

theorem flatIndex_bounds (n ldl x y z : Int) (hx0 : 0 ≤ x) (hx : x < n) (hy0 : 0 ≤ y)
    (hy : y < n) (hz0 : 0 ≤ z) (hz : z < n) (hl : n ≤ ldl)
    (hfit : ldl * n * n ≤ 2147483648) :
    0 ≤ flatIndex n ldl x y z ∧ flatIndex n ldl x y z < ldl * n * n := by
  rw [flatIndex_eq_exact n ldl x y z hx0 hx hy0 hy hz0 hz hl hfit]
  exact exactIndex_bounds n ldl x y z hx0 hx hy0 hy hz0 hz hl

theorem exactIndex_lt_of_lexLt (n ldl : Int) (p q : Int × Int × Int)
    (hn : 1 ≤ n) (hl : n ≤ ldl)
    (hp : (0 ≤ p.1 ∧ p.1 < n) ∧ (0 ≤ p.2.1 ∧ p.2.1 < n) ∧ (0 ≤ p.2.2 ∧ p.2.2 < n))
    (hq : (0 ≤ q.1 ∧ q.1 < n) ∧ (0 ≤ q.2.1 ∧ q.2.1 < n) ∧ (0 ≤ q.2.2 ∧ q.2.2 < n))
    (h : lexLt p q) :
    p.2.2 + ldl * (p.2.1 + n * p.1) < q.2.2 + ldl * (q.2.1 + n * q.1) := by
  obtain ⟨⟨px0, px⟩, ⟨py0, py⟩, pz0, pz⟩ := hp
  obtain ⟨⟨qx0, qx⟩, ⟨qy0, qy⟩, qz0, qz⟩ := hq
  have key : ∀ A B : Int, A + 1 ≤ B →
      p.2.2 + ldl * A < q.2.2 + ldl * B := by
    intro A B hAB
    have : ldl * (A + 1) ≤ ldl * B := Int.mul_le_mul_of_nonneg_left hAB (by omega)
    have e : ldl * (A + 1) = ldl * A + ldl := by ring
    omega
  rcases h with hx | ⟨hx, hy | ⟨hy, hz⟩⟩
  · apply key
    have : n * (p.1 + 1) ≤ n * q.1 := Int.mul_le_mul_of_nonneg_left (by omega) (by omega)
    have e : n * (p.1 + 1) = n * p.1 + n := by ring
    omega
  · apply key
    rw [hx]
    omega
  · rw [hx, hy]
    omega

theorem flatIndex_lt_of_lexLt (n ldl : Int) (p q : Int × Int × Int)
    (hn : 1 ≤ n) (hl : n ≤ ldl) (hfit : ldl * n * n ≤ 2147483648)
    (hp : (0 ≤ p.1 ∧ p.1 < n) ∧ (0 ≤ p.2.1 ∧ p.2.1 < n) ∧ (0 ≤ p.2.2 ∧ p.2.2 < n))
    (hq : (0 ≤ q.1 ∧ q.1 < n) ∧ (0 ≤ q.2.1 ∧ q.2.1 < n) ∧ (0 ≤ q.2.2 ∧ q.2.2 < n))
    (h : lexLt p q) :
    flatIndex n ldl p.1 p.2.1 p.2.2 < flatIndex n ldl q.1 q.2.1 q.2.2 := by
  rw [flatIndex_eq_exact n ldl p.1 p.2.1 p.2.2 hp.1.1 hp.1.2 hp.2.1.1 hp.2.1.2 hp.2.2.1
      hp.2.2.2 hl hfit,
    flatIndex_eq_exact n ldl q.1 q.2.1 q.2.2 hq.1.1 hq.1.2 hq.2.1.1 hq.2.1.2 hq.2.2.1
      hq.2.2.2 hl hfit]
  exact exactIndex_lt_of_lexLt n ldl p q hn hl hp hq h

theorem mem_positions_largeGrid (average : Bool) :
    ((1290 : Int), (1290 : Int), (1290 : Int)) ∈ positions (largeGridManager average) := by
  cases average
  · rw [mem_positions_iff (largeGridManager false) (by decide)]
    exact ⟨⟨by decide, ⟨1290, by decide⟩, by decide⟩, ⟨by decide, ⟨1290, by decide⟩, by decide⟩,
      by decide, ⟨1290, by decide⟩, by decide⟩
  · rw [mem_positions_iff (largeGridManager true) (by decide)]
    exact ⟨⟨by decide, ⟨1290, by decide⟩, by decide⟩, ⟨by decide, ⟨1290, by decide⟩, by decide⟩,
      by decide, ⟨1290, by decide⟩, by decide⟩

theorem flatIndex_largeGrid : flatIndex 1291 1291 1290 1290 1290 = -2143282126 := by
  decide

/-! ## C5 -/

/-- C5 as stated fails on a large grid: for `n = ldl = 1291`, a three-dimensional
averaging slice of the whole grid with `sliceskip = 1`, the position `(1290,1290,1290)` is
visited, its block contains the grid point `(1290,1290,1290)`, which satisfies
`0 ≤ x,y,z < n`, and `output()` makes the `accumulate` call that reads the buffers at the
`int` index of that point; the exact value `2151685170` of `z + ldl*(y + n*x)` exceeds
`2^31 - 1`, so the `int` holds `-2143282126`, which is not in `[0, ldl*n*n)`. -/
theorem C5_counterexample :
    ∃ m' tr ps blk,
      output 1292 (largeGridManager true) (exampleFields 0) = some (m', tr) ∧
      visited 1292 (largeGridManager true) = some ps ∧
      ((1290 : Int), (1290 : Int), (1290 : Int)) ∈ ps ∧
      blockPoints 1292 (largeGridManager true) 1290 1290 1290 = some blk ∧
      ((1290 : Int), (1290 : Int), (1290 : Int)) ∈ blk ∧
      (largeGridManager true).n ≤ (largeGridManager true).phi_ldl ∧
      Event.accumulate 0
          (readSample (exampleFields 0)
            (flatIndex (largeGridManager true).n (largeGridManager true).phi_ldl
              1290 1290 1290)
            (flatIndex (largeGridManager true).n (largeGridManager true).phigradx_ldl
              1290 1290 1290)) ∈ tr ∧
      flatIndex (largeGridManager true).n (largeGridManager true).phi_ldl 1290 1290 1290
        = -2143282126 ∧
      ¬ (0 ≤ flatIndex (largeGridManager true).n (largeGridManager true).phi_ldl
            1290 1290 1290) := by
  have hblk : ((1290 : Int), (1290 : Int), (1290 : Int))
      ∈ blockList (largeGridManager true) (1290, 1290, 1290) := by
    rw [mem_blockList]
    decide
  refine ⟨_, _, positions (largeGridManager true),
    blockList (largeGridManager true) (1290, 1290, 1290),
    output_eq (largeGridManager true) (exampleFields 0) 1292 (by decide)
      (List.cons_ne_nil _ _) (by decide),
    visited_eq (largeGridManager true) 1292 (by decide) (by decide),
    mem_positions_largeGrid true,
    blockPoints_eq (largeGridManager true) 1290 1290 1290 1292 (by decide), hblk, by decide,
    ?_, flatIndex_largeGrid, ?_⟩
  · apply List.mem_append_right
    rw [List.mem_flatMap]
    refine ⟨(1290, 1290, 1290), mem_positions_largeGrid true, ?_⟩
    rw [positionEvents_average (largeGridManager true) (exampleFields 0) rfl]
    apply List.mem_append_left
    apply List.mem_append_left
    rw [List.mem_flatMap]
    refine ⟨(1290, 1290, 1290), hblk, ?_⟩
    simp [accumulatePoint, forOutputters, largeGridManager]
  · show ¬ (0 ≤ flatIndex 1291 1291 1290 1290 1290)
    rw [flatIndex_largeGrid]
    decide

/-- C5 (amended): in averaging mode with `sliceskip = S ≥ 1` (any `slicelength`, `slicedim`,
`n`), `output()` returns and its `accumulate` calls are made exactly at the grid points of the
blocks of the visited positions; every such grid point `(x,y,z)` of the block of `(i,j,k)`
satisfies `0 ≤ x,y,z < n` and lies in `[i,i+S) × [j,j+S) × [k,k+S)`, and whenever a leading
dimension is at least `n` and the buffer size `ldl*n*n` fits a 32-bit `int`
(`ldl*n*n ≤ 2^31`), the `int` index computed with it lies in `[0, ldl*n*n)`. -/
theorem C5_block_in_grid {α : Type} (m : Manager α) (F : HostFields α) (fuel : Nat)
    (havg : m.sliceaverage = true) (hS : 1 ≤ m.sliceskip)
    (hfuel : max m.slicelength m.sliceskip < fuel) :
    ∃ (m' : Manager α) (tr : List (Event α)) (ps : List (Int × Int × Int))
        (blk : Int × Int × Int → List (Int × Int × Int)),
      output fuel m F = some (m', tr) ∧ visited fuel m = some ps ∧
      (∀ p ∈ ps, blockPoints fuel m p.1 p.2.1 p.2.2 = some (blk p)) ∧
      (m.outputters ≠ [] →
        tr = preamble m ++ ps.flatMap (fun p =>
          (blk p).flatMap (fun q => accumulatePoint m F q.1 q.2.1 q.2.2)
            ++ forOutputters m (fun o => [Event.advance o])
            ++ forOutputters m (fun o => [Event.flush o]))) ∧
      (∀ p ∈ ps, ∀ q ∈ blk p,
        (0 ≤ q.1 ∧ q.1 < m.n) ∧ (0 ≤ q.2.1 ∧ q.2.1 < m.n) ∧ (0 ≤ q.2.2 ∧ q.2.2 < m.n) ∧
        (p.1 ≤ q.1 ∧ q.1 < p.1 + m.sliceskip) ∧
        (p.2.1 ≤ q.2.1 ∧ q.2.1 < p.2.1 + m.sliceskip) ∧
        (p.2.2 ≤ q.2.2 ∧ q.2.2 < p.2.2 + m.sliceskip) ∧
        (m.n ≤ m.phi_ldl → m.phi_ldl * m.n * m.n ≤ 2147483648 →
          0 ≤ flatIndex m.n m.phi_ldl q.1 q.2.1 q.2.2 ∧
          flatIndex m.n m.phi_ldl q.1 q.2.1 q.2.2 < m.phi_ldl * m.n * m.n) ∧
        (m.n ≤ m.phigradx_ldl → m.phigradx_ldl * m.n * m.n ≤ 2147483648 →
          0 ≤ flatIndex m.n m.phigradx_ldl q.1 q.2.1 q.2.2 ∧
          flatIndex m.n m.phigradx_ldl q.1 q.2.1 q.2.2 < m.phigradx_ldl * m.n * m.n)) := by
  have hbounds : ∀ p ∈ positions m, ∀ q ∈ blockList m p,
      (0 ≤ q.1 ∧ q.1 < m.n) ∧ (0 ≤ q.2.1 ∧ q.2.1 < m.n) ∧ (0 ≤ q.2.2 ∧ q.2.2 < m.n) ∧
      (p.1 ≤ q.1 ∧ q.1 < p.1 + m.sliceskip) ∧
      (p.2.1 ≤ q.2.1 ∧ q.2.1 < p.2.1 + m.sliceskip) ∧
      (p.2.2 ≤ q.2.2 ∧ q.2.2 < p.2.2 + m.sliceskip) ∧
      (m.n ≤ m.phi_ldl → m.phi_ldl * m.n * m.n ≤ 2147483648 →
        0 ≤ flatIndex m.n m.phi_ldl q.1 q.2.1 q.2.2 ∧
        flatIndex m.n m.phi_ldl q.1 q.2.1 q.2.2 < m.phi_ldl * m.n * m.n) ∧
      (m.n ≤ m.phigradx_ldl → m.phigradx_ldl * m.n * m.n ≤ 2147483648 →
        0 ≤ flatIndex m.n m.phigradx_ldl q.1 q.2.1 q.2.2 ∧
        flatIndex m.n m.phigradx_ldl q.1 q.2.1 q.2.2 < m.phigradx_ldl * m.n * m.n) := by
    intro p hp q hq
    obtain ⟨h0, h1, h2⟩ := mem_positions_nonneg m hS p hp
    obtain ⟨⟨a1, a2, a3⟩, ⟨b1, b2, b3⟩, c1, c2, c3⟩ := (mem_blockList m p q).1 hq
    refine ⟨⟨by omega, a3⟩, ⟨by omega, b3⟩, ⟨by omega, c3⟩, ⟨a1, a2⟩, ⟨b1, b2⟩, ⟨c1, c2⟩,
      ?_, ?_⟩
    · intro hl hfit
      exact flatIndex_bounds m.n m.phi_ldl q.1 q.2.1 q.2.2 (by omega) a3 (by omega) b3
        (by omega) c3 hl hfit
    · intro hl hfit
      exact flatIndex_bounds m.n m.phigradx_ldl q.1 q.2.1 q.2.2 (by omega) a3 (by omega) b3
        (by omega) c3 hl hfit
  by_cases hout : m.outputters = []
  · exact ⟨m, [], positions m, blockList m, by simp [output, hout],
      visited_eq m fuel hS hfuel,
      fun p _ => blockPoints_eq m p.1 p.2.1 p.2.2 fuel (by omega),
      fun h => absurd hout h, hbounds⟩
  · refine ⟨_, _, positions m, blockList m, output_eq m F fuel hS hout hfuel,
      visited_eq m fuel hS hfuel,
      fun p _ => blockPoints_eq m p.1 p.2.1 p.2.2 fuel (by omega), ?_, hbounds⟩
    intro _
    congr 1
    exact List.flatMap_congr (fun p _ => positionEvents_average m F havg p)

/-- Instance of the amended C5 on a configuration whose slice is longer than the grid
(`n = 3`, `ldl = 4`, `slicelength = 5`, `sliceskip = 2`), with fuel 6. -/
theorem C5_block_in_grid_witness :
    ∃ (m' : Manager ℚ) (tr : List (Event ℚ)) (ps : List (Int × Int × Int))
        (blk : Int × Int × Int → List (Int × Int × Int)),
      output 6 clippedManager (exampleFields 0) = some (m', tr) ∧
      visited 6 clippedManager = some ps ∧
      (∀ p ∈ ps, blockPoints 6 clippedManager p.1 p.2.1 p.2.2 = some (blk p)) ∧
      (clippedManager.outputters ≠ [] →
        tr = preamble clippedManager ++ ps.flatMap (fun p =>
          (blk p).flatMap (fun q => accumulatePoint clippedManager (exampleFields 0)
              q.1 q.2.1 q.2.2)
            ++ forOutputters clippedManager (fun o => [Event.advance o])
            ++ forOutputters clippedManager (fun o => [Event.flush o]))) ∧
      (∀ p ∈ ps, ∀ q ∈ blk p,
        (0 ≤ q.1 ∧ q.1 < clippedManager.n) ∧ (0 ≤ q.2.1 ∧ q.2.1 < clippedManager.n) ∧
        (0 ≤ q.2.2 ∧ q.2.2 < clippedManager.n) ∧
        (p.1 ≤ q.1 ∧ q.1 < p.1 + clippedManager.sliceskip) ∧
        (p.2.1 ≤ q.2.1 ∧ q.2.1 < p.2.1 + clippedManager.sliceskip) ∧
        (p.2.2 ≤ q.2.2 ∧ q.2.2 < p.2.2 + clippedManager.sliceskip) ∧
        (clippedManager.n ≤ clippedManager.phi_ldl →
          clippedManager.phi_ldl * clippedManager.n * clippedManager.n ≤ 2147483648 →
          0 ≤ flatIndex clippedManager.n clippedManager.phi_ldl q.1 q.2.1 q.2.2 ∧
          flatIndex clippedManager.n clippedManager.phi_ldl q.1 q.2.1 q.2.2
            < clippedManager.phi_ldl * clippedManager.n * clippedManager.n) ∧
        (clippedManager.n ≤ clippedManager.phigradx_ldl →
          clippedManager.phigradx_ldl * clippedManager.n * clippedManager.n ≤ 2147483648 →
          0 ≤ flatIndex clippedManager.n clippedManager.phigradx_ldl q.1 q.2.1 q.2.2 ∧
          flatIndex clippedManager.n clippedManager.phigradx_ldl q.1 q.2.1 q.2.2
            < clippedManager.phigradx_ldl * clippedManager.n * clippedManager.n)) :=
  C5_block_in_grid clippedManager (exampleFields 0) 6 rfl (by decide) (by decide)

/-! ## C16 -/

/-- C16 as stated fails on a large grid: for `n = ldl = 1291`, `slicedim = 3`,
`slicelength = 1291 ≤ n`, `sliceskip = 1` in non-averaging mode, every hypothesis of the claim
holds, the position `(1290,1290,1290)` is visited and `output()` makes the `accumulate` call
that reads the buffers at its `int` index, but that index is `-2143282126` (the exact value
`2151685170` exceeds `2^31 - 1`): an out-of-range read although `slicelength ≤ n`. -/
theorem C16_counterexample :
    ∃ m' tr ps,
      output 1292 (largeGridManager false) (exampleFields 0) = some (m', tr) ∧
      visited 1292 (largeGridManager false) = some ps ∧
      ((1290 : Int), (1290 : Int), (1290 : Int)) ∈ ps ∧
      (largeGridManager false).sliceaverage = false ∧
      1 ≤ (largeGridManager false).sliceskip ∧
      1 ≤ (largeGridManager false).slicelength ∧
      (largeGridManager false).slicelength ≤ (largeGridManager false).n ∧
      (largeGridManager false).n ≤ (largeGridManager false).phi_ldl ∧
      (largeGridManager false).n ≤ (largeGridManager false).phigradx_ldl ∧
      Event.accumulate 0
          (readSample (exampleFields 0)
            (flatIndex (largeGridManager false).n (largeGridManager false).phi_ldl
              1290 1290 1290)
            (flatIndex (largeGridManager false).n (largeGridManager false).phigradx_ldl
              1290 1290 1290)) ∈ tr ∧
      ¬ (0 ≤ flatIndex (largeGridManager false).n (largeGridManager false).phi_ldl
            1290 1290 1290) ∧
      ¬ ((largeGridManager false).n < (largeGridManager false).slicelength) := by
  refine ⟨_, _, positions (largeGridManager false),
    output_eq (largeGridManager false) (exampleFields 0) 1292 (by decide)
      (List.cons_ne_nil _ _) (by decide),
    visited_eq (largeGridManager false) 1292 (by decide) (by decide),
    mem_positions_largeGrid false, rfl, by decide, by decide, by decide, by decide, by decide,
    ?_, ?_, by decide⟩
  · apply List.mem_append_right
    rw [List.mem_flatMap]
    refine ⟨(1290, 1290, 1290), mem_positions_largeGrid false, ?_⟩
    simp [positionEvents, forOutputters, largeGridManager]
  · show ¬ (0 ≤ flatIndex 1291 1291 1290 1290 1290)
    rw [flatIndex_largeGrid]
    decide

/-- C16 (amended): in non-averaging mode with `sliceskip ≥ 1`, both leading dimensions at
least `n` and both buffer sizes `ldl*n*n` within the range of a 32-bit `int`
(`ldl*n*n ≤ 2^31`), `output()` returns and every registered outputter receives per visited
position `(i,j,k)` the sample read at the `int` indices `fdx = k + phi.ldl*(j + n*i)` and
`idx = k + gc.phigradx.ldl*(j + n*i)`.  If `slicelength ≤ n`, both indices of every visited
position are non-negative and strictly below `ldl*n*n`; hence an index out of that range at a
visited position occurs only when `slicelength > n`.  It does occur then: for `n = 1`,
`ldl = 1`, `slicelength = 2`, `sliceskip = 1` the visited position `(0,0,1)` has
`fdx = 1 = ldl*n*n`. -/
theorem C16_point_in_range {α : Type} (m : Manager α) (F : HostFields α) (fuel : Nat)
    (havg : m.sliceaverage = false) (hS : 1 ≤ m.sliceskip)
    (h1 : m.n ≤ m.phi_ldl) (h2 : m.n ≤ m.phigradx_ldl)
    (hfit1 : m.phi_ldl * m.n * m.n ≤ 2147483648)
    (hfit2 : m.phigradx_ldl * m.n * m.n ≤ 2147483648)
    (hfuel : max m.slicelength m.sliceskip < fuel) :
    (∃ m' tr ps, output fuel m F = some (m', tr) ∧ visited fuel m = some ps ∧
      (∀ o, o < m.outputters.length →
        received o tr = Call.begin m.bin_idx :: ps.flatMap (fun p =>
          [Call.accumulate
              (readSample F (flatIndex m.n m.phi_ldl p.1 p.2.1 p.2.2)
                (flatIndex m.n m.phigradx_ldl p.1 p.2.1 p.2.2)),
            Call.advance, Call.flush])) ∧
      (m.slicelength ≤ m.n → ∀ p ∈ ps,
        (0 ≤ flatIndex m.n m.phi_ldl p.1 p.2.1 p.2.2 ∧
          flatIndex m.n m.phi_ldl p.1 p.2.1 p.2.2 < m.phi_ldl * m.n * m.n) ∧
        (0 ≤ flatIndex m.n m.phigradx_ldl p.1 p.2.1 p.2.2 ∧
          flatIndex m.n m.phigradx_ldl p.1 p.2.1 p.2.2 < m.phigradx_ldl * m.n * m.n)) ∧
      ((∃ p ∈ ps,
          ¬ ((0 ≤ flatIndex m.n m.phi_ldl p.1 p.2.1 p.2.2 ∧
              flatIndex m.n m.phi_ldl p.1 p.2.1 p.2.2 < m.phi_ldl * m.n * m.n) ∧
            (0 ≤ flatIndex m.n m.phigradx_ldl p.1 p.2.1 p.2.2 ∧
              flatIndex m.n m.phigradx_ldl p.1 p.2.1 p.2.2 < m.phigradx_ldl * m.n * m.n))) →
        m.n < m.slicelength)) ∧
    (visited 3 (shortGridManager false) = some [(0, 0, 0), (0, 0, 1)] ∧
      ¬ (flatIndex (shortGridManager false).n (shortGridManager false).phi_ldl 0 0 1
          < (shortGridManager false).phi_ldl * (shortGridManager false).n
            * (shortGridManager false).n)) := by
  have hin : m.slicelength ≤ m.n → ∀ p ∈ positions m,
      (0 ≤ flatIndex m.n m.phi_ldl p.1 p.2.1 p.2.2 ∧
        flatIndex m.n m.phi_ldl p.1 p.2.1 p.2.2 < m.phi_ldl * m.n * m.n) ∧
      (0 ≤ flatIndex m.n m.phigradx_ldl p.1 p.2.1 p.2.2 ∧
        flatIndex m.n m.phigradx_ldl p.1 p.2.1 p.2.2 < m.phigradx_ldl * m.n * m.n) := by
    intro hL p hp
    obtain ⟨a0, b0, c0⟩ := mem_positions_nonneg m hS p hp
    obtain ⟨a1, b1, c1⟩ := mem_positions_lt m hS hL p hp
    exact ⟨flatIndex_bounds m.n m.phi_ldl p.1 p.2.1 p.2.2 a0 a1 b0 b1 c0 c1 h1 hfit1,
      flatIndex_bounds m.n m.phigradx_ldl p.1 p.2.1 p.2.2 a0 a1 b0 b1 c0 c1 h2 hfit2⟩
  constructor
  · obtain ⟨m', tr, ho, hrec⟩ := output_received m F fuel hS hfuel
    refine ⟨m', tr, positions m, ho, visited_eq m fuel hS hfuel, ?_, hin, ?_⟩
    · intro o hlt
      rw [hrec o hlt]
      congr 1
      apply List.flatMap_congr
      intro p _
      simp [positionCalls, positionSamples, havg, sampleAt]
    · rintro ⟨p, hp, hbad⟩
      by_contra hle
      exact hbad (hin (by omega) p hp)
  · refine ⟨?_, by decide⟩
    rw [visited_eq (shortGridManager false) 3 (by decide) (by decide)]
    decide

/-- Instance of the amended C16 on the example configuration of the spec in non-averaging
mode, with fuel 5. -/
theorem C16_point_in_range_witness :
    (∃ m' tr ps, output 5 (exampleManager false) exampleFieldsZ = some (m', tr) ∧
      visited 5 (exampleManager false) = some ps ∧
      (∀ o, o < (exampleManager false).outputters.length →
        received o tr = Call.begin (exampleManager false).bin_idx :: ps.flatMap (fun p =>
          [Call.accumulate
              (readSample exampleFieldsZ
                (flatIndex (exampleManager false).n (exampleManager false).phi_ldl
                  p.1 p.2.1 p.2.2)
                (flatIndex (exampleManager false).n (exampleManager false).phigradx_ldl
                  p.1 p.2.1 p.2.2)),
            Call.advance, Call.flush])) ∧
      ((exampleManager false).slicelength ≤ (exampleManager false).n → ∀ p ∈ ps,
        (0 ≤ flatIndex (exampleManager false).n (exampleManager false).phi_ldl
            p.1 p.2.1 p.2.2 ∧
          flatIndex (exampleManager false).n (exampleManager false).phi_ldl p.1 p.2.1 p.2.2
            < (exampleManager false).phi_ldl * (exampleManager false).n
              * (exampleManager false).n) ∧
        (0 ≤ flatIndex (exampleManager false).n (exampleManager false).phigradx_ldl
            p.1 p.2.1 p.2.2 ∧
          flatIndex (exampleManager false).n (exampleManager false).phigradx_ldl
              p.1 p.2.1 p.2.2
            < (exampleManager false).phigradx_ldl * (exampleManager false).n
              * (exampleManager false).n)) ∧
      ((∃ p ∈ ps,
          ¬ ((0 ≤ flatIndex (exampleManager false).n (exampleManager false).phi_ldl
                p.1 p.2.1 p.2.2 ∧
              flatIndex (exampleManager false).n (exampleManager false).phi_ldl
                  p.1 p.2.1 p.2.2
                < (exampleManager false).phi_ldl * (exampleManager false).n
                  * (exampleManager false).n) ∧
            (0 ≤ flatIndex (exampleManager false).n (exampleManager false).phigradx_ldl
                p.1 p.2.1 p.2.2 ∧
              flatIndex (exampleManager false).n (exampleManager false).phigradx_ldl
                  p.1 p.2.1 p.2.2
                < (exampleManager false).phigradx_ldl * (exampleManager false).n
                  * (exampleManager false).n))) →
        (exampleManager false).n < (exampleManager false).slicelength)) ∧
    (visited 3 (shortGridManager false) = some [(0, 0, 0), (0, 0, 1)] ∧
      ¬ (flatIndex (shortGridManager false).n (shortGridManager false).phi_ldl 0 0 1
          < (shortGridManager false).phi_ldl * (shortGridManager false).n
            * (shortGridManager false).n)) :=
  C16_point_in_range (exampleManager false) exampleFieldsZ 5 rfl (by decide) (by decide)
    (by decide) (by decide) (by decide) (by decide)

/-! ## C19 -/

/-- C19 as stated fails on a large grid: for `n = 2048`, `ldl = 2050` (`ldl ≥ n ≥ 1`) the
distinct grid points `(0,2046,4)` and `(1024,0,0)` have the same `int` index `4194304` (the
exact values `4194304` and `4299161600` differ by `2^32`), so the index map is not injective
on the grid, and although `(0,2046,4)` precedes `(1024,0,0)` lexicographically its index is
not smaller. -/
theorem C19_counterexample :
    (1 : Int) ≤ 2048 ∧ (2048 : Int) ≤ 2050 ∧
    ((0 : Int) ≤ 0 ∧ (0 : Int) < 2048) ∧ ((0 : Int) ≤ 2046 ∧ (2046 : Int) < 2048) ∧
    ((0 : Int) ≤ 4 ∧ (4 : Int) < 2048) ∧ ((0 : Int) ≤ 1024 ∧ (1024 : Int) < 2048) ∧
    lexLt (0, 2046, 4) (1024, 0, 0) ∧
    ((0 : Int), (2046 : Int), (4 : Int)) ≠ (1024, 0, 0) ∧
    flatIndex 2048 2050 0 2046 4 = 4194304 ∧
    flatIndex 2048 2050 1024 0 0 = 4194304 ∧
    flatIndex 2048 2050 0 2046 4 = flatIndex 2048 2050 1024 0 0 ∧
    ¬ (flatIndex 2048 2050 0 2046 4 < flatIndex 2048 2050 1024 0 0) := by
  have h1 : flatIndex 2048 2050 0 2046 4 = 4194304 := by decide
  have h2 : flatIndex 2048 2050 1024 0 0 = 4194304 := by decide
  refine ⟨by decide, by decide, by decide, by decide, by decide, by decide, ?_, by decide,
    h1, h2, by rw [h1, h2], by rw [h1, h2]; decide⟩
  exact Or.inl (by decide)

/-- C19 (amended): for `ldl ≥ n ≥ 1` with buffer size `ldl*n*n` within the range of a 32-bit
`int` (`ldl*n*n ≤ 2^31`), the `int` flat index `z + ldl*(y + n*x)` is strictly increasing from
the lexicographic order of the grid `[0,n)^3` to the integers, hence injective on the grid:
distinct grid points never read the same buffer element.  So when `slicelength ≤ n` and
`sliceskip ≥ 1` the flat indices of the visited positions, taken in traversal order, are
strictly increasing. -/
theorem C19_flatIndex_injective (n ldl : Int) (hn : 1 ≤ n) (hl : n ≤ ldl)
    (hfit : ldl * n * n ≤ 2147483648) :
    (∀ p q : Int × Int × Int,
      (0 ≤ p.1 ∧ p.1 < n) ∧ (0 ≤ p.2.1 ∧ p.2.1 < n) ∧ (0 ≤ p.2.2 ∧ p.2.2 < n) →
      (0 ≤ q.1 ∧ q.1 < n) ∧ (0 ≤ q.2.1 ∧ q.2.1 < n) ∧ (0 ≤ q.2.2 ∧ q.2.2 < n) →
      (lexLt p q → flatIndex n ldl p.1 p.2.1 p.2.2 < flatIndex n ldl q.1 q.2.1 q.2.2) ∧
      (flatIndex n ldl p.1 p.2.1 p.2.2 = flatIndex n ldl q.1 q.2.1 q.2.2 → p = q)) ∧
    (∀ (α : Type) (m : Manager α) (fuel : Nat), m.n = n → 1 ≤ m.sliceskip →
      m.slicelength ≤ m.n → max m.slicelength m.sliceskip < fuel →
      ∃ ps, visited fuel m = some ps ∧
        (ps.map (fun p => flatIndex m.n ldl p.1 p.2.1 p.2.2)).Pairwise (fun a b => a < b)) := by
  constructor
  · intro p q hp hq
    refine ⟨flatIndex_lt_of_lexLt n ldl p q hn hl hfit hp hq, ?_⟩
    intro he
    rcases lexLt_trichotomy p q with h | h | h
    · have := flatIndex_lt_of_lexLt n ldl p q hn hl hfit hp hq h
      omega
    · exact h
    · have := flatIndex_lt_of_lexLt n ldl q p hn hl hfit hq hp h
      omega
  · intro α m fuel hmn hS hL hfuel
    refine ⟨positions m, visited_eq m fuel hS hfuel, ?_⟩
    rw [List.pairwise_map]
    have hpw : (positions m).Pairwise lexLt :=
      pairwise_triples _ _ _ (pairwise_stride _ _ _ hS) (pairwise_stride _ _ _ hS)
        (pairwise_stride _ _ _ hS)
    refine hpw.imp_of_mem ?_
    intro p q hp hq hlt
    obtain ⟨a0, b0, c0⟩ := mem_positions_nonneg m hS p hp
    obtain ⟨a1, b1, c1⟩ := mem_positions_lt m hS hL p hp
    obtain ⟨d0, e0, f0⟩ := mem_positions_nonneg m hS q hq
    obtain ⟨d1, e1, f1⟩ := mem_positions_lt m hS hL q hq
    rw [hmn] at a1 b1 c1 d1 e1 f1 ⊢
    exact flatIndex_lt_of_lexLt n ldl p q hn hl hfit
      ⟨⟨a0, a1⟩, ⟨b0, b1⟩, c0, c1⟩ ⟨⟨d0, d1⟩, ⟨e0, e1⟩, f0, f1⟩ hlt

/-- Instance of the amended C19 on the example grid: `n = 4`, `ldl = 4`. -/
theorem C19_flatIndex_injective_witness :
    (∀ p q : Int × Int × Int,
      (0 ≤ p.1 ∧ p.1 < 4) ∧ (0 ≤ p.2.1 ∧ p.2.1 < 4) ∧ (0 ≤ p.2.2 ∧ p.2.2 < 4) →
      (0 ≤ q.1 ∧ q.1 < 4) ∧ (0 ≤ q.2.1 ∧ q.2.1 < 4) ∧ (0 ≤ q.2.2 ∧ q.2.2 < 4) →
      (lexLt p q → flatIndex 4 4 p.1 p.2.1 p.2.2 < flatIndex 4 4 q.1 q.2.1 q.2.2) ∧
      (flatIndex 4 4 p.1 p.2.1 p.2.2 = flatIndex 4 4 q.1 q.2.1 q.2.2 → p = q)) ∧
    (∀ (α : Type) (m : Manager α) (fuel : Nat), m.n = 4 → 1 ≤ m.sliceskip →
      m.slicelength ≤ m.n → max m.slicelength m.sliceskip < fuel →
      ∃ ps, visited fuel m = some ps ∧
        (ps.map (fun p => flatIndex m.n 4 p.1 p.2.1 p.2.2)).Pairwise (fun a b => a < b)) :=
  C19_flatIndex_injective 4 4 (by decide) (by decide) (by decide)

/-! ## C13 -/

theorem axisVisits_consecutive (bound S : Int) (t : Nat)
    (ht : t + 1 < (axisVisits bound S).length) :
    ∃ k, (axisVisits bound S)[t]? = some k ∧ (axisVisits bound S)[t + 1]? = some (k + S) ∧
      ((pointsBetween k (k + S)).length : Int) = (S - 1).toNat := by
  rw [axisVisits, stride_eq_map] at ht ⊢
  simp only [List.length_map, List.length_range] at ht
  refine ⟨0 + (t : Int) * S, ?_, ?_, ?_⟩
  · rw [List.getElem?_map, List.getElem?_range (by omega)]
    rfl
  · rw [List.getElem?_map, List.getElem?_range (by omega)]
    simp only [Option.map_some', Option.some.injEq]
    push_cast
    ring
  · rw [length_pointsBetween]
    congr 2
    ring

/-- C13 as stated fails when `S` is the member `sliceskip`: on the example configuration
(`sliceskip = 2`, `slicedim = 1`) the visited positions are `(0,0,0)` and `(0,0,2)`, and
exactly one grid point (`1`) lies strictly between them, not `2`. -/
theorem C13_counterexample :
    visited 5 (exampleManager false) = some [(0, 0, 0), (0, 0, 2)] ∧
    pointsBetween 0 2 = [1] ∧
    ((pointsBetween 0 2).length : Int) ≠ (exampleManager false).sliceskip := by
  refine ⟨?_, by decide, by decide⟩
  rw [visited_eq (exampleManager false) 5 (by decide) (by decide), positions_exampleManager]

/-- C13 (amended): the member `sliceskip = S ≥ 1` is the stride of the position loops.  The
visited positions are the triples of three axis lists, and on each axis two consecutive
visited coordinates are `k` and `k + S`, so exactly `S - 1` grid points lie strictly between
them; for a number `skip` with `sliceskip = skip + 1` that is exactly `skip` points.  For a
one-dimensional slice the consecutive visited positions themselves are `(0,0,k)` and
`(0,0,k+S)`. -/
theorem C13_skip_gap {α : Type} (m : Manager α) (fuel : Nat) (hS : 1 ≤ m.sliceskip)
    (hfuel : max m.slicelength m.sliceskip < fuel) :
    (∃ xs ys zs, visited fuel m = some (triples xs ys zs) ∧
      ∀ l ∈ [xs, ys, zs], ∀ t, t + 1 < l.length →
        ∃ k, l[t]? = some k ∧ l[t + 1]? = some (k + m.sliceskip) ∧
          ((pointsBetween k (k + m.sliceskip)).length : Int) = m.sliceskip - 1 ∧
          ∀ skip : Int, m.sliceskip = skip + 1 →
            ((pointsBetween k (k + m.sliceskip)).length : Int) = skip) ∧
    (m.slicedim ≤ 1 →
      ∃ ps, visited fuel m = some ps ∧
        ∀ t, t + 1 < ps.length →
          ∃ k, ps[t]? = some (0, 0, k) ∧ ps[t + 1]? = some (0, 0, k + m.sliceskip) ∧
            ((pointsBetween k (k + m.sliceskip)).length : Int) = m.sliceskip - 1) := by
  constructor
  · refine ⟨axisVisits (boundI m) m.sliceskip, axisVisits (boundJ m) m.sliceskip,
      axisVisits m.slicelength m.sliceskip, visited_eq m fuel hS hfuel, ?_⟩
    intro l hl t ht
    have hax : ∃ bound, l = axisVisits bound m.sliceskip := by
      simp only [List.mem_cons, List.mem_singleton, List.not_mem_nil, or_false] at hl
      rcases hl with rfl | rfl | rfl
      · exact ⟨_, rfl⟩
      · exact ⟨_, rfl⟩
      · exact ⟨_, rfl⟩
    obtain ⟨bound, rfl⟩ := hax
    obtain ⟨k, h1, h2, h3⟩ := axisVisits_consecutive bound m.sliceskip t ht
    refine ⟨k, h1, h2, by omega, ?_⟩
    intro skip hskip
    omega
  · intro hd
    refine ⟨positions m, visited_eq m fuel hS hfuel, ?_⟩
    intro t ht
    rw [positions_one_dim m hS hd] at ht ⊢
    simp only [List.length_map, List.length_range] at ht
    refine ⟨(t : Int) * m.sliceskip, ?_, ?_, ?_⟩
    · rw [List.getElem?_map, List.getElem?_range (by omega)]
      rfl
    · rw [List.getElem?_map, List.getElem?_range (by omega)]
      simp only [Option.map_some', Option.some.injEq, Prod.mk.injEq, true_and]
      push_cast
      ring
    · rw [length_pointsBetween]
      omega

/-- Instance of the amended C13 on the example configuration of the spec, with fuel 5. -/
theorem C13_skip_gap_witness :
    (∃ xs ys zs, visited 5 (exampleManager false) = some (triples xs ys zs) ∧
      ∀ l ∈ [xs, ys, zs], ∀ t, t + 1 < l.length →
        ∃ k, l[t]? = some k ∧ l[t + 1]? = some (k + (exampleManager false).sliceskip) ∧
          ((pointsBetween k (k + (exampleManager false).sliceskip)).length : Int)
            = (exampleManager false).sliceskip - 1 ∧
          ∀ skip : Int, (exampleManager false).sliceskip = skip + 1 →
            ((pointsBetween k (k + (exampleManager false).sliceskip)).length : Int) = skip) ∧
    ((exampleManager false).slicedim ≤ 1 →
      ∃ ps, visited 5 (exampleManager false) = some ps ∧
        ∀ t, t + 1 < ps.length →
          ∃ k, ps[t]? = some (0, 0, k) ∧
            ps[t + 1]? = some (0, 0, k + (exampleManager false).sliceskip) ∧
            ((pointsBetween k (k + (exampleManager false).sliceskip)).length : Int)
              = (exampleManager false).sliceskip - 1) :=
  C13_skip_gap (exampleManager false) 5 (by decide) (by decide)

/-! ## C4 (amended) -/

theorem blockValue_unclipped (m : Manager ℚ) (F : HostFields ℚ) (vf : Sample ℚ → ℚ)
    (hS : 1 ≤ m.sliceskip) (p : Int × Int × Int)
    (h1 : p.1 + m.sliceskip ≤ m.n) (h2 : p.2.1 + m.sliceskip ≤ m.n)
    (h3 : p.2.2 + m.sliceskip ≤ m.n) :
    blockValue true vf ((blockList m p).map (sampleAt m F))
      = ((blockList m p).map (fun q => vf
            (readSample F (flatIndex m.n m.phi_ldl q.1 q.2.1 q.2.2)
              (flatIndex m.n m.phigradx_ldl q.1 q.2.1 q.2.2)))).sum
          / (m.sliceskip : ℚ) ^ 3 := by
  have hc : ((m.sliceskip.toNat ^ 3 : Nat) : ℚ) = (m.sliceskip : ℚ) ^ 3 := by
    have : ((m.sliceskip.toNat : Nat) : Int) = m.sliceskip := Int.toNat_of_nonneg (by omega)
    have h2 : ((m.sliceskip.toNat : Nat) : ℚ) = (m.sliceskip : ℚ) := by exact_mod_cast this
    rw [Nat.cast_pow, h2]
  simp only [blockValue, if_true, List.map_map, List.length_map,
    length_blockList_unclipped m p h1 h2 h3]
  rw [hc]
  rfl

theorem blockList_ne_nil_of_le {α : Type} (m : Manager α) (hS : 1 ≤ m.sliceskip)
    (hL : m.slicelength ≤ m.n) (p : Int × Int × Int) (hp : p ∈ positions m) :
    blockList m p ≠ [] :=
  List.ne_nil_of_mem (mem_blockList_self m hS p (mem_positions_lt m hS hL p hp))

/-- C4 (amended): in averaging mode with `sliceskip = S > 1`, `output()` returns and every
registered outputter receives, after `begin`, for each visited position the `accumulate`
calls of the grid points of its block followed by `advance` and `flush`.  For every visited
position `(i,j,k)` whose block is not clipped (`i+S ≤ n`, `j+S ≤ n`, `k+S ≤ n`) the block
consists of exactly the `S^3` distinct points of `[i,i+S) × [j,j+S) × [k,k+S)`, on all three
axes whatever `slicedim` is, and the Sample Accumulator, on receiving the calls of that
position, commits the arithmetic mean of the transform over those `S^3` points.  In every run
in which no visited block is empty, in particular whenever `slicelength ≤ n`, the values
flushed by the call exist, one per visited position, and the value of every unclipped
position is that mean, whether or not other positions are clipped.  On the example of the
spec with a field that holds `1,2,3,4` along the sampled axis for every `x`, `y`, the flushed
values are `3/2` and `7/2`. -/
theorem C4_block_average (m : Manager ℚ) (F : HostFields ℚ) (fuel : Nat)
    (havg : m.sliceaverage = true) (hS : 1 < m.sliceskip)
    (hfuel : max m.slicelength m.sliceskip < fuel) :
    (∃ (m' : Manager ℚ) (tr : List (Event ℚ)) (ps : List (Int × Int × Int))
        (blk : Int × Int × Int → List (Int × Int × Int)),
      output fuel m F = some (m', tr) ∧ visited fuel m = some ps ∧
      (∀ p ∈ ps, blockPoints fuel m p.1 p.2.1 p.2.2 = some (blk p)) ∧
      (∀ o, o < m.outputters.length →
        received o tr = Call.begin m.bin_idx :: ps.flatMap (fun p =>
          (blk p).map (fun q => Call.accumulate
              (readSample F (flatIndex m.n m.phi_ldl q.1 q.2.1 q.2.2)
                (flatIndex m.n m.phigradx_ldl q.1 q.2.1 q.2.2)))
            ++ [Call.advance, Call.flush])) ∧
      (∀ p ∈ ps, p.1 + m.sliceskip ≤ m.n → p.2.1 + m.sliceskip ≤ m.n →
          p.2.2 + m.sliceskip ≤ m.n →
        (blk p).length = m.sliceskip.toNat ^ 3 ∧ (blk p).Nodup ∧
        (∀ x y z, (x, y, z) ∈ blk p ↔
          (p.1 ≤ x ∧ x < p.1 + m.sliceskip) ∧ (p.2.1 ≤ y ∧ y < p.2.1 + m.sliceskip) ∧
          (p.2.2 ≤ z ∧ z < p.2.2 + m.sliceskip)) ∧
        ∀ (vf : Sample ℚ → ℚ) (c : Int) (cur : Nat) (sink : List ℚ),
          Accumulator.run vf
              { average := true, cycle := some c, sum := 0, count := 0, last := none,
                cursor := cur, pending := none, sink := sink }
              ((blk p).map (fun q => Call.accumulate
                  (readSample F (flatIndex m.n m.phi_ldl q.1 q.2.1 q.2.2)
                    (flatIndex m.n m.phigradx_ldl q.1 q.2.1 q.2.2)))
                ++ [Call.advance, Call.flush])
            = some { average := true, cycle := some c, sum := 0, count := 0, last := none,
                     cursor := cur + 1, pending := none,
                     sink := sink ++
                       [((blk p).map (fun q => vf
                            (readSample F (flatIndex m.n m.phi_ldl q.1 q.2.1 q.2.2)
                              (flatIndex m.n m.phigradx_ldl q.1 q.2.1 q.2.2)))).sum
                          / (m.sliceskip : ℚ) ^ 3] }) ∧
      (m.slicelength ≤ m.n → ∀ p ∈ ps, blk p ≠ []) ∧
      (∀ o out, m.outputters.get? o = some out → (∀ p ∈ ps, blk p ≠ []) →
        ∃ vs, outputValues fuel m F o = some vs ∧ vs.length = ps.length ∧
          ∀ (t : Nat) (p : Int × Int × Int), ps[t]? = some p →
            p.1 + m.sliceskip ≤ m.n → p.2.1 + m.sliceskip ≤ m.n →
            p.2.2 + m.sliceskip ≤ m.n →
            vs[t]? = some
              (((blk p).map (fun q => out.vf
                  (readSample F (flatIndex m.n m.phi_ldl q.1 q.2.1 q.2.2)
                    (flatIndex m.n m.phigradx_ldl q.1 q.2.1 q.2.2)))).sum
                / (m.sliceskip : ℚ) ^ 3))) ∧
    outputValues 5 (exampleManager true) exampleFieldsZ 0 = some [3 / 2, 7 / 2] := by
  have hS1 : 1 ≤ m.sliceskip := by omega
  constructor
  · obtain ⟨m', tr, hout, hrec⟩ := output_received m F fuel hS1 hfuel
    refine ⟨m', tr, positions m, blockList m, hout, visited_eq m fuel hS1 hfuel, ?_, ?_, ?_,
      ?_, ?_⟩
    · intro p _
      exact blockPoints_eq m p.1 p.2.1 p.2.2 fuel (by omega)
    · intro o ho
      rw [hrec o ho]
      congr 1
      apply List.flatMap_congr
      intro p _
      simp only [positionCalls, positionSamples, havg, if_true, List.map_map]
      rfl
    · intro p _ h1 h2 h3
      refine ⟨length_blockList_unclipped m p h1 h2 h3, nodup_blockList m p, ?_, ?_⟩
      · intro x y z
        rw [mem_blockList]
        constructor
        · rintro ⟨⟨a1, a2, _⟩, ⟨b1, b2, _⟩, c1, c2, _⟩
          exact ⟨⟨a1, a2⟩, ⟨b1, b2⟩, c1, c2⟩
        · rintro ⟨⟨a1, a2⟩, ⟨b1, b2⟩, c1, c2⟩
          simp only at a1 a2 b1 b2 c1 c2 ⊢
          exact ⟨⟨a1, a2, by omega⟩, ⟨b1, b2, by omega⟩, c1, c2, by omega⟩
      · intro vf c cur sink
        have hne : (blockList m p).map (sampleAt m F) ≠ [] := by
          intro h
          have hl := length_blockList_unclipped m p h1 h2 h3
          rw [← List.length_map (blockList m p) (sampleAt m F), h] at hl
          have hpos : 0 < m.sliceskip.toNat ^ 3 := Nat.pos_pow_of_pos _ (by omega)
          simp at hl
          omega
        have hrun := run_position vf true c cur sink ((blockList m p).map (sampleAt m F)) hne
        rw [blockValue_unclipped m F vf hS1 p h1 h2 h3, List.map_map] at hrun
        exact hrun
    · intro hL p hp
      exact blockList_ne_nil_of_le m hS1 hL p hp
    · intro o out ho hall
      refine ⟨_, outputValues_eq m F fuel hS1 hfuel o out ho ?_, by simp, ?_⟩
      · intro p hp
        simp only [positionSamples, havg, if_true]
        intro h
        exact hall p hp (List.map_eq_nil_iff.1 h)
      · intro t p hpt h1 h2 h3
        rw [List.getElem?_map, hpt]
        simp only [Option.map_some', positionSamples, havg, if_true]
        rw [blockValue_unclipped m F out.vf hS1 p h1 h2 h3]
  · rw [outputValues_exampleManager_true]
    simp [exampleFieldsZ]
    norm_num

/-- Instance of the amended C4 on an averaging configuration with a clipped last block
(`n = 5`, `slicelength = 5`, `sliceskip = 2`, `slicedim = 1`), with fuel 6. -/
theorem C4_block_average_witness :
    (∃ (m' : Manager ℚ) (tr : List (Event ℚ)) (ps : List (Int × Int × Int))
        (blk : Int × Int × Int → List (Int × Int × Int)),
      output 6 oddGridManager exampleFieldsZ = some (m', tr) ∧
      visited 6 oddGridManager = some ps ∧
      (∀ p ∈ ps, blockPoints 6 oddGridManager p.1 p.2.1 p.2.2 = some (blk p)) ∧
      (∀ o, o < oddGridManager.outputters.length →
        received o tr = Call.begin oddGridManager.bin_idx :: ps.flatMap (fun p =>
          (blk p).map (fun q => Call.accumulate
              (readSample exampleFieldsZ
                (flatIndex oddGridManager.n oddGridManager.phi_ldl q.1 q.2.1 q.2.2)
                (flatIndex oddGridManager.n oddGridManager.phigradx_ldl q.1 q.2.1 q.2.2)))
            ++ [Call.advance, Call.flush])) ∧
      (∀ p ∈ ps, p.1 + oddGridManager.sliceskip ≤ oddGridManager.n →
          p.2.1 + oddGridManager.sliceskip ≤ oddGridManager.n →
          p.2.2 + oddGridManager.sliceskip ≤ oddGridManager.n →
        (blk p).length = oddGridManager.sliceskip.toNat ^ 3 ∧ (blk p).Nodup ∧
        (∀ x y z, (x, y, z) ∈ blk p ↔
          (p.1 ≤ x ∧ x < p.1 + oddGridManager.sliceskip) ∧
          (p.2.1 ≤ y ∧ y < p.2.1 + oddGridManager.sliceskip) ∧
          (p.2.2 ≤ z ∧ z < p.2.2 + oddGridManager.sliceskip)) ∧
        ∀ (vf : Sample ℚ → ℚ) (c : Int) (cur : Nat) (sink : List ℚ),
          Accumulator.run vf
              { average := true, cycle := some c, sum := 0, count := 0, last := none,
                cursor := cur, pending := none, sink := sink }
              ((blk p).map (fun q => Call.accumulate
                  (readSample exampleFieldsZ
                    (flatIndex oddGridManager.n oddGridManager.phi_ldl q.1 q.2.1 q.2.2)
                    (flatIndex oddGridManager.n oddGridManager.phigradx_ldl
                      q.1 q.2.1 q.2.2)))
                ++ [Call.advance, Call.flush])
            = some { average := true, cycle := some c, sum := 0, count := 0, last := none,
                     cursor := cur + 1, pending := none,
                     sink := sink ++
                       [((blk p).map (fun q => vf
                            (readSample exampleFieldsZ
                              (flatIndex oddGridManager.n oddGridManager.phi_ldl
                                q.1 q.2.1 q.2.2)
                              (flatIndex oddGridManager.n oddGridManager.phigradx_ldl
                                q.1 q.2.1 q.2.2)))).sum
                          / (oddGridManager.sliceskip : ℚ) ^ 3] }) ∧
      (oddGridManager.slicelength ≤ oddGridManager.n → ∀ p ∈ ps, blk p ≠ []) ∧
      (∀ o out, oddGridManager.outputters.get? o = some out → (∀ p ∈ ps, blk p ≠ []) →
        ∃ vs, outputValues 6 oddGridManager exampleFieldsZ o = some vs ∧
          vs.length = ps.length ∧
          ∀ (t : Nat) (p : Int × Int × Int), ps[t]? = some p →
            p.1 + oddGridManager.sliceskip ≤ oddGridManager.n →
            p.2.1 + oddGridManager.sliceskip ≤ oddGridManager.n →
            p.2.2 + oddGridManager.sliceskip ≤ oddGridManager.n →
            vs[t]? = some
              (((blk p).map (fun q => out.vf
                  (readSample exampleFieldsZ
                    (flatIndex oddGridManager.n oddGridManager.phi_ldl q.1 q.2.1 q.2.2)
                    (flatIndex oddGridManager.n oddGridManager.phigradx_ldl
                      q.1 q.2.1 q.2.2)))).sum
                / (oddGridManager.sliceskip : ℚ) ^ 3))) ∧
    outputValues 5 (exampleManager true) exampleFieldsZ 0 = some [3 / 2, 7 / 2] :=
  C4_block_average oddGridManager exampleFieldsZ 6 rfl (by decide) (by decide)

end SliceOutput
